import Mathlib

/-!
# ccalc: tokenizer, shunting-yard evaluator and superscript normalizer

A shallow embedding of `src/ccalc.c`.

* A C string is a `List Char`, one `Char` for each `char`; reading at or past
  its end yields the terminating NUL, `'\x00'`.  The normalizer, which works
  on the bytes of UTF-8, takes a list of natural numbers below 256.
* A C `double` is `Dbl`: the exact rational value of a finite binary64 number,
  an infinity, or NaN.  `+ - * /` and the conversion done by `strtod` round the
  exact result to nearest, ties to even.  The two zeros are one value, as they
  are for the comparison `b==0.0` of the source.
* `pow` of libm is a parameter of the evaluator.
* The stacks `DStack` and `OStack` are lists whose head is the top.
-/

namespace Ccalc

/-! ## The C `double` -/

/-- A value of the C type `double`. -/
inductive Dbl where
  | fin (q : ℚ)
  | inf (neg : Bool)
  | nan
deriving DecidableEq

/-- The rational `b ^ k` for an integer exponent `k`. -/
def qpow (b : Nat) (k : Int) : ℚ :=
  if 0 ≤ k then mkRat ((b : Int) ^ k.toNat) 1 else mkRat 1 (b ^ (-k).toNat)

/-- Halve `n` until it is below 2, at most `fuel` times, counting the steps. -/
def nlog2_go : Nat → Nat → Nat
  | 0, _ => 0
  | fuel + 1, n => if 2 ≤ n then nlog2_go fuel (n / 2) + 1 else 0

/-- For `0 < n`: the natural number `k` with `2 ^ k ≤ n < 2 ^ (k + 1)`. -/
def nlog2 (n : Nat) : Nat := nlog2_go n n

/-- For `0 < a`: the integer `k` with `2 ^ k ≤ a < 2 ^ (k + 1)`. -/
def flog2 (a : ℚ) : Int :=
  let k : Int := (nlog2 a.num.natAbs : Int) - (nlog2 a.den : Int)
  if qpow 2 k ≤ a then k else k - 1

/-- Round a positive rational to binary64, to nearest, ties to even: 53
significant bits, least exponent `-1074`, overflow to infinity from `2 ^ 1024`. -/
def roundMag (a : ℚ) : Dbl :=
  let e : Int := max (flog2 a - 52) (-1074)
  let m : ℚ := a / qpow 2 e
  let n : Int := m.floor
  let r : ℚ := m - n
  let n1 : Int := if r < 1 / 2 then n else if 1 / 2 < r then n + 1
    else if n % 2 = 0 then n else n + 1
  let v : ℚ := n1 * qpow 2 e
  if qpow 2 1024 ≤ v then .inf false else .fin v

/-- Unary minus of a `double`. -/
def Dbl.neg : Dbl → Dbl
  | .fin q => .fin (-q)
  | .inf s => .inf (!s)
  | .nan => .nan

/-- Round an exact rational result to binary64. -/
def round64 (q : ℚ) : Dbl :=
  if q = 0 then .fin 0 else if q < 0 then (roundMag (-q)).neg else roundMag q

/-- The C expression `a+b`. -/
def Dbl.add : Dbl → Dbl → Dbl
  | .fin a, .fin b => round64 (a + b)
  | .fin _, .inf s => .inf s
  | .inf s, .fin _ => .inf s
  | .inf s, .inf t => if s = t then .inf s else .nan
  | _, _ => .nan

/-- The C expression `a-b`. -/
def Dbl.sub (a b : Dbl) : Dbl := a.add b.neg

/-- The C expression `a*b`. -/
def Dbl.mul : Dbl → Dbl → Dbl
  | .fin a, .fin b => round64 (a * b)
  | .fin a, .inf s => if a = 0 then .nan else .inf (s != decide (a < 0))
  | .inf s, .fin b => if b = 0 then .nan else .inf (s != decide (b < 0))
  | .inf s, .inf t => .inf (s != t)
  | _, _ => .nan

/-- The C expression `a/b`.  With a zero divisor the sign of the infinity would
be that of the lost sign of zero; `apply_op` never divides by zero. -/
def Dbl.div : Dbl → Dbl → Dbl
  | .fin a, .fin b =>
      if b = 0 then (if a = 0 then .nan else .inf (decide (a < 0))) else round64 (a / b)
  | .fin _, .inf _ => .fin 0
  | .inf s, .fin b => .inf (s != decide (b < 0))
  | _, _ => .nan

/-- The C condition `isnan(r) || isinf(r)`. -/
def Dbl.isNanOrInf : Dbl → Bool
  | .fin _ => false
  | _ => true

/-- The macro `M_PI`, as the binary64 number nearest to it. -/
def M_PI : Dbl := .fin (mkRat 884279719003555 281474976710656)

/-- The macro `M_E` of `math.h`, as the binary64 number nearest to it. -/
def M_E : Dbl := .fin (mkRat 6121026514868073 2251799813685248)

/-! ## `ctype.h` and `strtod` -/

/-- `isspace` of the C locale. -/
def isspace (c : Char) : Bool :=
  c = ' ' || c = '\t' || c = '\n' || c = '\x0b' || c = '\x0c' || c = '\r'

/-- `isdigit`. -/
def isdigit (c : Char) : Bool := '0' ≤ c && c ≤ '9'

/-- `isxdigit`. -/
def isxdigit (c : Char) : Bool :=
  isdigit c || ('a' ≤ c && c ≤ 'f') || ('A' ≤ c && c ≤ 'F')

/-- Value of a decimal or hexadecimal digit. -/
def digitVal (c : Char) : Nat :=
  if isdigit c then c.toNat - 48 else if 'a' ≤ c then c.toNat - 87 else c.toNat - 55

/-- Value of a digit string in the given base. -/
def natOfDigits (base : Nat) (ds : List Char) : Nat :=
  ds.foldl (fun n c => base * n + digitVal c) 0

/-- Exponent part of a floating literal: `marker`, an optional sign, digits.
Returns the exponent and the number of characters taken, `0` when there is no
complete exponent part. -/
def strtod_exp (marker : Char → Bool) (l : List Char) : Int × Nat :=
  match l with
  | [] => (0, 0)
  | c :: t =>
    if marker c then
      let sl : Nat := match t with
        | [] => 0
        | d :: _ => if d = '+' ∨ d = '-' then 1 else 0
      let ds := (t.drop sl).takeWhile isdigit
      if ds = [] then (0, 0)
      else (if t.head? = some '-' then -(natOfDigits 10 ds : Int) else natOfDigits 10 ds,
            1 + sl + ds.length)
    else (0, 0)

/-- Mantissa with an optional radix point, then an optional exponent part.
Returns the exact value and the number of characters taken, `0` when the
mantissa has no digit. -/
def strtod_body (digit : Char → Bool) (base : Nat) (ebase : Nat) (scale : Nat)
    (marker : Char → Bool) (l : List Char) : ℚ × Nat :=
  let ip := l.takeWhile digit
  let l1 := l.drop ip.length
  let dot : Nat := match l1 with
    | [] => 0
    | c :: _ => if c = '.' then 1 else 0
  let fp := (l1.drop dot).takeWhile digit
  if ip = [] ∧ fp = [] then (0, 0)
  else
    let ex := strtod_exp marker (l1.drop (dot + fp.length))
    ((natOfDigits base (ip ++ fp) : ℚ) * qpow ebase (ex.1 - scale * fp.length),
     ip.length + dot + fp.length + ex.2)

/-- The exponent marker of a decimal floating literal. -/
def dec_marker (c : Char) : Bool := c = 'e' || c = 'E'

/-- The exponent marker of a hexadecimal floating literal. -/
def hex_marker (c : Char) : Bool := c = 'p' || c = 'P'

/-- The subject sequence after the sign: a hexadecimal form `0x…` when one is
there, else the decimal form. -/
def strtod_unsigned (l : List Char) : ℚ × Nat :=
  let hex : ℚ × Nat := match l with
    | c0 :: c1 :: t =>
      if c0 = '0' ∧ (c1 = 'x' ∨ c1 = 'X') then strtod_body isxdigit 16 2 4 hex_marker t
      else (0, 0)
    | _ => (0, 0)
  if hex.2 ≠ 0 then (hex.1, 2 + hex.2)
  else strtod_body isdigit 10 10 1 dec_marker l

/-- The library function `strtod(nptr, &end)`: the converted value and
`end - nptr`, which is `0` when no conversion is performed.  The leading
white space and the `INF`/`NAN` forms that `strtod` also accepts are left out:
`next_token` calls it only on a digit, a `.`, or a sign followed by one. -/
def strtod (nptr : List Char) : Dbl × Nat :=
  let sl : Nat := match nptr with
    | [] => 0
    | c :: _ => if c = '+' ∨ c = '-' then 1 else 0
  let r := strtod_unsigned (nptr.drop sl)
  if r.2 = 0 then (.fin 0, 0)
  else
    let v := round64 r.1
    (if nptr.head? = some '-' then v.neg else v, sl + r.2)

/-! ## Tokenizer -/

inductive TokType where
  | T_NUMBER | T_OP | T_LPAREN | T_RPAREN | T_END | T_INVALID
deriving DecidableEq

structure Token where
  type : TokType
  value : Dbl
  op : Char
deriving DecidableEq

structure Lexer where
  s : List Char
  i : Nat
deriving DecidableEq

/-- The C pointer `&lx->s[lx->i]`: the string from the cursor on. -/
def Lexer.cur (lx : Lexer) : List Char := lx.s.drop lx.i

/-- The character `lx->s[lx->i + k]`. -/
def Lexer.at (lx : Lexer) (k : Nat) : Char := (lx.cur.drop k).headD '\x00'

/-- The loop of `skip_ws` over the characters from the cursor on. -/
def skip_ws_from : List Char → Nat → Nat
  | [], i => i
  | c :: cs, i => if isspace c then skip_ws_from cs (i + 1) else i

def skip_ws (lx : Lexer) : Lexer := { lx with i := skip_ws_from lx.cur lx.i }

/-- `strncasecmp(p, "pi", 2)==0`. -/
def is_pi (p : List Char) : Bool :=
  match p with
  | c0 :: c1 :: _ => (c0 = 'p' || c0 = 'P') && (c1 = 'i' || c1 = 'I')
  | _ => false

def next_token (lx0 : Lexer) : Token × Lexer :=
  let lx := skip_ws lx0
  let c := lx.at 0
  if c = '\x00' then (⟨.T_END, .fin 0, '\x00'⟩, lx)
  else if c = '(' then (⟨.T_LPAREN, .fin 0, '('⟩, { lx with i := lx.i + 1 })
  else if c = ')' then (⟨.T_RPAREN, .fin 0, ')'⟩, { lx with i := lx.i + 1 })
  else if isdigit c || c = '.' ||
      ((c = '+' || c = '-') && (isdigit (lx.at 1) || lx.at 1 = '.')) then
    let r := strtod lx.cur
    if r.2 = 0 then (⟨.T_INVALID, .fin 0, '\x00'⟩, lx)
    else (⟨.T_NUMBER, r.1, '\x00'⟩, { lx with i := lx.i + r.2 })
  else if c = '+' || c = '-' || c = '*' || c = '/' || c = '^' then
    (⟨.T_OP, .fin 0, c⟩, { lx with i := lx.i + 1 })
  else if is_pi lx.cur then (⟨.T_NUMBER, M_PI, '\x00'⟩, { lx with i := lx.i + 2 })
  else if c = 'e' || c = 'E' then (⟨.T_NUMBER, M_E, '\x00'⟩, { lx with i := lx.i + 1 })
  else (⟨.T_INVALID, .fin 0, '\x00'⟩, lx)

def precedence (op : Char) : Nat :=
  if op = '^' then 4
  else if op = '*' ∨ op = '/' then 3
  else if op = '+' ∨ op = '-' then 2
  else 0

def right_associative (op : Char) : Bool := op = '^'

/-! ## Evaluator -/

/-- The failures of `evaluate_expression`, one for each message it writes. -/
inductive EvalError where
  | InvalidToken (position : Nat)
  | MismatchedParens
  | MissingOperands
  | DivisionByZero
  | UnknownOperator (op : Char)
  | NumericOverflow
  | MalformedExpression
deriving DecidableEq

/-- The text written into `err`. -/
def EvalError.message : EvalError → String
  | .InvalidToken position => "Invalid token near index " ++ toString position
  | .MismatchedParens => "Mismatched parentheses"
  | .MissingOperands => "Malformed expression (missing operands)"
  | .DivisionByZero => "Division by zero"
  | .UnknownOperator op => "Unknown operator \x27" ++ String.singleton op ++ "\x27"
  | .NumericOverflow => "Numeric overflow/invalid result"
  | .MalformedExpression => "Malformed expression"

/-- The function `ds_pop`: the top of the stack and the rest, `none` for the
return value 0. -/
def ds_pop (s : List Dbl) : Option (Dbl × List Dbl) :=
  match s with
  | [] => none
  | x :: rest => some (x, rest)

/-- The function `apply_op`: the operand stack after `op` is applied to its two
top entries, or the error it reports. -/
def apply_op (pow : Dbl → Dbl → Dbl) (vals : List Dbl) (op : Char) :
    Except EvalError (List Dbl) :=
  match ds_pop vals with
  | none => .error .MissingOperands
  | some (b, vals1) =>
    match ds_pop vals1 with
    | none => .error .MissingOperands
    | some (a, vals2) =>
      let r : Except EvalError Dbl :=
        if op = '+' then .ok (a.add b)
        else if op = '-' then .ok (a.sub b)
        else if op = '*' then .ok (a.mul b)
        else if op = '/' then (if b = .fin 0 then .error .DivisionByZero else .ok (a.div b))
        else if op = '^' then .ok (pow a b)
        else .error (.UnknownOperator op)
      match r with
      | .error e => .error e
      | .ok r => if r.isNanOrInf then .error .NumericOverflow else .ok (r :: vals2)

/-- The loop of the `T_RPAREN` branch: apply operators down to the nearest `(`. -/
def rparen_loop (pow : Dbl → Dbl → Dbl) :
    List Dbl → List Char → Except EvalError (List Dbl × List Char)
  | vals, [] => .ok (vals, [])
  | vals, top :: ops =>
    if top ≠ '(' then
      match apply_op pow vals top with
      | .error e => .error e
      | .ok vals1 => rparen_loop pow vals1 ops
    else .ok (vals, top :: ops)

/-- The loop of the `T_OP` branch: apply the operators that bind at least as
tightly as `op`. -/
def op_loop (pow : Dbl → Dbl → Dbl) (op : Char) :
    List Dbl → List Char → Except EvalError (List Dbl × List Char)
  | vals, [] => .ok (vals, [])
  | vals, top :: ops =>
    if top ≠ '(' ∧ (precedence top > precedence op ∨
        (precedence top = precedence op ∧ ¬ right_associative op)) then
      match apply_op pow vals top with
      | .error e => .error e
      | .ok vals1 => op_loop pow op vals1 ops
    else .ok (vals, top :: ops)

/-- The block after the main loop: apply what is left on the operator stack,
then require exactly one operand. -/
def finalize (pow : Dbl → Dbl → Dbl) : List Dbl → List Char → Except EvalError Dbl
  | vals, top :: ops =>
    if top = '(' ∨ top = ')' then .error .MismatchedParens
    else
      match apply_op pow vals top with
      | .error e => .error e
      | .ok vals1 => finalize pow vals1 ops
  | vals, [] =>
    match ds_pop vals with
    | none => .error .MalformedExpression
    | some (result, rest) => if rest.length ≠ 0 then .error .MalformedExpression else .ok result

/-- The main loop `for(;;)` of `evaluate_expression`, one token for each unit of
fuel; `none` when the fuel is used up before the loop is left.  On `T_INVALID`
the source sets `ok=0`, writes the invalid-token message and leaves the loop
with `break`, so the final block still runs: a failure there writes its own
message over the first one, and without one the first message stands. -/
def main_loop (pow : Dbl → Dbl → Dbl) :
    Nat → Lexer → List Dbl → List Char → Bool → Option (Except EvalError Dbl)
  | 0, _, _, _, _ => none
  | fuel + 1, lx0, vals, ops, expect_unary =>
    let t := (next_token lx0).1
    let lx := (next_token lx0).2
    match t.type with
    | .T_INVALID =>
      match finalize pow vals ops with
      | .error e => some (.error e)
      | .ok _ => some (.error (.InvalidToken lx.i))
    | .T_END => some (finalize pow vals ops)
    | .T_NUMBER => main_loop pow fuel lx (t.value :: vals) ops false
    | .T_LPAREN => main_loop pow fuel lx vals ('(' :: ops) true
    | .T_RPAREN =>
      match rparen_loop pow vals ops with
      | .error e => some (.error e)
      | .ok (_, []) => some (.error .MismatchedParens)
      | .ok (vals1, top :: ops1) =>
        if top ≠ '(' then some (.error .MismatchedParens)
        else main_loop pow fuel lx vals1 ops1 false
    | .T_OP =>
      let op := t.op
      let vals0 := if expect_unary && (op = '+' || op = '-') then Dbl.fin 0 :: vals else vals
      match op_loop pow op vals0 ops with
      | .error e => some (.error e)
      | .ok (vals1, ops1) => main_loop pow fuel lx vals1 (op :: ops1) true

/-- The function `evaluate_expression`: `some (.ok v)` when it returns 1 with
`*out_value = v`, `some (.error e)` when it returns 0 with the message of `e`.
Every token but the last takes at least one character, so `strlen(expr) + 1`
units of fuel cover the loop. -/
def evaluate_expression (pow : Dbl → Dbl → Dbl) (expr : List Char) :
    Option (Except EvalError Dbl) :=
  main_loop pow (expr.length + 1) { s := expr, i := 0 } [] [] true

/-- Integer power of a rational. -/
def qzpow (a : ℚ) (k : Int) : ℚ :=
  if 0 ≤ k then a ^ k.toNat else (1 / a) ^ (-k).toNat

/-- A `pow` for the closed examples, after C99 F.9.4.4: the special cases, and
for a finite base and an integer exponent the exact power, rounded.  A positive
base with a non-integer exponent has no rational power in general; that case
yields NaN here, and no example uses it. -/
def ref_pow (x y : Dbl) : Dbl :=
  if y = .fin 0 ∨ x = .fin 1 then .fin 1
  else match x, y with
    | .fin a, .fin b =>
      if a = 0 then (if b < 0 then .inf false else .fin 0)
      else if b.den = 1 then round64 (qzpow a b.num)
      else .nan
    | .fin a, .inf s =>
      if a = -1 then .fin 1
      else if decide (-1 < a ∧ a < 1) = s then .inf false else .fin 0
    | .inf false, .fin b => if b < 0 then .fin 0 else .inf false
    | .inf true, .fin b =>
      if b < 0 then .fin 0 else .inf (decide (b.den = 1 ∧ b.num % 2 = 1))
    | .inf _, .inf s => if s then .fin 0 else .inf false
    | _, _ => .nan

/-! ## Literals of the input grammar -/

/-- Advance the cursor by `k` characters. -/
def Lexer.adv (lx : Lexer) (k : Nat) : Lexer := { lx with i := lx.i + k }

/-- A string of decimal digits. -/
def IsDigits (l : List Char) : Prop := ∀ c ∈ l, isdigit c = true

/-- The optional fraction `.digits`. -/
inductive IsFrac : List Char → Prop
  | none : IsFrac []
  | some (ds : List Char) : ds ≠ [] → IsDigits ds → IsFrac ('.' :: ds)

/-- The optional exponent `[eE][+-]?digits`. -/
inductive IsExp : List Char → Prop
  | none : IsExp []
  | some (m : Char) (sg ds : List Char) : (m = 'e' ∨ m = 'E') →
      (sg = [] ∨ sg = ['+'] ∨ sg = ['-']) → ds ≠ [] → IsDigits ds → IsExp (m :: (sg ++ ds))

/-- An unsigned decimal literal `digits?(.digits)?([eE][+-]?digits)?` with a
digit in its mantissa. -/
def IsUnsignedLiteral (a : List Char) : Prop :=
  ∃ ip fr ex, IsDigits ip ∧ IsFrac fr ∧ IsExp ex ∧ (ip ≠ [] ∨ fr ≠ []) ∧ a = ip ++ (fr ++ ex)

/-- What follows a literal does not continue it: no digit, no `.`, no exponent
marker, no `x`. -/
def Stops (rest : List Char) : Prop :=
  ∀ c, rest.head? = some c →
    isdigit c = false ∧ c ≠ '.' ∧ c ≠ 'e' ∧ c ≠ 'E' ∧ c ≠ 'x' ∧ c ≠ 'X'

/-- White space only. -/
def IsSpaces (ws : List Char) : Prop := ∀ c ∈ ws, isspace c = true

/-- The value `strtod` gives to a literal standing alone. -/
def litVal (a : List Char) : Dbl := (strtod a).1

instance (l : List Char) : Decidable (IsDigits l) := by
  unfold IsDigits; infer_instance

instance (ws : List Char) : Decidable (IsSpaces ws) := by
  unfold IsSpaces; infer_instance

deriving instance DecidableEq for Except

/-- A number token and its value: an unsigned decimal literal, `pi` or `e` in
either letter case. -/
inductive IsNumberToken : List Char → Dbl → Prop
  | lit (a : List Char) : IsUnsignedLiteral a → IsNumberToken a (litVal a)
  | pi (p i : Char) : (p = 'p' ∨ p = 'P') → (i = 'i' ∨ i = 'I') → IsNumberToken [p, i] M_PI
  | e (c : Char) : (c = 'e' ∨ c = 'E') → IsNumberToken [c] M_E

/-! ## Superscript normalization -/

/-- The function `is_superscript` on a decoded code point. -/
def is_superscript (cp : Nat) : Bool :=
  cp = 0x2070 || cp = 0x00B9 || cp = 0x00B2 || cp = 0x00B3 ||
    (cp ≥ 0x2074 && cp ≤ 0x2079) || cp = 0x207B

/-- The function `superscript_to_ascii`. -/
def superscript_to_ascii (cp : Nat) : Char :=
  if cp = 0x2070 then '0'
  else if cp = 0x00B9 then '1'
  else if cp = 0x00B2 then '2'
  else if cp = 0x00B3 then '3'
  else if cp = 0x2074 then '4'
  else if cp = 0x2075 then '5'
  else if cp = 0x2076 then '6'
  else if cp = 0x2077 then '7'
  else if cp = 0x2078 then '8'
  else if cp = 0x2079 then '9'
  else if cp = 0x207B then '-'
  else '?'

/-- The decoding step of the loop body of `normalize_superscripts` at index
`i`: `c` is the byte `in[i]` and `rest` the bytes `in[i+1] … in[n-1]`, a byte
being a natural number below 256.  Returns `cp` and `adv`.  The test `i+k<n` of
the source is `k ≤ rest.length`. -/
def decode (c : Nat) (rest : List Nat) : Nat × Nat :=
  if c < 0x80 then (c, 1)
  else if c >>> 5 = 0x6 then
    if 1 ≤ rest.length then (((c &&& 0x1F) <<< 6) ||| (rest.getD 0 0 &&& 0x3F), 2) else (0, 1)
  else if c >>> 4 = 0xE then
    if 2 ≤ rest.length then
      (((c &&& 0x0F) <<< 12) ||| ((rest.getD 0 0 &&& 0x3F) <<< 6) ||| (rest.getD 1 0 &&& 0x3F), 3)
    else (0, 1)
  else if c >>> 3 = 0x1E then
    if 3 ≤ rest.length then
      (((c &&& 0x07) <<< 18) ||| ((rest.getD 0 0 &&& 0x3F) <<< 12)
        ||| ((rest.getD 1 0 &&& 0x3F) <<< 6) ||| (rest.getD 2 0 &&& 0x3F), 4)
    else (0, 1)
  else (0, 1)

/-- The second half of the loop body: the bytes written to `out` for the code
point `cp` decoded from `bytes`, and the new value of `in_super`. -/
def emit (in_super : Bool) (cp : Nat) (bytes : List Nat) : List Nat × Bool :=
  if is_superscript cp then
    ((if in_super then [] else ['^'.toNat]) ++ [(superscript_to_ascii cp).toNat], true)
  else (bytes, false)

/-- The loop of `normalize_superscripts` over the input bytes.  `skip` counts
the bytes still covered by the last `i += adv`; at `skip = 0` the head of the
list is the byte at index `i`. -/
def normalize_loop : Nat → Bool → List Nat → List Nat
  | _, _, [] => []
  | skip + 1, in_super, _ :: rest => normalize_loop skip in_super rest
  | 0, in_super, c :: rest =>
    let d := decode c rest
    let o := emit in_super d.1 ((c :: rest).take d.2)
    o.1 ++ normalize_loop (d.2 - 1) o.2 rest

/-- The function `normalize_superscripts` on the bytes of `in`, which end at the
first NUL (`strlen`); the result is the bytes of `out` before its NUL. -/
def normalize_superscripts (inp : List Nat) : List Nat :=
  normalize_loop 0 false (inp.takeWhile (fun b => b ≠ 0))

/-! ### The specification on scalar values -/

/-- UTF-8 encoding of one Unicode scalar value. -/
def utf8_encode (c : Char) : List Nat :=
  let n := c.toNat
  if n < 0x80 then [n]
  else if n < 0x800 then [0xC0 + n / 64, 0x80 + n % 64]
  else if n < 0x10000 then [0xE0 + n / 4096, 0x80 + n / 64 % 64, 0x80 + n % 64]
  else [0xF0 + n / 262144, 0x80 + n / 4096 % 64, 0x80 + n / 64 % 64, 0x80 + n % 64]

/-- UTF-8 encoding of a sequence of scalar values. -/
def utf8 (s : List Char) : List Nat := s.flatMap utf8_encode

/-- The superscript scalars of the specification with their ASCII equivalents:
U+2070, U+00B9, U+00B2, U+00B3, U+2074 to U+2079, and U+207B. -/
def superscript_table : List (Char × Char) :=
  [('⁰', '0'), ('¹', '1'), ('²', '2'), ('³', '3'), ('⁴', '4'),
   ('⁵', '5'), ('⁶', '6'), ('⁷', '7'), ('⁸', '8'), ('⁹', '9'),
   ('⁻', '-')]

/-- Membership in the superscript set of the specification. -/
def spec_is_superscript (c : Char) : Bool := (superscript_table.lookup c).isSome

/-- The ASCII digit or `-` of a superscript scalar. -/
def spec_ascii (c : Char) : Char := (superscript_table.lookup c).getD c

/-- The specification of normalization on scalar values: each maximal run of
superscript scalars becomes one `^` followed by the ASCII equivalent of each
element of the run; every other scalar is copied. -/
def spec_normalize : List Char → List Char
  | [] => []
  | c :: rest =>
    if spec_is_superscript c then
      '^' :: ((c :: rest).takeWhile spec_is_superscript).map spec_ascii
        ++ spec_normalize (rest.dropWhile spec_is_superscript)
    else c :: spec_normalize rest
termination_by s => s.length
decreasing_by
  · simp only [List.length_cons]
    exact Nat.lt_succ_of_le ((List.dropWhile_sublist _).length_le)
  · simp

/-! ## Tokens and the characters they take -/

/-- The operator characters. -/
def is_op_char (c : Char) : Bool := c = '+' || c = '-' || c = '*' || c = '/' || c = '^'

/-- The characters a number token can be made of: those of a decimal or
hexadecimal floating literal, and the letters of `pi` and `e`. -/
def is_number_char (c : Char) : Bool :=
  isxdigit c || c = '.' || c = '+' || c = '-' || c = 'x' || c = 'X' || c = 'p' || c = 'P'
    || c = 'i' || c = 'I'

/-- The first `n` characters of `l` exist and all satisfy `P`. -/
def Pref (P : Char → Prop) (n : Nat) (l : List Char) : Prop :=
  n ≤ l.length ∧ ∀ c ∈ l.take n, P c

/-- What a token has taken from the string: `seg` are its characters, after the
white space skipped before it, and `rest` is what follows. -/
def TokSeg (t : Token) (seg rest : List Char) : Prop :=
  match t.type with
  | .T_END => seg = [] ∧ (rest = [] ∨ rest.head? = some '\x00')
  | .T_INVALID => seg = []
  | .T_LPAREN => seg = ['(']
  | .T_RPAREN => seg = [')']
  | .T_OP => seg = [t.op] ∧ is_op_char t.op = true
  | .T_NUMBER => seg ≠ [] ∧ ∀ c ∈ seg, is_number_char c = true

/-! ## Parentheses -/

/-- With `d` parentheses open before it, `l` closes none that is not open and
leaves none open. -/
def Matched (d : Nat) (l : List Char) : Prop :=
  (∀ k, (l.take k).count ')' ≤ d + (l.take k).count '(') ∧ l.count ')' = d + l.count '('

/-- The local variables of `evaluate_expression` between two passes of its
main loop. -/
structure EvalState where
  lx : Lexer
  vals : List Dbl
  ops : List Char
  expect_unary : Bool

/-- One pass of the body of `for(;;)` that ends in `continue`: the state the
next pass starts from; `none` when the pass leaves the loop, by `break` or by
`goto done`. -/
def loop_body (pow : Dbl → Dbl → Dbl) (st : EvalState) : Option EvalState :=
  let t := (next_token st.lx).1
  let lx := (next_token st.lx).2
  match t.type with
  | .T_INVALID => none
  | .T_END => none
  | .T_NUMBER => some ⟨lx, t.value :: st.vals, st.ops, false⟩
  | .T_LPAREN => some ⟨lx, st.vals, '(' :: st.ops, true⟩
  | .T_RPAREN =>
    match rparen_loop pow st.vals st.ops with
    | .error _ => none
    | .ok (_, []) => none
    | .ok (vals1, top :: ops1) =>
      if top ≠ '(' then none else some ⟨lx, vals1, ops1, false⟩
  | .T_OP =>
    let op := t.op
    let vals0 :=
      if st.expect_unary && (op = '+' || op = '-') then Dbl.fin 0 :: st.vals else st.vals
    match op_loop pow op vals0 st.ops with
    | .error _ => none
    | .ok (vals1, ops1) => some ⟨lx, vals1, op :: ops1, true⟩

/-- The state after `k` passes of the main loop, `none` when the loop is left
before. -/
def state_after (pow : Dbl → Dbl → Dbl) (st : EvalState) : Nat → Option EvalState
  | 0 => some st
  | k + 1 => (loop_body pow st).bind fun st1 => state_after pow st1 k

/-- The types of the tokens that `k` calls of `next_token` return. -/
def tokens_read (lx : Lexer) : Nat → List TokType
  | 0 => []
  | k + 1 => (next_token lx).1.type :: tokens_read (next_token lx).2 k

/-! ## The reference grammar -/

/-- A parse tree of the grammar `E ::= number | E op E | ( E )`.  A leaf holds
the characters of its number token and the value of the token. -/
inductive Expr where
  | num (tok : List Char) (v : Dbl)
  | bin (l : Expr) (op : Char) (r : Expr)
  | paren (e : Expr)

/-- The input a tree stands for, with one space on each side of an operator. -/
def Expr.print : Expr → List Char
  | .num tok _ => tok
  | .bin l op r => l.print ++ ' ' :: op :: ' ' :: r.print
  | .paren e => '(' :: (e.print ++ [')'])

/-- The number of tokens of `e.print`. -/
def Expr.tokcount : Expr → Nat
  | .num _ _ => 1
  | .bin l _ r => l.tokcount + 1 + r.tokcount
  | .paren e => e.tokcount + 2

/-- The binding level of a tree: the precedence of the operator at its root, and
5 for a number and for a parenthesised tree. -/
def Expr.lvl : Expr → Nat
  | .bin _ op _ => precedence op
  | _ => 5

/-- The tree is the one that the precedence table chooses for its input: the
leaves are number tokens, the operators are those of the table, the operands of
`^` are a tree that binds tighter on the left and one that binds at least as
tightly on the right (right-associative), and the operands of any other
operator are a tree that binds at least as tightly on the left and one that
binds tighter on the right (left-associative). -/
def Expr.ByPrecedence : Expr → Prop
  | .num tok v => IsNumberToken tok v
  | .paren e => e.ByPrecedence
  | .bin l op r =>
    is_op_char op = true ∧ l.ByPrecedence ∧ r.ByPrecedence ∧
      (op = '^' → 4 < l.lvl ∧ 4 ≤ r.lvl) ∧
      (op ≠ '^' → precedence op ≤ l.lvl ∧ precedence op < r.lvl)

/-- Modelled from the spec: the reference value of `a op b`, undefined for a
zero divisor and for a result that is not finite. -/
def bin_value (pow : Dbl → Dbl → Dbl) (op : Char) (a b : Dbl) : Option Dbl :=
  if op = '/' ∧ b = .fin 0 then none
  else
    let r :=
      if op = '+' then a.add b
      else if op = '-' then a.sub b
      else if op = '*' then a.mul b
      else if op = '/' then a.div b
      else pow a b
    if r.isNanOrInf then none else some r

/-- Modelled from the spec: the reference value of a parse tree, defined when
the value of every operator in it is. -/
def Expr.value (pow : Dbl → Dbl → Dbl) : Expr → Option Dbl
  | .num _ v => some v
  | .paren e => e.value pow
  | .bin l op r =>
    match l.value pow, r.value pow with
    | some a, some b => bin_value pow op a b
    | _, _ => none

/-- Apply the operators of a stack from the top down, as the three loops over
the operator stack do. -/
def collapse (pow : Dbl → Dbl → Dbl) : List Dbl → List Char → Except EvalError (List Dbl)
  | vals, [] => .ok vals
  | vals, top :: ops =>
    match apply_op pow vals top with
    | .error e => .error e
    | .ok vals1 => collapse pow vals1 ops

/-- A derivation of the grammar `E ::= number | E op E | ( E )`, grouped in any
way: the leaves are number tokens and the operators are of `+ - * / ^`. -/
def Expr.Generated : Expr → Prop
  | .num tok v => IsNumberToken tok v
  | .paren e => e.Generated
  | .bin l op r => is_op_char op = true ∧ l.Generated ∧ r.Generated

/-- Put `op x` to the right of the tree `t`, for a number or parenthesised tree
`x`: below every operator on the right spine of `t` that waits for its right
operand when `op` arrives. -/
def Expr.attach : Expr → Char → Expr → Expr
  | .bin a o1 b, op, x =>
    if precedence o1 < precedence op ∨ (precedence o1 = precedence op ∧ right_associative op)
    then .bin a o1 (b.attach op x)
    else .bin (.bin a o1 b) op x
  | t, op, x => .bin t op x

/-- Put `op` and then the operands and operators of `r`, from left to right, to
the right of the tree `t`. -/
def Expr.join : Expr → Char → Expr → Expr
  | t, op, .bin c o2 d => Expr.join (Expr.join t op c) o2 d
  | t, op, .num tok v => t.attach op (.num tok v)
  | t, op, .paren e => t.attach op (.paren e)

/-- Regroup a derivation by the precedence table, keeping its input. -/
def Expr.regroup : Expr → Expr
  | .num tok v => .num tok v
  | .paren e => .paren e.regroup
  | .bin l op r => Expr.join l.regroup op r.regroup

/-! ## The tokenizer on literals -/

theorem isdigit_facts {c : Char} (h : isdigit c = true) :
    c ≠ '\x00' ∧ c ≠ '(' ∧ c ≠ ')' ∧ c ≠ '+' ∧ c ≠ '-' ∧ c ≠ '.' ∧ c ≠ 'e' ∧ c ≠ 'E' ∧
      c ≠ 'x' ∧ c ≠ 'X' ∧ isspace c = false := by
  refine ⟨?_, ?_, ?_, ?_, ?_, ?_, ?_, ?_, ?_, ?_, ?_⟩ <;>
    first
      | (rintro rfl; revert h; decide)
      | (cases hs : isspace c with
          | false => rfl
          | true =>
            exfalso
            simp only [isspace, Bool.or_eq_true, decide_eq_true_eq] at hs
            rcases hs with ((((rfl | rfl) | rfl) | rfl) | rfl) | rfl <;> revert h <;> decide)

theorem takeWhile_append_stop (p : Char → Bool) (ds r : List Char)
    (hds : ∀ c ∈ ds, p c = true) (hr : ∀ c, r.head? = some c → p c = false) :
    (ds ++ r).takeWhile p = ds := by
  induction ds with
  | nil =>
    cases r with
    | nil => rfl
    | cons c t => simp [List.takeWhile, hr c rfl]
  | cons d ds ih =>
    have hd : p d = true := hds d (List.mem_cons_self _ _)
    rw [List.cons_append, List.takeWhile_cons, hd]
    simp [ih (fun c hc => hds c (List.mem_cons_of_mem _ hc))]

theorem stops_nil : Stops [] := by
  intro c h; simp at h

theorem stops_digit {rest : List Char} (h : Stops rest) :
    ∀ c, rest.head? = some c → isdigit c = false := fun c hc => (h c hc).1

theorem strtod_exp_lit {ex : List Char} (hex : IsExp ex) :
    ∃ v : Int, ∀ rest, Stops rest → strtod_exp dec_marker (ex ++ rest) = (v, ex.length) := by
  cases hex with
  | none =>
    refine ⟨0, fun rest hr => ?_⟩
    cases rest with
    | nil => rfl
    | cons c t =>
      have hc := hr c rfl
      simp [strtod_exp, dec_marker, hc.2.2.1, hc.2.2.2.1]
  | some m sg ds hm hsg hne hds =>
    have hmk : dec_marker m = true := by
      rcases hm with rfl | rfl <;> decide
    obtain ⟨d, ds', rfl⟩ := List.exists_cons_of_ne_nil hne
    have hd : isdigit d = true := hds d (List.mem_cons_self _ _)
    have hdf := isdigit_facts hd
    rcases hsg with rfl | rfl | rfl
    · refine ⟨natOfDigits 10 (d :: ds'), fun rest hr => ?_⟩
      have htw := takeWhile_append_stop isdigit (d :: ds') rest hds (stops_digit hr)
      simp only [List.nil_append, List.cons_append] at htw ⊢
      simp [strtod_exp, hmk, hdf.2.2.2.1, hdf.2.2.2.2.1, htw]
      omega
    · refine ⟨natOfDigits 10 (d :: ds'), fun rest hr => ?_⟩
      have htw := takeWhile_append_stop isdigit (d :: ds') rest hds (stops_digit hr)
      simp only [List.nil_append, List.cons_append] at htw ⊢
      simp [strtod_exp, hmk, htw]
      omega
    · refine ⟨-(natOfDigits 10 (d :: ds') : Int), fun rest hr => ?_⟩
      have htw := takeWhile_append_stop isdigit (d :: ds') rest hds (stops_digit hr)
      simp only [List.nil_append, List.cons_append] at htw ⊢
      simp [strtod_exp, hmk, htw]
      omega

theorem exp_head {ex rest : List Char} (hex : IsExp ex) (hr : Stops rest) :
    ∀ c, (ex ++ rest).head? = some c → isdigit c = false ∧ c ≠ '.' := by
  intro c hc
  cases hex with
  | none => exact ⟨(hr c hc).1, (hr c hc).2.1⟩
  | some m sg ds hm _ _ _ =>
    simp only [List.cons_append, List.head?_cons, Option.some.injEq] at hc
    subst hc
    rcases hm with rfl | rfl <;> exact ⟨by decide, by decide⟩

theorem strtod_body_lit {ip fr ex : List Char} (hip : IsDigits ip) (hfr : IsFrac fr)
    (hex : IsExp ex) (hne : ip ≠ [] ∨ fr ≠ []) :
    ∃ q : ℚ, ∀ rest, Stops rest →
      strtod_body isdigit 10 10 1 dec_marker (ip ++ (fr ++ ex) ++ rest)
        = (q, (ip ++ (fr ++ ex)).length) := by
  obtain ⟨v, hv⟩ := strtod_exp_lit hex
  cases hfr with
  | none =>
    have hipne : ip ≠ [] := by
      rcases hne with h | h
      · exact h
      · exact absurd rfl h
    refine ⟨(natOfDigits 10 (ip ++ []) : ℚ) * qpow 10 (v - (1 : Nat) * (0 : Nat)), fun rest hr => ?_⟩
    have h1 : (ip ++ ([] ++ ex) ++ rest).takeWhile isdigit = ip := by
      rw [List.nil_append, List.append_assoc]
      exact takeWhile_append_stop isdigit ip _ hip (fun c hc => (exp_head hex hr c hc).1)
    have h2 : (ip ++ ([] ++ ex) ++ rest).drop ip.length = ex ++ rest := by
      simp
    have h3 : (match ex ++ rest with
        | [] => 0
        | c :: _ => if c = '.' then 1 else 0) = 0 := by
      cases hx : ex ++ rest with
      | nil => rfl
      | cons c t =>
        have := (exp_head hex hr c (by rw [hx]; rfl)).2
        simp [this]
    have h4 : (ex ++ rest).takeWhile isdigit = [] := by
      have := takeWhile_append_stop isdigit [] (ex ++ rest) (by simp)
        (fun c hc => (exp_head hex hr c hc).1)
      simpa using this
    unfold strtod_body
    simp only [h1, h2, h3, List.drop_zero, h4, hipne, false_and, if_false, List.length_nil,
      Nat.add_zero, hv rest hr]
    simp
  | some ds hdne hds =>
    refine ⟨(natOfDigits 10 (ip ++ ds) : ℚ) * qpow 10 (v - (1 : Nat) * (ds.length : Nat)),
      fun rest hr => ?_⟩
    have h1 : (ip ++ ('.' :: ds ++ ex) ++ rest).takeWhile isdigit = ip := by
      rw [List.append_assoc]
      refine takeWhile_append_stop isdigit ip _ hip (fun c hc => ?_)
      simp only [List.cons_append, List.head?_cons, Option.some.injEq] at hc
      subst hc; decide
    have h2 : (ip ++ ('.' :: ds ++ ex) ++ rest).drop ip.length = '.' :: (ds ++ (ex ++ rest)) := by
      simp
    have h4 : (ds ++ (ex ++ rest)).takeWhile isdigit = ds :=
      takeWhile_append_stop isdigit ds _ hds (fun c hc => (exp_head hex hr c hc).1)
    have h5 : (ds ++ (ex ++ rest)).drop ds.length = ex ++ rest := by simp
    unfold strtod_body
    simp only [h1, h2, if_true, List.drop_succ_cons, List.drop_zero, h4, hdne, and_false,
      if_false]
    have h6 : ('.' :: (ds ++ (ex ++ rest))).drop (1 + ds.length) = ex ++ rest := by
      rw [Nat.add_comm]; simp
    simp only [h6, hv rest hr]
    simp
    omega

theorem lit_chars {a : List Char} (ha : IsUnsignedLiteral a) :
    ∀ c ∈ a, c ≠ 'x' ∧ c ≠ 'X' := by
  obtain ⟨ip, fr, ex, hip, hfr, hex, -, rfl⟩ := ha
  have hd : ∀ ds : List Char, IsDigits ds → ∀ c ∈ ds, c ≠ 'x' ∧ c ≠ 'X' := fun ds h c hc =>
    ⟨(isdigit_facts (h c hc)).2.2.2.2.2.2.2.2.1, (isdigit_facts (h c hc)).2.2.2.2.2.2.2.2.2.1⟩
  intro c hc
  simp only [List.mem_append] at hc
  rcases hc with hc | hc | hc
  · exact hd ip hip c hc
  · cases hfr with
    | none => simp at hc
    | some ds _ hds =>
      simp only [List.mem_cons] at hc
      rcases hc with rfl | hc
      · exact ⟨by decide, by decide⟩
      · exact hd ds hds c hc
  · cases hex with
    | none => simp at hc
    | some m sg ds hm hsg _ hds =>
      simp only [List.mem_cons, List.mem_append] at hc
      rcases hc with rfl | hc | hc
      · rcases hm with rfl | rfl <;> exact ⟨by decide, by decide⟩
      · rcases hsg with rfl | rfl | rfl
        · simp at hc
        · simp only [List.mem_singleton] at hc; subst hc; exact ⟨by decide, by decide⟩
        · simp only [List.mem_singleton] at hc; subst hc; exact ⟨by decide, by decide⟩
      · exact hd ds hds c hc

theorem lit_head {a : List Char} (ha : IsUnsignedLiteral a) :
    ∃ c t, a = c :: t ∧ (isdigit c = true ∨ c = '.') := by
  obtain ⟨ip, fr, ex, hip, hfr, hex, hne, rfl⟩ := ha
  cases ip with
  | cons c t => exact ⟨c, _, rfl, Or.inl (hip c (List.mem_cons_self _ _))⟩
  | nil =>
    cases hfr with
    | none => simp at hne
    | some ds _ _ => exact ⟨'.', _, rfl, Or.inr rfl⟩

theorem strtod_unsigned_lit {a : List Char} (ha : IsUnsignedLiteral a) :
    ∃ q : ℚ, ∀ rest, Stops rest → strtod_unsigned (a ++ rest) = (q, a.length) := by
  have hx := lit_chars ha
  obtain ⟨c0, t0, hc0, -⟩ := lit_head ha
  obtain ⟨ip, fr, ex, hip, hfr, hex, hne, rfl⟩ := ha
  obtain ⟨q, hq⟩ := strtod_body_lit hip hfr hex hne
  refine ⟨q, fun rest hr => ?_⟩
  have hhex : (match ip ++ (fr ++ ex) ++ rest with
      | c0 :: c1 :: t =>
        if c0 = '0' ∧ (c1 = 'x' ∨ c1 = 'X') then strtod_body isxdigit 16 2 4 hex_marker t
        else (0, 0)
      | _ => ((0 : ℚ), 0)) = (0, 0) := by
    rw [hc0]
    cases t0 with
    | nil =>
      cases rest with
      | nil => rfl
      | cons c1 t =>
        have := hr c1 rfl
        simp [this.2.2.2.2.1, this.2.2.2.2.2]
    | cons c1 t =>
      have := hx c1 (by rw [hc0]; simp)
      simp [this.1, this.2]
  unfold strtod_unsigned
  simp only [hhex, ne_eq, not_true_eq_false, if_false]
  exact hq rest hr

theorem strtod_lit {a : List Char} (ha : IsUnsignedLiteral a) {rest : List Char}
    (hr : Stops rest) : strtod (a ++ rest) = (litVal a, a.length) := by
  obtain ⟨q, hq⟩ := strtod_unsigned_lit ha
  obtain ⟨c, t, rfl, hc⟩ := lit_head ha
  have hsign : c ≠ '+' ∧ c ≠ '-' := by
    rcases hc with h | rfl
    · exact ⟨(isdigit_facts h).2.2.2.1, (isdigit_facts h).2.2.2.2.1⟩
    · exact ⟨by decide, by decide⟩
  have key : ∀ rest, Stops rest → strtod (c :: t ++ rest) = (round64 q, (c :: t).length) := by
    intro rest hr
    have h := hq rest hr
    simp only [List.cons_append] at h
    simp [strtod, hsign.1, hsign.2, h]
  have h0 := key [] stops_nil
  rw [List.append_nil] at h0
  rw [key rest hr, litVal, h0]

theorem strtod_signed {a : List Char} (ha : IsUnsignedLiteral a) {rest : List Char}
    (hr : Stops rest) (sg : Char) (hsg : sg = '+' ∨ sg = '-') :
    strtod (sg :: (a ++ rest))
      = (if sg = '-' then (litVal a).neg else litVal a, a.length + 1) := by
  obtain ⟨q, hq⟩ := strtod_unsigned_lit ha
  have hl := strtod_lit ha stops_nil
  rw [List.append_nil] at hl
  have hq0 := hq [] stops_nil
  rw [List.append_nil] at hq0
  obtain ⟨c, t, rfl, hc⟩ := lit_head ha
  have hsign : c ≠ '+' ∧ c ≠ '-' := by
    rcases hc with h | rfl
    · exact ⟨(isdigit_facts h).2.2.2.1, (isdigit_facts h).2.2.2.2.1⟩
    · exact ⟨by decide, by decide⟩
  have hv : litVal (c :: t) = round64 q := by
    have : strtod (c :: t) = (round64 q, (c :: t).length) := by
      simp [strtod, hsign.1, hsign.2, hq0]
    rw [litVal, this]
  have h := hq rest hr
  simp only [List.cons_append] at h
  rw [hv]
  rcases hsg with rfl | rfl
  · simp [strtod, h]; omega
  · simp [strtod, h]; omega

theorem cur_adv (lx : Lexer) (k : Nat) : (lx.adv k).cur = lx.cur.drop k := by
  simp [Lexer.adv, Lexer.cur, List.drop_drop, Nat.add_comm]

theorem cur_adv_append {lx : Lexer} {a rest : List Char} (h : lx.cur = a ++ rest) :
    (lx.adv a.length).cur = rest := by
  rw [cur_adv, h]; simp

theorem skip_ws_from_spaces (ws rest : List Char) (i : Nat) (hws : IsSpaces ws)
    (hr : ∀ c, rest.head? = some c → isspace c = false) :
    skip_ws_from (ws ++ rest) i = i + ws.length := by
  induction ws generalizing i with
  | nil =>
    cases rest with
    | nil => rfl
    | cons c t => simp [skip_ws_from, hr c rfl]
  | cons w ws ih =>
    have hw : isspace w = true := hws w (List.mem_cons_self _ _)
    rw [List.cons_append, skip_ws_from, if_pos hw,
      ih _ (fun c hc => hws c (List.mem_cons_of_mem _ hc)), List.length_cons]
    omega

theorem skip_ws_eq {lx : Lexer} {ws rest : List Char} (hcur : lx.cur = ws ++ rest)
    (hws : IsSpaces ws) (hr : ∀ c, rest.head? = some c → isspace c = false) :
    skip_ws lx = lx.adv ws.length := by
  simp [skip_ws, Lexer.adv, hcur, skip_ws_from_spaces ws rest lx.i hws hr]

theorem skip_ws_id {lx : Lexer} (hr : ∀ c, lx.cur.head? = some c → isspace c = false) :
    skip_ws lx = lx := by
  have h := @skip_ws_eq lx [] lx.cur rfl (by intro c hc; simp at hc) hr
  simpa [Lexer.adv] using h

/-- Leading white space is skipped: the token is the one read after it. -/
theorem next_token_skip {lx : Lexer} {ws rest : List Char} (hcur : lx.cur = ws ++ rest)
    (hws : IsSpaces ws) (hr : ∀ c, rest.head? = some c → isspace c = false) :
    next_token lx = next_token (lx.adv ws.length) := by
  have h1 := skip_ws_eq hcur hws hr
  have h2 : skip_ws (lx.adv ws.length) = lx.adv ws.length :=
    skip_ws_id (by rw [cur_adv_append hcur]; exact hr)
  simp only [next_token, h1, h2]

theorem head_facts {lx : Lexer} {c : Char} {t : List Char} (hcur : lx.cur = c :: t)
    (hc : isspace c = false) :
    skip_ws lx = lx ∧ lx.at 0 = c ∧ lx.at 1 = t.headD '\x00' := by
  refine ⟨skip_ws_id ?_, ?_, ?_⟩
  · intro d hd
    rw [hcur] at hd
    simp only [List.head?_cons, Option.some.injEq] at hd
    subst hd; exact hc
  · simp [Lexer.at, hcur]
  · simp [Lexer.at, hcur]

theorem next_token_end {lx : Lexer} (hcur : lx.cur = []) :
    next_token lx = (⟨.T_END, .fin 0, '\x00'⟩, lx) := by
  have h1 : skip_ws lx = lx := skip_ws_id (by rw [hcur]; intro c hc; simp at hc)
  have h2 : lx.at 0 = '\x00' := by simp [Lexer.at, hcur]
  simp [next_token, h1, h2]

theorem next_token_lparen {lx : Lexer} {t : List Char} (hcur : lx.cur = '(' :: t) :
    next_token lx = (⟨.T_LPAREN, .fin 0, '('⟩, lx.adv 1) := by
  obtain ⟨h1, h2, -⟩ := head_facts hcur (by decide)
  simp [next_token, h1, h2, Lexer.adv]

theorem next_token_rparen {lx : Lexer} {t : List Char} (hcur : lx.cur = ')' :: t) :
    next_token lx = (⟨.T_RPAREN, .fin 0, ')'⟩, lx.adv 1) := by
  obtain ⟨h1, h2, -⟩ := head_facts hcur (by decide)
  simp [next_token, h1, h2, Lexer.adv]

theorem next_token_lit {lx : Lexer} {a rest : List Char} (hcur : lx.cur = a ++ rest)
    (ha : IsUnsignedLiteral a) (hr : Stops rest) :
    next_token lx = (⟨.T_NUMBER, litVal a, '\x00'⟩, lx.adv a.length) := by
  have hs := strtod_lit ha hr
  obtain ⟨c, t, rfl, hc⟩ := lit_head ha
  have hsp : isspace c = false := by
    rcases hc with h | rfl
    · exact (isdigit_facts h).2.2.2.2.2.2.2.2.2.2
    · decide
  obtain ⟨h1, h2, -⟩ := head_facts (t := t ++ rest) hcur hsp
  have hcond : (isdigit c || decide (c = '.')) = true := by
    rcases hc with h | rfl
    · simp [h]
    · decide
  have hne : c ≠ '\x00' ∧ c ≠ '(' ∧ c ≠ ')' := by
    rcases hc with h | rfl
    · exact ⟨(isdigit_facts h).1, (isdigit_facts h).2.1, (isdigit_facts h).2.2.1⟩
    · exact ⟨by decide, by decide, by decide⟩
  rw [← hcur] at hs
  simp only [next_token, h1, h2, hne.1, hne.2.1, hne.2.2, if_false, hs]
  simp [hcond, Lexer.adv]

theorem next_token_signed {lx : Lexer} {a rest : List Char} {sg : Char}
    (hcur : lx.cur = sg :: (a ++ rest)) (hsg : sg = '+' ∨ sg = '-')
    (ha : IsUnsignedLiteral a) (hr : Stops rest) :
    next_token lx
      = (⟨.T_NUMBER, if sg = '-' then (litVal a).neg else litVal a, '\x00'⟩,
          lx.adv (a.length + 1)) := by
  have hs := strtod_signed ha hr sg hsg
  obtain ⟨c, t, rfl, hc⟩ := lit_head ha
  have hsp : isspace sg = false := by rcases hsg with rfl | rfl <;> decide
  obtain ⟨h1, h2, h3⟩ := head_facts hcur hsp
  have hcond : (isdigit c || decide (c = '.')) = true := by
    rcases hc with h | rfl
    · simp [h]
    · decide
  rw [← hcur] at hs
  simp only [List.cons_append, List.headD_cons] at h3
  simp only [next_token, h1, h2, h3, hs]
  rcases hsg with rfl | rfl <;> simp [hcond, Lexer.adv]

/-- A character of `+ - * / ^` is an operator token unless it is a sign
followed by a digit or a `.`. -/
theorem next_token_op {lx : Lexer} {c : Char} {t : List Char} (hcur : lx.cur = c :: t)
    (hc : c = '+' ∨ c = '-' ∨ c = '*' ∨ c = '/' ∨ c = '^')
    (hnext : (c = '+' ∨ c = '-') → ∀ d, t.head? = some d → isdigit d = false ∧ d ≠ '.') :
    next_token lx = (⟨.T_OP, .fin 0, c⟩, lx.adv 1) := by
  have hsp : isspace c = false := by rcases hc with rfl | rfl | rfl | rfl | rfl <;> decide
  obtain ⟨h1, h2, h3⟩ := head_facts hcur hsp
  have d1 : isdigit '+' = false := by decide
  have d2 : isdigit '-' = false := by decide
  have d3 : isdigit '*' = false := by decide
  have d4 : isdigit '/' = false := by decide
  have d5 : isdigit '^' = false := by decide
  have hn : (c = '+' ∨ c = '-') → isdigit (lx.at 1) = false ∧ lx.at 1 ≠ '.' := by
    intro hs
    rw [h3]
    cases t with
    | nil => exact ⟨by decide, by decide⟩
    | cons d t' => exact hnext hs d rfl
  simp only [next_token, h1, h2]
  rcases hc with rfl | rfl | rfl | rfl | rfl
  · simp [(hn (Or.inl rfl)).1, (hn (Or.inl rfl)).2, Lexer.adv, d1]
  · simp [(hn (Or.inr rfl)).1, (hn (Or.inr rfl)).2, Lexer.adv, d2]
  · simp [Lexer.adv, d3]
  · simp [Lexer.adv, d4]
  · simp [Lexer.adv, d5]

/-! ## The main loop, one token at a time -/

theorem step_number {pow : Dbl → Dbl → Dbl} {n : Nat} {lx lx1 : Lexer} {v : Dbl} {o : Char}
    (vals : List Dbl) (ops : List Char) (eu : Bool)
    (h : next_token lx = (⟨.T_NUMBER, v, o⟩, lx1)) :
    main_loop pow (n + 1) lx vals ops eu = main_loop pow n lx1 (v :: vals) ops false := by
  simp [main_loop, h]

theorem step_lparen {pow : Dbl → Dbl → Dbl} {n : Nat} {lx lx1 : Lexer} {v : Dbl} {o : Char}
    (vals : List Dbl) (ops : List Char) (eu : Bool)
    (h : next_token lx = (⟨.T_LPAREN, v, o⟩, lx1)) :
    main_loop pow (n + 1) lx vals ops eu = main_loop pow n lx1 vals ('(' :: ops) true := by
  simp [main_loop, h]

theorem step_end {pow : Dbl → Dbl → Dbl} {n : Nat} {lx lx1 : Lexer} {v : Dbl} {o : Char}
    (vals : List Dbl) (ops : List Char) (eu : Bool)
    (h : next_token lx = (⟨.T_END, v, o⟩, lx1)) :
    main_loop pow (n + 1) lx vals ops eu = some (finalize pow vals ops) := by
  simp [main_loop, h]

theorem step_op {pow : Dbl → Dbl → Dbl} {n : Nat} {lx lx1 : Lexer} {v : Dbl} {op : Char}
    (vals : List Dbl) (ops : List Char) (eu : Bool)
    (h : next_token lx = (⟨.T_OP, v, op⟩, lx1)) :
    main_loop pow (n + 1) lx vals ops eu =
      match op_loop pow op
          (if eu && (op = '+' || op = '-') then Dbl.fin 0 :: vals else vals) ops with
      | .error e => some (.error e)
      | .ok (vals1, ops1) => main_loop pow n lx1 vals1 (op :: ops1) true := by
  simp [main_loop, h]

theorem step_rparen {pow : Dbl → Dbl → Dbl} {n : Nat} {lx lx1 : Lexer} {v : Dbl} {o : Char}
    (vals : List Dbl) (ops : List Char) (eu : Bool)
    (h : next_token lx = (⟨.T_RPAREN, v, o⟩, lx1)) :
    main_loop pow (n + 1) lx vals ops eu =
      match rparen_loop pow vals ops with
      | .error e => some (.error e)
      | .ok (_, []) => some (.error .MismatchedParens)
      | .ok (vals1, top :: ops1) =>
        if top ≠ '(' then some (.error .MismatchedParens)
        else main_loop pow n lx1 vals1 ops1 false := by
  simp [main_loop, h]

/-- More fuel does not change a result. -/
theorem main_loop_mono (pow : Dbl → Dbl → Dbl) :
    ∀ (n : Nat) (lx : Lexer) (vals : List Dbl) (ops : List Char) (eu : Bool)
      (r : Except EvalError Dbl),
      main_loop pow n lx vals ops eu = some r →
      ∀ m, n ≤ m → main_loop pow m lx vals ops eu = some r := by
  intro n
  induction n with
  | zero => intro lx vals ops eu r h; simp [main_loop] at h
  | succ n ih =>
    intro lx vals ops eu r h m hm
    obtain ⟨m, rfl⟩ : ∃ k, m = k + 1 := ⟨m - 1, by omega⟩
    have hm1 : n ≤ m := by omega
    rw [main_loop] at h ⊢
    cases htt : (next_token lx).1.type <;> simp only [htt] at h ⊢
    · exact ih _ _ _ _ _ h m hm1
    · cases hop : op_loop pow (next_token lx).1.op
        (if (eu && (decide ((next_token lx).1.op = '+') || decide ((next_token lx).1.op = '-')))
          = true then Dbl.fin 0 :: vals else vals) ops with
      | error e => simp only [hop] at h ⊢; exact h
      | ok p =>
        obtain ⟨v1, o1⟩ := p
        simp only [hop] at h ⊢
        exact ih _ _ _ _ _ h m hm1
    · exact ih _ _ _ _ _ h m hm1
    · cases hrp : rparen_loop pow vals ops with
      | error e => simp only [hrp] at h ⊢; exact h
      | ok p =>
        obtain ⟨v1, o1⟩ := p
        cases o1 with
        | nil => simp only [hrp] at h ⊢; exact h
        | cons top o2 =>
          simp only [hrp] at h ⊢
          by_cases ht : top = '('
          · simp only [ht, ne_eq, not_true_eq_false, if_false] at h ⊢
            exact ih _ _ _ _ _ h m hm1
          · simp only [ht, ne_eq, not_false_eq_true, if_true] at h ⊢
            exact h
    · exact h
    · exact h

theorem evaluate_of_main_loop {pow : Dbl → Dbl → Dbl} {expr : List Char} {n : Nat}
    {r : Except EvalError Dbl}
    (h : main_loop pow n { s := expr, i := 0 } [] [] true = some r) (hn : n ≤ expr.length + 1) :
    evaluate_expression pow expr = some r :=
  main_loop_mono pow n _ _ _ _ r h _ hn

theorem lit_length_pos {a : List Char} (ha : IsUnsignedLiteral a) : 0 < a.length := by
  obtain ⟨c, t, rfl, -⟩ := lit_head ha
  simp

theorem stops_op {c : Char} {t : List Char}
    (hc : c = '+' ∨ c = '-' ∨ c = '*' ∨ c = '/' ∨ c = '^' ∨ c = '(' ∨ c = ')') :
    Stops (c :: t) := by
  intro d hd
  simp only [List.head?_cons, Option.some.injEq] at hd
  subst hd
  rcases hc with rfl | rfl | rfl | rfl | rfl | rfl | rfl <;> decide

/-! ### Token steps with the cursor tracked -/

theorem run_spaces (pow : Dbl → Dbl → Dbl) {lx : Lexer} {ws r : List Char}
    (hcur : lx.cur = ws ++ r) (hws : IsSpaces ws)
    (hr : ∀ c, r.head? = some c → isspace c = false) :
    ∃ lx1 : Lexer, lx1.cur = r ∧ ∀ n vals ops eu,
      main_loop pow n lx vals ops eu = main_loop pow n lx1 vals ops eu := by
  refine ⟨lx.adv ws.length, cur_adv_append hcur, fun n vals ops eu => ?_⟩
  cases n with
  | zero => simp [main_loop]
  | succ n => rw [main_loop, main_loop, next_token_skip hcur hws hr]

theorem run_lit (pow : Dbl → Dbl → Dbl) {lx : Lexer} {a r : List Char}
    (hcur : lx.cur = a ++ r) (ha : IsUnsignedLiteral a) (hr : Stops r) :
    ∃ lx1 : Lexer, lx1.cur = r ∧ ∀ n vals ops eu,
      main_loop pow (n + 1) lx vals ops eu = main_loop pow n lx1 (litVal a :: vals) ops false :=
  ⟨lx.adv a.length, cur_adv_append hcur, fun _ vals ops eu =>
    step_number vals ops eu (next_token_lit hcur ha hr)⟩

theorem run_signed (pow : Dbl → Dbl → Dbl) {lx : Lexer} {a r : List Char} {g : Char}
    (hcur : lx.cur = g :: (a ++ r)) (hsg : g = '+' ∨ g = '-')
    (ha : IsUnsignedLiteral a) (hr : Stops r) :
    ∃ lx1 : Lexer, lx1.cur = r ∧ ∀ n vals ops eu,
      main_loop pow (n + 1) lx vals ops eu
        = main_loop pow n lx1 ((if g = '-' then (litVal a).neg else litVal a) :: vals) ops
            false := by
  refine ⟨lx.adv (a.length + 1), ?_, fun _ vals ops eu =>
    step_number vals ops eu (next_token_signed hcur hsg ha hr)⟩
  rw [cur_adv, hcur]; simp

theorem run_op (pow : Dbl → Dbl → Dbl) {lx : Lexer} {c : Char} {t : List Char}
    (hcur : lx.cur = c :: t) (hc : c = '+' ∨ c = '-' ∨ c = '*' ∨ c = '/' ∨ c = '^')
    (hnext : (c = '+' ∨ c = '-') → ∀ d, t.head? = some d → isdigit d = false ∧ d ≠ '.') :
    ∃ lx1 : Lexer, lx1.cur = t ∧ ∀ n vals ops eu,
      main_loop pow (n + 1) lx vals ops eu =
        match op_loop pow c
            (if eu && (c = '+' || c = '-') then Dbl.fin 0 :: vals else vals) ops with
        | .error e => some (.error e)
        | .ok (vals1, ops1) => main_loop pow n lx1 vals1 (c :: ops1) true := by
  refine ⟨lx.adv 1, ?_, fun _ vals ops eu => step_op vals ops eu (next_token_op hcur hc hnext)⟩
  rw [cur_adv, hcur]; rfl

theorem run_lparen (pow : Dbl → Dbl → Dbl) {lx : Lexer} {t : List Char}
    (hcur : lx.cur = '(' :: t) :
    ∃ lx1 : Lexer, lx1.cur = t ∧ ∀ n vals ops eu,
      main_loop pow (n + 1) lx vals ops eu = main_loop pow n lx1 vals ('(' :: ops) true := by
  refine ⟨lx.adv 1, ?_, fun _ vals ops eu => step_lparen vals ops eu (next_token_lparen hcur)⟩
  rw [cur_adv, hcur]; rfl

theorem run_rparen (pow : Dbl → Dbl → Dbl) {lx : Lexer} {t : List Char}
    (hcur : lx.cur = ')' :: t) :
    ∃ lx1 : Lexer, lx1.cur = t ∧ ∀ n vals ops eu,
      main_loop pow (n + 1) lx vals ops eu =
        match rparen_loop pow vals ops with
        | .error e => some (.error e)
        | .ok (_, []) => some (.error .MismatchedParens)
        | .ok (vals1, top :: ops1) =>
          if top ≠ '(' then some (.error .MismatchedParens)
          else main_loop pow n lx1 vals1 ops1 false := by
  refine ⟨lx.adv 1, ?_, fun _ vals ops eu => step_rparen vals ops eu (next_token_rparen hcur)⟩
  rw [cur_adv, hcur]; rfl

theorem run_end (pow : Dbl → Dbl → Dbl) {lx : Lexer} (hcur : lx.cur = []) (n : Nat)
    (vals : List Dbl) (ops : List Char) (eu : Bool) :
    main_loop pow (n + 1) lx vals ops eu = some (finalize pow vals ops) :=
  step_end vals ops eu (next_token_end hcur)

theorem lit_of_digits {ds : List Char} (hne : ds ≠ []) (hd : IsDigits ds) :
    IsUnsignedLiteral ds :=
  ⟨ds, [], [], hd, .none, .none, Or.inl hne, by simp⟩

theorem lit_of_frac (ip fd : List Char) (hip : IsDigits ip) (hne : fd ≠ [])
    (hfd : IsDigits fd) : IsUnsignedLiteral (ip ++ '.' :: fd) :=
  ⟨ip, '.' :: fd, [], hip, .some fd hne hfd, .none, Or.inr (by simp), by simp⟩

/-- An optional sign before a literal. -/
theorem run_optsigned (pow : Dbl → Dbl → Dbl) {lx : Lexer} {sg z r : List Char}
    (hcur : lx.cur = sg ++ z ++ r) (hsg : sg = [] ∨ sg = ['+'] ∨ sg = ['-'])
    (hz : IsUnsignedLiteral z) (hr : Stops r) :
    ∃ lx1 : Lexer, lx1.cur = r ∧ ∀ n vals ops eu,
      main_loop pow (n + 1) lx vals ops eu
        = main_loop pow n lx1 ((if sg = ['-'] then (litVal z).neg else litVal z) :: vals) ops
            false := by
  rcases hsg with rfl | rfl | rfl
  · simpa using run_lit pow (by simpa using hcur) hz hr
  · simpa using run_signed pow (g := '+') (by simpa using hcur) (Or.inl rfl) hz hr
  · simpa using run_signed pow (g := '-') (by simpa using hcur) (Or.inr rfl) hz hr

theorem next_token_pi {lx : Lexer} {p i : Char} {t : List Char} (hcur : lx.cur = p :: i :: t)
    (hp : p = 'p' ∨ p = 'P') (hi : i = 'i' ∨ i = 'I') :
    next_token lx = (⟨.T_NUMBER, M_PI, '\x00'⟩, lx.adv 2) := by
  have hsp : isspace p = false := by rcases hp with rfl | rfl <;> decide
  obtain ⟨h1, h2, -⟩ := head_facts hcur hsp
  have hpi : is_pi lx.cur = true := by
    rw [hcur]
    rcases hp with rfl | rfl <;> rcases hi with rfl | rfl <;> simp [is_pi]
  have d1 : isdigit 'p' = false := by decide
  have d2 : isdigit 'P' = false := by decide
  simp only [next_token, h1, h2, hpi]
  rcases hp with rfl | rfl
  · simp [Lexer.adv, d1]
  · simp [Lexer.adv, d2]

theorem next_token_e {lx : Lexer} {c : Char} {t : List Char} (hcur : lx.cur = c :: t)
    (hc : c = 'e' ∨ c = 'E') :
    next_token lx = (⟨.T_NUMBER, M_E, '\x00'⟩, lx.adv 1) := by
  have hsp : isspace c = false := by rcases hc with rfl | rfl <;> decide
  obtain ⟨h1, h2, -⟩ := head_facts hcur hsp
  have hpi : is_pi lx.cur = false := by
    rw [hcur]
    cases t with
    | nil => rfl
    | cons d t' => rcases hc with rfl | rfl <;> simp [is_pi]
  have d1 : isdigit 'e' = false := by decide
  have d2 : isdigit 'E' = false := by decide
  simp only [next_token, h1, h2, hpi]
  rcases hc with rfl | rfl
  · simp [Lexer.adv, d1]
  · simp [Lexer.adv, d2]

theorem isspace_facts {c : Char} (h : isspace c = true) :
    isdigit c = false ∧ c ≠ '.' ∧ c ≠ 'e' ∧ c ≠ 'E' ∧ c ≠ 'x' ∧ c ≠ 'X' ∧ c ≠ 'p' ∧ c ≠ 'P'
      ∧ c ≠ '+' ∧ c ≠ '-' := by
  simp only [isspace, Bool.or_eq_true, decide_eq_true_eq] at h
  rcases h with ((((rfl | rfl) | rfl) | rfl) | rfl) | rfl <;> decide

theorem stops_spaces {ws : List Char} (h : IsSpaces ws) : Stops ws := by
  intro c hc
  cases ws with
  | nil => simp at hc
  | cons d t =>
    simp only [List.head?_cons, Option.some.injEq] at hc
    subst hc
    have := isspace_facts (h d (List.mem_cons_self _ _))
    exact ⟨this.1, this.2.1, this.2.2.1, this.2.2.2.1, this.2.2.2.2.1, this.2.2.2.2.2.1⟩

/-- A number token, then white space up to the end of the string. -/
theorem run_number_token (pow : Dbl → Dbl → Dbl) {lx : Lexer} {tok ws2 : List Char} {v : Dbl}
    (hcur : lx.cur = tok ++ ws2) (ht : IsNumberToken tok v) (h2 : IsSpaces ws2)
    (n : Nat) (vals : List Dbl) (ops : List Char) (eu : Bool) :
    main_loop pow (n + 2) lx vals ops eu = some (finalize pow (v :: vals) ops) := by
  have hend : ∀ lx1 : Lexer, lx1.cur = ws2 → ∀ vals1 : List Dbl,
      main_loop pow (n + 1) lx1 vals1 ops false = some (finalize pow vals1 ops) := by
    intro lx1 c1 vals1
    obtain ⟨lx2, c2, s2⟩ := run_spaces pow (r := []) (c1.trans (List.append_nil ws2).symm) h2
      (by intro c hc; simp at hc)
    rw [s2, run_end pow c2]
  cases ht with
  | lit a ha =>
    obtain ⟨lx1, c1, s1⟩ := run_lit pow hcur ha (stops_spaces h2)
    rw [s1, hend lx1 c1]
  | pi p i hp hi =>
    have ht := next_token_pi (t := ws2) hcur hp hi
    rw [step_number vals ops eu ht]
    exact hend _ (by rw [cur_adv, hcur]; rfl) _
  | e c hc =>
    have ht := next_token_e (t := ws2) hcur hc
    rw [step_number vals ops eu ht]
    exact hend _ (by rw [cur_adv, hcur]; rfl) _

theorem number_token_head {tok : List Char} {v : Dbl} (ht : IsNumberToken tok v) :
    ∃ c t, tok = c :: t ∧ isspace c = false ∧ c ≠ '+' ∧ c ≠ '-' := by
  cases ht with
  | lit a ha =>
    obtain ⟨c, t, rfl, hc⟩ := lit_head ha
    refine ⟨c, t, rfl, ?_⟩
    rcases hc with h | rfl
    · exact ⟨(isdigit_facts h).2.2.2.2.2.2.2.2.2.2, (isdigit_facts h).2.2.2.1,
        (isdigit_facts h).2.2.2.2.1⟩
    · exact ⟨by decide, by decide, by decide⟩
  | pi p i hp hi =>
    refine ⟨p, [i], rfl, ?_⟩
    rcases hp with rfl | rfl <;> exact ⟨by decide, by decide, by decide⟩
  | e c hc =>
    refine ⟨c, [], rfl, ?_⟩
    rcases hc with rfl | rfl <;> exact ⟨by decide, by decide, by decide⟩

/-- A sign directly before a number token, then white space up to the end. -/
theorem run_signed_token (pow : Dbl → Dbl → Dbl) {lx : Lexer} {tok ws2 : List Char} {v : Dbl}
    {sg : Char} (hcur : lx.cur = sg :: (tok ++ ws2)) (hsg : sg = '+' ∨ sg = '-')
    (ht : IsNumberToken tok v) (h2 : IsSpaces ws2) (n : Nat) :
    main_loop pow (n + 3) lx [] [] true = some (.ok (if sg = '-' then v.neg else v)) := by
  cases ht with
  | lit a ha =>
    obtain ⟨lx1, c1, s1⟩ := run_signed pow hcur hsg ha (stops_spaces h2)
    obtain ⟨lx2, c2, s2⟩ := run_spaces pow (r := []) (c1.trans (List.append_nil ws2).symm) h2
      (by intro c hc; simp at hc)
    rw [s1, s2, run_end pow c2]
    simp [finalize, ds_pop]
  | pi p i hp hi =>
    obtain ⟨lx1, c1, s1⟩ := run_op pow hcur (by rcases hsg with rfl | rfl <;> simp)
      (by
        intro _ d hd
        simp only [List.cons_append, List.head?_cons, Option.some.injEq] at hd
        subst hd
        rcases hp with rfl | rfl <;> exact ⟨by decide, by decide⟩)
    rw [s1]
    simp only [op_loop]
    rw [run_number_token pow c1 (.pi p i hp hi) h2]
    have e1 : (Dbl.fin 0).add M_PI = M_PI := by decide!
    have e2 : (Dbl.fin 0).sub M_PI = M_PI.neg := by decide!
    have f1 : M_PI.isNanOrInf = false := by decide!
    have f2 : M_PI.neg.isNanOrInf = false := by decide!
    rcases hsg with rfl | rfl <;> simp [finalize, apply_op, ds_pop, e1, e2, f1, f2]
  | e c hc =>
    obtain ⟨lx1, c1, s1⟩ := run_op pow hcur (by rcases hsg with rfl | rfl <;> simp)
      (by
        intro _ d hd
        simp only [List.cons_append, List.head?_cons, Option.some.injEq] at hd
        subst hd
        rcases hc with rfl | rfl <;> exact ⟨by decide, by decide⟩)
    rw [s1]
    simp only [op_loop]
    rw [run_number_token pow c1 (.e c hc) h2]
    have e1 : (Dbl.fin 0).add M_E = M_E := by decide!
    have e2 : (Dbl.fin 0).sub M_E = M_E.neg := by decide!
    have f1 : M_E.isNanOrInf = false := by decide!
    have f2 : M_E.neg.isNanOrInf = false := by decide!
    rcases hsg with rfl | rfl <;> simp [finalize, apply_op, ds_pop, e1, e2, f1, f2]

/-- A number token alone on the line, with or without a sign before it. -/
theorem number_token_eval (pow : Dbl → Dbl → Dbl) (ws1 tok ws2 : List Char) (v : Dbl)
    (h1 : IsSpaces ws1) (h2 : IsSpaces ws2) (ht : IsNumberToken tok v) :
    evaluate_expression pow (ws1 ++ (tok ++ ws2)) = some (.ok v)
      ∧ evaluate_expression pow (ws1 ++ '+' :: (tok ++ ws2)) = some (.ok v)
      ∧ evaluate_expression pow (ws1 ++ '-' :: (tok ++ ws2)) = some (.ok v.neg) := by
  obtain ⟨c, t, htok, hsp, -, -⟩ := number_token_head ht
  have hlen : 0 < tok.length := by rw [htok]; simp
  refine ⟨?_, ?_, ?_⟩
  · refine evaluate_of_main_loop (n := 2) ?_ (by simp; omega)
    have c0 : (Lexer.mk (ws1 ++ (tok ++ ws2)) 0).cur = ws1 ++ (tok ++ ws2) := rfl
    obtain ⟨lx1, c1, s1⟩ := run_spaces pow c0 h1
      (by
        intro d hd
        rw [htok] at hd
        simp only [List.cons_append, List.head?_cons, Option.some.injEq] at hd
        subst hd; exact hsp)
    rw [s1, run_number_token pow c1 ht h2]
    simp [finalize, ds_pop]
  · refine evaluate_of_main_loop (n := 3) ?_ (by simp; omega)
    have c0 : (Lexer.mk (ws1 ++ '+' :: (tok ++ ws2)) 0).cur = ws1 ++ '+' :: (tok ++ ws2) := rfl
    obtain ⟨lx1, c1, s1⟩ := run_spaces pow c0 h1
      (by
        intro d hd
        simp only [List.head?_cons, Option.some.injEq] at hd
        subst hd; decide)
    rw [s1, run_signed_token pow c1 (Or.inl rfl) ht h2]
    simp
  · refine evaluate_of_main_loop (n := 3) ?_ (by simp; omega)
    have c0 : (Lexer.mk (ws1 ++ '-' :: (tok ++ ws2)) 0).cur = ws1 ++ '-' :: (tok ++ ws2) := rfl
    obtain ⟨lx1, c1, s1⟩ := run_spaces pow c0 h1
      (by
        intro d hd
        simp only [List.head?_cons, Option.some.injEq] at hd
        subst hd; decide)
    rw [s1, run_signed_token pow c1 (Or.inr rfl) ht h2]
    simp

theorem lit_of_exp (ip ed : List Char) (m : Char) (hip : IsDigits ip) (hne : ip ≠ [])
    (hm : m = 'e' ∨ m = 'E') (hed : IsDigits ed) (hede : ed ≠ []) :
    IsUnsignedLiteral (ip ++ m :: ed) :=
  ⟨ip, [], m :: ([] ++ ed), hip, .none, .some m [] ed hm (Or.inl rfl) hede hed, Or.inl hne,
    by simp⟩

/-! ## Rounding: a rounded value is itself representable -/

/-- The constants `M_PI` and `M_E` are the decimal expansions of the macros,
rounded to binary64. -/
theorem constants_rounded :
    round64 (mkRat 314159265358979323846264338327950288 (10 ^ 35)) = M_PI
      ∧ round64 (mkRat 27182818284590452354 (10 ^ 19)) = M_E := by
  decide!

theorem qpow_eq (b : Nat) (k : Int) : qpow b k = (b : ℚ) ^ k := by
  unfold qpow
  split
  · rename_i h
    rw [Rat.mkRat_eq_div]
    have hk : k = (k.toNat : Int) := (Int.toNat_of_nonneg h).symm
    conv_rhs => rw [hk, zpow_natCast]
    simp
  · rename_i h
    rw [Rat.mkRat_eq_div]
    have hk : k = -((-k).toNat : Int) := by omega
    conv_rhs => rw [hk, zpow_neg, zpow_natCast]
    simp

theorem nlog2_go_spec : ∀ (fuel n : Nat), 0 < n → n ≤ fuel →
    2 ^ nlog2_go fuel n ≤ n ∧ n < 2 ^ (nlog2_go fuel n + 1) := by
  intro fuel
  induction fuel with
  | zero => intro n h0 h1; omega
  | succ fuel ih =>
    intro n h0 h1
    unfold nlog2_go
    split
    · rename_i h2
      obtain ⟨l, u⟩ := ih (n / 2) (by omega) (by omega)
      rw [pow_succ, pow_succ]
      constructor <;> omega
    · have : n = 1 := by omega
      subst this; simp

theorem nlog2_spec {n : Nat} (h : 0 < n) : 2 ^ nlog2 n ≤ n ∧ n < 2 ^ (nlog2 n + 1) :=
  nlog2_go_spec n n h (Nat.le_refl n)

theorem flog2_spec {a : ℚ} (ha : 0 < a) :
    (2 : ℚ) ^ flog2 a ≤ a ∧ a < (2 : ℚ) ^ (flog2 a + 1) := by
  have hnum : 0 < a.num := Rat.num_pos.mpr ha
  have hp : 0 < a.num.natAbs := Int.natAbs_pos.mpr (ne_of_gt hnum)
  have hd : 0 < a.den := a.den_pos
  obtain ⟨pl, pu⟩ := nlog2_spec hp
  obtain ⟨dl, du⟩ := nlog2_spec hd
  have hpq : ((a.num.natAbs : ℕ) : ℚ) = a * (a.den : ℚ) := by
    rw [Rat.mul_den_eq_num]
    rw [Nat.cast_natAbs, abs_of_pos hnum]
  have pl' : (2 : ℚ) ^ nlog2 a.num.natAbs ≤ a * a.den := by
    rw [← hpq]; exact_mod_cast pl
  have pu' : a * a.den < (2 : ℚ) ^ (nlog2 a.num.natAbs + 1) := by
    rw [← hpq]; exact_mod_cast pu
  have dl' : (2 : ℚ) ^ nlog2 a.den ≤ (a.den : ℚ) := by exact_mod_cast dl
  have du' : (a.den : ℚ) < (2 : ℚ) ^ (nlog2 a.den + 1) := by exact_mod_cast du
  have hd' : (0 : ℚ) < a.den := by exact_mod_cast hd
  set L : ℚ := (2 : ℚ) ^ nlog2 a.num.natAbs with hL
  set D : ℚ := (2 : ℚ) ^ nlog2 a.den with hD
  have hLpos : 0 < L := by positivity
  have hDpos : 0 < D := by positivity
  set k : Int := (nlog2 a.num.natAbs : Int) - (nlog2 a.den : Int) with hk
  have hX : (2 : ℚ) ^ k = L / D := by
    rw [hk, zpow_sub₀ (by norm_num : (2 : ℚ) ≠ 0), zpow_natCast, zpow_natCast]
  have hX1 : (2 : ℚ) ^ (k + 1) = 2 * (L / D) := by
    rw [zpow_add₀ (by norm_num : (2 : ℚ) ≠ 0), hX]; ring
  have hXm : (2 : ℚ) ^ (k - 1) = (L / D) / 2 := by
    rw [zpow_sub₀ (by norm_num : (2 : ℚ) ≠ 0), hX]; simp
  rw [pow_succ] at pu' du'
  have upper : a < 2 * (L / D) := by
    rw [← mul_div_assoc, lt_div_iff₀ hDpos]
    nlinarith
  have lower : (L / D) / 2 ≤ a := by
    rw [div_div, div_le_iff₀ (by positivity)]
    nlinarith
  unfold flog2
  simp only [qpow_eq, Nat.cast_ofNat]
  split
  · rename_i h
    exact ⟨h, by rw [hX1]; exact upper⟩
  · rename_i h
    refine ⟨by rw [hXm]; exact lower, ?_⟩
    have : k - 1 + 1 = k := by ring
    rw [this]
    exact lt_of_not_le h

theorem flog2_unique {a : ℚ} (ha : 0 < a) {k : Int} (hl : (2 : ℚ) ^ k ≤ a)
    (hu : a < (2 : ℚ) ^ (k + 1)) : flog2 a = k := by
  obtain ⟨l, u⟩ := flog2_spec ha
  have h1 : flog2 a < k + 1 :=
    (zpow_lt_zpow_iff_right₀ (by norm_num : (1 : ℚ) < 2)).1 (lt_of_le_of_lt l hu)
  have h2 : k < flog2 a + 1 :=
    (zpow_lt_zpow_iff_right₀ (by norm_num : (1 : ℚ) < 2)).1 (lt_of_le_of_lt hl u)
  omega

theorem roundMag_exact {v : ℚ} (k : Int)
    (hv : v = (k : ℚ) * (2 : ℚ) ^ (max (flog2 v - 52) (-1074)))
    (hlt : v < (2 : ℚ) ^ (1024 : Int)) : roundMag v = .fin v := by
  have hpos : (0 : ℚ) < (2 : ℚ) ^ (max (flog2 v - 52) (-1074)) := by positivity
  have hm : v / (2 : ℚ) ^ (max (flog2 v - 52) (-1074)) = (k : ℚ) := by
    rw [div_eq_iff (ne_of_gt hpos)]; exact hv
  have hfl : ((k : ℚ)).floor = k := by
    show ⌊(k : ℚ)⌋ = k
    exact Int.floor_intCast k
  simp only [roundMag, qpow_eq, Nat.cast_ofNat, hm, hfl, sub_self]
  have h0 : (0 : ℚ) < 1 / 2 := by norm_num
  simp only [h0, if_true, ← hv, not_le.mpr hlt, if_false]

/-- The result of `roundMag` in terms of its rounded significand. -/
theorem roundMag_eq (a : ℚ) :
    ∃ n1 : Int,
      (n1 = (a / (2 : ℚ) ^ (max (flog2 a - 52) (-1074))).floor ∨
        n1 = (a / (2 : ℚ) ^ (max (flog2 a - 52) (-1074))).floor + 1) ∧
      roundMag a =
        if (2 : ℚ) ^ (1024 : Int) ≤ (n1 : ℚ) * (2 : ℚ) ^ (max (flog2 a - 52) (-1074))
        then .inf false else .fin ((n1 : ℚ) * (2 : ℚ) ^ (max (flog2 a - 52) (-1074))) := by
  refine ⟨_, ?_, by simp only [roundMag, qpow_eq, Nat.cast_ofNat]; rfl⟩
  split
  · exact Or.inl rfl
  · split
    · exact Or.inr rfl
    · split
      · exact Or.inl rfl
      · exact Or.inr rfl

theorem roundMag_fin {a v : ℚ} (ha : 0 < a) (h : roundMag a = .fin v) :
    0 ≤ v ∧ (v = 0 ∨ roundMag v = .fin v) := by
  obtain ⟨fl, fu⟩ := flog2_spec ha
  set e : Int := max (flog2 a - 52) (-1074) with he
  have he1 : flog2 a - 52 ≤ e := le_max_left _ _
  have he2 : -1074 ≤ e := le_max_right _ _
  have hE : (0 : ℚ) < (2 : ℚ) ^ e := by positivity
  set m : ℚ := a / (2 : ℚ) ^ e with hm
  have hmpos : 0 < m := div_pos ha hE
  have hmlt : m < (2 : ℚ) ^ (53 : Int) := by
    rw [hm, div_lt_iff₀ hE, ← zpow_add₀ (by norm_num : (2 : ℚ) ≠ 0)]
    refine lt_of_lt_of_le fu (zpow_le_zpow_right₀ (by norm_num) (by omega))
  have hn0 : 0 ≤ m.floor := Int.floor_nonneg.mpr (le_of_lt hmpos)
  have hnle : ((m.floor : Int) : ℚ) ≤ m := Int.floor_le m
  have hnlt : m.floor < 2 ^ 53 := by
    have : ((m.floor : Int) : ℚ) < ((2 ^ 53 : Int) : ℚ) := by
      refine lt_of_le_of_lt hnle ?_
      have : ((2 ^ 53 : Int) : ℚ) = (2 : ℚ) ^ (53 : Int) := by norm_num
      rw [this]; exact hmlt
    exact_mod_cast this
  obtain ⟨n1, hn1, hrm⟩ := roundMag_eq a
  clear_value m e
  rw [← he] at hn1 hrm
  rw [← hm] at hn1
  rw [hrm] at h
  have hov : ¬ ((2 : ℚ) ^ (1024 : Int) ≤ (n1 : ℚ) * (2 : ℚ) ^ e) := by
    intro hc; rw [if_pos hc] at h; cases h
  have hv : v = (n1 : ℚ) * (2 : ℚ) ^ e := by
    rw [if_neg hov] at h
    simp only [Dbl.fin.injEq] at h
    exact h.symm
  have hn1pos : 0 ≤ n1 := by rcases hn1 with h | h <;> omega
  have hn1le : n1 ≤ 2 ^ 53 := by rcases hn1 with h | h <;> omega
  have hvlt : v < (2 : ℚ) ^ (1024 : Int) := by rw [hv]; exact lt_of_not_le hov
  have hv0 : 0 ≤ v := by
    rw [hv]; exact mul_nonneg (by exact_mod_cast hn1pos) (le_of_lt hE)
  refine ⟨hv0, ?_⟩
  rcases eq_or_lt_of_le hn1pos with h0 | hpos
  · left; rw [hv, ← h0]; simp
  right
  have hvpos : 0 < v := by
    rw [hv]; exact mul_pos (by exact_mod_cast hpos) hE
  rcases eq_or_lt_of_le hn1le with htop | hlt
  · -- the significand was rounded up to 2^53
    have hv' : v = (2 : ℚ) ^ (e + 53) := by
      rw [hv, htop, zpow_add₀ (by norm_num : (2 : ℚ) ≠ 0)]; norm_num; ring
    have hf : flog2 v = e + 53 := by
      refine flog2_unique hvpos (le_of_eq hv'.symm) ?_
      rw [hv']; exact (zpow_lt_zpow_iff_right₀ (by norm_num : (1 : ℚ) < 2)).2 (by omega)
    have hev : max (flog2 v - 52) (-1074) = e + 1 := by
      rw [hf]; exact max_eq_left (by omega) |>.trans (by ring)
    refine roundMag_exact (2 ^ 52) ?_ hvlt
    rw [hev, hv', zpow_add₀ (by norm_num : (2 : ℚ) ≠ 0),
      zpow_add₀ (by norm_num : (2 : ℚ) ≠ 0)]
    norm_num; ring
  · have hvu : v < (2 : ℚ) ^ (e + 53) := by
      rw [hv, zpow_add₀ (by norm_num : (2 : ℚ) ≠ 0), mul_comm ((2 : ℚ) ^ e)]
      refine mul_lt_mul_of_pos_right ?_ hE
      have : ((n1 : Int) : ℚ) < ((2 ^ 53 : Int) : ℚ) := by exact_mod_cast hlt
      refine lt_of_lt_of_eq this (by norm_num)
    obtain ⟨vl, -⟩ := flog2_spec hvpos
    have hf : flog2 v < e + 53 :=
      (zpow_lt_zpow_iff_right₀ (by norm_num : (1 : ℚ) < 2)).1 (lt_of_le_of_lt vl hvu)
    set ev : Int := max (flog2 v - 52) (-1074) with hev
    have hev_le : ev ≤ e := max_le (by omega) he2
    obtain ⟨d, hd⟩ : ∃ d : Nat, e = ev + d := ⟨(e - ev).toNat, by omega⟩
    refine roundMag_exact (n1 * 2 ^ d) ?_ hvlt
    rw [← hev, hv, hd, zpow_add₀ (by norm_num : (2 : ℚ) ≠ 0), zpow_natCast]
    push_cast; ring

/-- Negating a converted number is subtracting it from zero. -/
theorem round64_sub_zero (q : ℚ) : (Dbl.fin 0).sub (round64 q) = (round64 q).neg := by
  have key : ∀ w : ℚ, 0 ≤ w → (w = 0 ∨ roundMag w = .fin w) →
      round64 (-w) = .fin (-w) ∧ round64 w = .fin w := by
    intro w hw0 hw
    rcases hw with rfl | hw
    · simp [round64]
    · rcases eq_or_lt_of_le hw0 with h0 | hpos
      · subst h0; simp [round64]
      · have hne : w ≠ 0 := ne_of_gt hpos
        constructor
        · have : -w < 0 := by linarith
          simp [round64, hne, this, hw, Dbl.neg, hpos]
        · have : ¬ w < 0 := by linarith
          simp [round64, hne, this, hw]
  cases hr : round64 q with
  | nan => rfl
  | inf s => rfl
  | fin w =>
    show round64 (0 + -w) = Dbl.fin (-w)
    rw [zero_add]
    unfold round64 at hr
    split at hr
    · simp only [Dbl.fin.injEq] at hr
      subst hr; simp [round64]
    · split at hr
      · rename_i hq0 hqneg
        have hpos : 0 < -q := by linarith
        cases hm : roundMag (-q) with
        | nan => rw [hm] at hr; simp [Dbl.neg] at hr
        | inf s => rw [hm] at hr; simp [Dbl.neg] at hr
        | fin u =>
          rw [hm] at hr
          simp only [Dbl.neg, Dbl.fin.injEq] at hr
          obtain ⟨hu0, hu⟩ := roundMag_fin hpos hm
          have := (key u hu0 hu).2
          rw [← hr, neg_neg]; exact this
      · rename_i hq0 hqneg
        have hpos : 0 < q := lt_of_le_of_ne (not_lt.mp hqneg) (Ne.symm hq0)
        obtain ⟨hu0, hu⟩ := roundMag_fin hpos hr
        exact (key w hu0 hu).1

theorem litVal_eq_round64 {a : List Char} (ha : IsUnsignedLiteral a) :
    ∃ q : ℚ, litVal a = round64 q := by
  obtain ⟨q, hq⟩ := strtod_unsigned_lit ha
  have hq0 := hq [] stops_nil
  rw [List.append_nil] at hq0
  obtain ⟨c, t, rfl, hc⟩ := lit_head ha
  have hsign : c ≠ '+' ∧ c ≠ '-' := by
    rcases hc with h | rfl
    · exact ⟨(isdigit_facts h).2.2.2.1, (isdigit_facts h).2.2.2.2.1⟩
    · exact ⟨by decide, by decide⟩
  refine ⟨q, ?_⟩
  have : strtod (c :: t) = (round64 q, (c :: t).length) := by
    simp [strtod, hsign.1, hsign.2, hq0]
  rw [litVal, this]

/-! ## The superscript normalizer -/

theorem char_toNat_lt (c : Char) : c.toNat < 0x110000 := by
  have h : c.val.toNat.isValidChar := c.valid
  rcases h with h | h
  · exact Nat.lt_trans h (by decide)
  · exact h.2

theorem char_of_toNat {c : Char} {n : Nat} (h : c.toNat = n) : c = Char.ofNat n := by
  rw [← h, Char.ofNat_toNat]

/-- The superscript set of the source is that of the specification, with the
same ASCII equivalents. -/
theorem superscript_cases (c : Char) :
    (spec_is_superscript c = true ∧ is_superscript c.toNat = true
        ∧ superscript_to_ascii c.toNat = spec_ascii c ∧ utf8_encode (spec_ascii c)
          = [(superscript_to_ascii c.toNat).toNat])
      ∨ (spec_is_superscript c = false ∧ is_superscript c.toNat = false) := by
  by_cases h0 : c.toNat = 0x2070
  · left; rw [char_of_toNat h0]; decide
  by_cases h1 : c.toNat = 0xB9
  · left; rw [char_of_toNat h1]; decide
  by_cases h2 : c.toNat = 0xB2
  · left; rw [char_of_toNat h2]; decide
  by_cases h3 : c.toNat = 0xB3
  · left; rw [char_of_toNat h3]; decide
  by_cases h4 : c.toNat = 0x2074
  · left; rw [char_of_toNat h4]; decide
  by_cases h5 : c.toNat = 0x2075
  · left; rw [char_of_toNat h5]; decide
  by_cases h6 : c.toNat = 0x2076
  · left; rw [char_of_toNat h6]; decide
  by_cases h7 : c.toNat = 0x2077
  · left; rw [char_of_toNat h7]; decide
  by_cases h8 : c.toNat = 0x2078
  · left; rw [char_of_toNat h8]; decide
  by_cases h9 : c.toNat = 0x2079
  · left; rw [char_of_toNat h9]; decide
  by_cases hm : c.toNat = 0x207B
  · left; rw [char_of_toNat hm]; decide
  right
  have hne : ∀ k : Char, c.toNat ≠ k.toNat → (c == k) = false := by
    intro k hk
    simp only [beq_eq_false_iff_ne, ne_eq]
    intro e; exact hk (by rw [e])
  constructor
  · simp only [spec_is_superscript, superscript_table, List.lookup,
      hne '⁰' h0, hne '¹' h1, hne '²' h2, hne '³' h3, hne '⁴' h4, hne '⁵' h5, hne '⁶' h6,
      hne '⁷' h7, hne '⁸' h8, hne '⁹' h9, hne '⁻' hm]
    rfl
  · simp only [is_superscript, Bool.or_eq_false_iff, decide_eq_false_iff_not,
      Bool.and_eq_false_imp, decide_eq_true_eq]
    refine ⟨⟨⟨⟨⟨h0, h1⟩, h2⟩, h3⟩, ?_⟩, hm⟩
    intro h; simp only [ge_iff_le, not_le]; omega

theorem and_mask (x : Nat) :
    x &&& 0x3F = x % 64 ∧ x &&& 0x1F = x % 32 ∧ x &&& 0x0F = x % 16 ∧ x &&& 0x07 = x % 8 :=
  ⟨Nat.and_pow_two_sub_one_eq_mod x 6, Nat.and_pow_two_sub_one_eq_mod x 5,
    Nat.and_pow_two_sub_one_eq_mod x 4, Nat.and_pow_two_sub_one_eq_mod x 3⟩

theorem or_low (a b : Nat) (i : Nat) (hb : b < 2 ^ i) : a <<< i ||| b = a * 2 ^ i + b := by
  rw [Nat.shiftLeft_eq, Nat.mul_comm a, ← Nat.mul_add_lt_is_or hb]

/-- Decoding the UTF-8 encoding of a scalar value gives the scalar value back
and advances by the length of the encoding. -/
theorem decode_utf8 (c : Char) (tl : List Nat) :
    ∃ b0 bs, utf8_encode c = b0 :: bs ∧ decode b0 (bs ++ tl) = (c.toNat, bs.length + 1) := by
  have hlt := char_toNat_lt c
  unfold utf8_encode
  simp only []
  split
  · rename_i h
    exact ⟨_, _, rfl, by simp [decode, h]⟩
  split
  · rename_i h1 h2
    refine ⟨_, _, rfl, ?_⟩
    have e1 : ¬ (0xC0 + c.toNat / 64 < 0x80) := by omega
    have e2 : (0xC0 + c.toNat / 64) >>> 5 = 0x6 := by
      rw [Nat.shiftRight_eq_div_pow]; omega
    have e3 : ((0xC0 + c.toNat / 64 &&& 0x1F) <<< 6) ||| (0x80 + c.toNat % 64 &&& 0x3F)
        = c.toNat := by
      simp only [fun x => (and_mask x).1, fun x => (and_mask x).2.1]
      rw [or_low _ _ 6 (by omega)]; omega
    simp [decode, e1, e2, e3]
  split
  · rename_i h1 h2 h3
    refine ⟨_, _, rfl, ?_⟩
    have e1 : ¬ (0xE0 + c.toNat / 4096 < 0x80) := by omega
    have e2 : ¬ ((0xE0 + c.toNat / 4096) >>> 5 = 0x6) := by
      rw [Nat.shiftRight_eq_div_pow]; omega
    have e2' : (0xE0 + c.toNat / 4096) >>> 4 = 0xE := by
      rw [Nat.shiftRight_eq_div_pow]; omega
    have e3 : ((0xE0 + c.toNat / 4096 &&& 0x0F) <<< 12)
        ||| ((0x80 + c.toNat / 64 % 64 &&& 0x3F) <<< 6) ||| (0x80 + c.toNat % 64 &&& 0x3F)
        = c.toNat := by
      simp only [fun x => (and_mask x).1, fun x => (and_mask x).2.2.1]
      rw [Nat.shiftLeft_eq (_ % 64) 6, or_low _ _ 12 (by omega)]
      have : (0xE0 + c.toNat / 4096) % 16 * 2 ^ 12 + (0x80 + c.toNat / 64 % 64) % 64 * 2 ^ 6
          = ((0xE0 + c.toNat / 4096) % 16 * 64 + (0x80 + c.toNat / 64 % 64) % 64) * 2 ^ 6 := by
        omega
      rw [this, ← Nat.shiftLeft_eq, or_low _ _ 6 (by omega)]; omega
    simp [decode, e1, e2, e2', e3]
  · rename_i h1 h2 h3
    refine ⟨_, _, rfl, ?_⟩
    have e1 : ¬ (0xF0 + c.toNat / 262144 < 0x80) := by omega
    have e2 : ¬ ((0xF0 + c.toNat / 262144) >>> 5 = 0x6) := by
      rw [Nat.shiftRight_eq_div_pow]; omega
    have e2' : ¬ ((0xF0 + c.toNat / 262144) >>> 4 = 0xE) := by
      rw [Nat.shiftRight_eq_div_pow]; omega
    have e2'' : (0xF0 + c.toNat / 262144) >>> 3 = 0x1E := by
      rw [Nat.shiftRight_eq_div_pow]; omega
    have e3 : ((0xF0 + c.toNat / 262144 &&& 0x07) <<< 18)
        ||| ((0x80 + c.toNat / 4096 % 64 &&& 0x3F) <<< 12)
        ||| ((0x80 + c.toNat / 64 % 64 &&& 0x3F) <<< 6) ||| (0x80 + c.toNat % 64 &&& 0x3F)
        = c.toNat := by
      simp only [fun x => (and_mask x).1, fun x => (and_mask x).2.2.2]
      rw [Nat.shiftLeft_eq (_ % 64) 12, Nat.shiftLeft_eq (_ % 64) 6, or_low _ _ 18 (by omega)]
      have h1 : (0xF0 + c.toNat / 262144) % 8 * 2 ^ 18 + (0x80 + c.toNat / 4096 % 64) % 64 * 2 ^ 12
          = ((0xF0 + c.toNat / 262144) % 8 * 64 + (0x80 + c.toNat / 4096 % 64) % 64) * 2 ^ 12 := by
        omega
      rw [h1, ← Nat.shiftLeft_eq, or_low _ _ 12 (by omega)]
      have h2 : ((0xF0 + c.toNat / 262144) % 8 * 64 + (0x80 + c.toNat / 4096 % 64) % 64) * 2 ^ 12
            + (0x80 + c.toNat / 64 % 64) % 64 * 2 ^ 6
          = (((0xF0 + c.toNat / 262144) % 8 * 64 + (0x80 + c.toNat / 4096 % 64) % 64) * 64
            + (0x80 + c.toNat / 64 % 64) % 64) * 2 ^ 6 := by
        omega
      rw [h2, ← Nat.shiftLeft_eq, or_low _ _ 6 (by omega)]; omega
    simp [decode, e1, e2, e2', e2'', e3]

theorem normalize_loop_skip (b : Bool) (bs tl : List Nat) :
    normalize_loop bs.length b (bs ++ tl) = normalize_loop 0 b tl := by
  induction bs with
  | nil => rfl
  | cons x bs ih => simpa [normalize_loop] using ih

/-- One scalar value through the loop: its encoding is decoded, the output for
it is written, and the loop goes on after the encoding. -/
theorem normalize_loop_scalar (b : Bool) (c : Char) (tl : List Nat) :
    normalize_loop 0 b (utf8_encode c ++ tl)
      = (emit b c.toNat (utf8_encode c)).1
          ++ normalize_loop 0 (emit b c.toNat (utf8_encode c)).2 tl := by
  obtain ⟨b0, bs, henc, hdec⟩ := decode_utf8 c tl
  rw [henc, List.cons_append, normalize_loop]
  simp only [hdec, Nat.add_sub_cancel]
  have htake : (b0 :: (bs ++ tl)).take (bs.length + 1) = b0 :: bs := by
    simp
  rw [htake, normalize_loop_skip]

theorem utf8_encode_ne_zero {c : Char} (hc : c ≠ '\x00') : ∀ x ∈ utf8_encode c, x ≠ 0 := by
  have h0 : c.toNat ≠ 0 := by
    intro h; exact hc (by rw [char_of_toNat h])
  intro x hx
  unfold utf8_encode at hx
  simp only [] at hx
  split at hx
  · simp only [List.mem_singleton] at hx; omega
  split at hx
  · simp only [List.mem_cons, List.mem_singleton, List.not_mem_nil, or_false] at hx; omega
  split at hx
  · simp only [List.mem_cons, List.mem_singleton, List.not_mem_nil, or_false] at hx; omega
  · simp only [List.mem_cons, List.mem_singleton, List.not_mem_nil, or_false] at hx; omega

theorem utf8_strlen {s : List Char} (h : ∀ c ∈ s, c ≠ '\x00') :
    (utf8 s).takeWhile (fun b => b ≠ 0) = utf8 s := by
  rw [List.takeWhile_eq_self_iff]
  intro x hx
  simp only [utf8, List.mem_flatMap] at hx
  obtain ⟨c, hc, hxc⟩ := hx
  simpa using utf8_encode_ne_zero (h c hc) x hxc

/-- The loop on an encoded sequence, in either state. -/
theorem normalize_loop_utf8 (s : List Char) :
    normalize_loop 0 false (utf8 s) = utf8 (spec_normalize s)
      ∧ normalize_loop 0 true (utf8 s)
          = utf8 ((s.takeWhile spec_is_superscript).map spec_ascii
              ++ spec_normalize (s.dropWhile spec_is_superscript)) := by
  induction s with
  | nil => simp [utf8, spec_normalize, normalize_loop]
  | cons c rest ih =>
    obtain ⟨ihf, iht⟩ := ih
    have hcons : ∀ (x : Char) (l : List Char), utf8 (x :: l) = utf8_encode x ++ utf8 l := by
      intro x l; simp [utf8]
    have happ : ∀ l1 l2 : List Char, utf8 (l1 ++ l2) = utf8 l1 ++ utf8 l2 := by
      intro l1 l2; simp [utf8]
    have hcaret : utf8_encode '^' = ['^'.toNat] := by decide
    rcases superscript_cases c with ⟨hs, hi, ha, hu⟩ | ⟨hs, hi⟩
    · have htw : (c :: rest).takeWhile spec_is_superscript
          = c :: rest.takeWhile spec_is_superscript := by simp [List.takeWhile_cons, hs]
      have hdw : (c :: rest).dropWhile spec_is_superscript
          = rest.dropWhile spec_is_superscript := by simp [List.dropWhile_cons, hs]
      have hef : emit false c.toNat (utf8_encode c)
          = (['^'.toNat, (superscript_to_ascii c.toNat).toNat], true) := by simp [emit, hi]
      have het : emit true c.toNat (utf8_encode c)
          = ([(superscript_to_ascii c.toNat).toNat], true) := by simp [emit, hi]
      constructor
      · rw [hcons, normalize_loop_scalar, hef, iht, spec_normalize, if_pos hs, htw]
        simp only [List.map_cons, List.cons_append, hcons, happ, hcaret, hu,
          List.nil_append]
      · rw [hcons, normalize_loop_scalar, het, iht, htw, hdw]
        simp only [List.map_cons, List.cons_append, hcons, happ, hu, List.nil_append]
    · have htw : (c :: rest).takeWhile spec_is_superscript = [] := by
        simp [List.takeWhile_cons, hs]
      have hdw : (c :: rest).dropWhile spec_is_superscript = c :: rest := by
        simp [List.dropWhile_cons, hs]
      have he : ∀ b, emit b c.toNat (utf8_encode c) = (utf8_encode c, false) := by
        intro b; simp [emit, hi]
      have hsp : spec_normalize (c :: rest) = c :: spec_normalize rest := by
        rw [spec_normalize, if_neg (by simp [hs])]
      constructor
      · rw [hcons, normalize_loop_scalar, he, ihf, hsp, hcons]
      · rw [hcons, normalize_loop_scalar, he, ihf, htw, hdw, hsp, List.map_nil,
          List.nil_append, hcons]

/-- On scalar values of each encoded length, `utf8_encode` gives the bytes of
the library encoder `String.utf8EncodeChar`. -/
theorem utf8_encode_examples :
    ∀ c ∈ ['5', '^', '²', '¹', '⁰', '⁻', '€', '😀'],
      utf8_encode c = (String.utf8EncodeChar c).map UInt8.toNat := by
  decide

/-! ## The tokenizer on any input -/

theorem pref_zero (P : Char → Prop) (l : List Char) : Pref P 0 l :=
  ⟨Nat.zero_le _, by simp⟩

theorem pref_add {P : Char → Prop} {a b : Nat} {l : List Char} (ha : Pref P a l)
    (hb : Pref P b (l.drop a)) : Pref P (a + b) l := by
  obtain ⟨ha1, ha2⟩ := ha
  obtain ⟨hb1, hb2⟩ := hb
  refine ⟨by rw [List.length_drop] at hb1; omega, fun c hc => ?_⟩
  rw [List.take_add, List.mem_append] at hc
  rcases hc with hc | hc
  · exact ha2 c hc
  · exact hb2 c hc

theorem pref_mono {P Q : Char → Prop} (h : ∀ c, P c → Q c) {n : Nat} {l : List Char}
    (hp : Pref P n l) : Pref Q n l :=
  ⟨hp.1, fun c hc => h c (hp.2 c hc)⟩

theorem pref_takeWhile (p : Char → Bool) (l : List Char) :
    Pref (fun c => p c = true) (l.takeWhile p).length l := by
  induction l with
  | nil => exact pref_zero _ _
  | cons x xs ih =>
    by_cases hx : p x = true
    · rw [List.takeWhile_cons_of_pos hx]
      refine ⟨by simpa using ih.1, fun c hc => ?_⟩
      simp only [List.length_cons, List.take_succ_cons, List.mem_cons] at hc
      rcases hc with rfl | hc
      · exact hx
      · exact ih.2 c hc
    · rw [List.takeWhile_cons_of_neg hx]
      exact pref_zero _ _

theorem pref_one {P : Char → Prop} {c : Char} {t : List Char} (h : P c) : Pref P 1 (c :: t) :=
  ⟨by simp, fun d hd => by simp at hd; rw [hd]; exact h⟩

theorem strtod_exp_pref (marker : Char → Bool) (l : List Char) :
    Pref (fun c => marker c = true ∨ c = '+' ∨ c = '-' ∨ isdigit c = true)
      (strtod_exp marker l).2 l := by
  cases l with
  | nil => exact pref_zero _ _
  | cons c t =>
    unfold strtod_exp
    by_cases hm : marker c = true
    · simp only [hm, if_true]
      split
      · exact pref_zero _ _
      · -- marker, sign, digits
        have h1 : Pref (fun c => marker c = true ∨ c = '+' ∨ c = '-' ∨ isdigit c = true) 1
            (c :: t) := pref_one (Or.inl hm)
        have h2 : ∀ sl : Nat, Pref (fun c => marker c = true ∨ c = '+' ∨ c = '-' ∨ isdigit c = true)
            sl t → Pref (fun c => marker c = true ∨ c = '+' ∨ c = '-' ∨ isdigit c = true)
              (1 + sl + ((t.drop sl).takeWhile isdigit).length) (c :: t) := by
          intro sl hsl
          rw [Nat.add_assoc]
          refine pref_add h1 ?_
          simp only [List.drop_succ_cons, List.drop_zero]
          exact pref_add hsl (pref_mono (fun c hc => Or.inr (Or.inr (Or.inr hc)))
            (pref_takeWhile isdigit _))
        cases t with
        | nil => exact h2 0 (pref_zero _ _)
        | cons d t' =>
          by_cases hd : d = '+' ∨ d = '-'
          · simp only [hd, if_true]
            exact h2 1 (pref_one (by rcases hd with h | h <;> simp [h]))
          · simp only [hd, if_false]
            exact h2 0 (pref_zero _ _)
    · simp only [hm]
      exact pref_zero _ _

theorem pref_add4 {P : Char → Prop} {a b c d : Nat} {l : List Char}
    (ha : Pref P a l) (hb : Pref P b (l.drop a)) (hc : Pref P c ((l.drop a).drop b))
    (hd : Pref P d ((l.drop a).drop (b + c))) : Pref P (a + b + c + d) l := by
  rw [Nat.add_assoc, Nat.add_assoc]
  refine pref_add ha (pref_add hb ?_)
  refine pref_add hc ?_
  have e : List.drop c (List.drop b (List.drop a l)) = List.drop (b + c) (List.drop a l) := by
    simp only [List.drop_drop]
    congr 1
    omega
  rw [e]
  exact hd

theorem strtod_body_pref (digit : Char → Bool) (base ebase scale : Nat) (marker : Char → Bool)
    (l : List Char) :
    Pref (fun c => digit c = true ∨ c = '.' ∨ marker c = true ∨ c = '+' ∨ c = '-'
        ∨ isdigit c = true)
      (strtod_body digit base ebase scale marker l).2 l := by
  unfold strtod_body
  simp only []
  split
  · exact pref_zero _ _
  · have hdot : Pref (fun c => c = '.')
        (match l.drop (l.takeWhile digit).length with
          | [] => 0
          | c :: _ => if c = '.' then 1 else 0) (l.drop (l.takeWhile digit).length) := by
      cases hl : l.drop (l.takeWhile digit).length with
      | nil => exact pref_zero _ _
      | cons c t =>
        by_cases hc : c = '.'
        · simp only [hc, if_true]; exact pref_one rfl
        · simp only [hc, if_false]; exact pref_zero _ _
    refine pref_add4 (pref_mono (fun c hc => Or.inl hc) (pref_takeWhile digit l))
      (pref_mono (fun c hc => Or.inr (Or.inl hc)) hdot)
      (pref_mono (fun c hc => Or.inl hc) (pref_takeWhile digit _)) ?_
    refine pref_mono (fun c hc => ?_) (strtod_exp_pref marker _)
    rcases hc with h | h | h | h <;> simp [h]

theorem strtod_unsigned_pref (l : List Char) :
    Pref (fun c => is_number_char c = true) (strtod_unsigned l).2 l := by
  have hdec : Pref (fun c => is_number_char c = true)
      (strtod_body isdigit 10 10 1 dec_marker l).2 l := by
    refine pref_mono (fun c hc => ?_) (strtod_body_pref isdigit 10 10 1 dec_marker l)
    rcases hc with h | h | h | h | h | h
    · revert h; simp only [is_number_char, isdigit, isxdigit]; intro h; simp [h]
    · simp [is_number_char, h]
    · revert h; simp only [is_number_char, dec_marker, isxdigit]
      intro h
      have : c = 'e' ∨ c = 'E' := by simpa using h
      rcases this with h | h <;> subst h <;> decide
    · simp [is_number_char, h]
    · simp [is_number_char, h]
    · revert h; simp only [is_number_char, isdigit, isxdigit]; intro h; simp [h]
  unfold strtod_unsigned
  simp only []
  split
  · rename_i hx
    revert hx
    split
    · rename_i c0 c1 t
      split
      · rename_i h01
        intro _
        show Pref _ (1 + 1 + _) _
        rw [Nat.add_assoc]
        refine pref_add (pref_one ?_) (pref_add (pref_one ?_) ?_)
        · rw [h01.1]; decide
        · rcases h01.2 with h | h <;> rw [h] <;> decide
        · simp only [List.drop_succ_cons, List.drop_zero]
          refine pref_mono (fun c hc => ?_) (strtod_body_pref isxdigit 16 2 4 hex_marker t)
          rcases hc with h | h | h | h | h | h
          · simp [is_number_char, h]
          · simp [is_number_char, h]
          · have : c = 'p' ∨ c = 'P' := by simpa [hex_marker] using h
            rcases this with h | h <;> subst h <;> decide
          · simp [is_number_char, h]
          · simp [is_number_char, h]
          · revert h; simp only [is_number_char, isdigit, isxdigit]; intro h; simp [h]
      · intro h; exact absurd rfl h
    · intro h; exact absurd rfl h
  · exact hdec

theorem strtod_pref_aux (l : List Char) (sl : Nat) (v : Dbl)
    (hs : Pref (fun c => is_number_char c = true) sl l) :
    Pref (fun c => is_number_char c = true)
      (if (strtod_unsigned (l.drop sl)).2 = 0 then ((Dbl.fin 0, 0) : Dbl × Nat)
        else (v, sl + (strtod_unsigned (l.drop sl)).2)).2 l := by
  split
  · exact pref_zero _ _
  · exact pref_add hs (strtod_unsigned_pref _)

theorem strtod_pref (l : List Char) :
    Pref (fun c => is_number_char c = true) (strtod l).2 l := by
  unfold strtod
  simp only []
  refine strtod_pref_aux l _ _ ?_
  cases l with
  | nil => exact pref_zero _ _
  | cons c t =>
    by_cases hc : c = '+' ∨ c = '-'
    · simp only [hc, if_true]
      exact pref_one (by rcases hc with h | h <;> subst h <;> decide)
    · simp only [hc, if_false]; exact pref_zero _ _

theorem spaces_split (l : List Char) :
    ∃ ws rest, IsSpaces ws ∧ l = ws ++ rest ∧ ∀ c, rest.head? = some c → isspace c = false := by
  refine ⟨l.takeWhile isspace, l.dropWhile isspace, ?_, (List.takeWhile_append_dropWhile _ _).symm,
    ?_⟩
  · intro c hc
    exact List.mem_takeWhile_imp hc
  · intro c hc
    have h := @List.head?_dropWhile_not Char isspace l
    rw [hc] at h
    simpa using h

theorem adv_adv (lx : Lexer) (a b : Nat) : (lx.adv a).adv b = lx.adv (a + b) := by
  simp [Lexer.adv, Nat.add_assoc]

theorem adv_zero (lx : Lexer) : lx.adv 0 = lx := by
  simp [Lexer.adv]

theorem take_append_drop_cur (l : List Char) (n : Nat) : l = l.take n ++ l.drop n :=
  (List.take_append_drop n l).symm

/-- The token read at a cursor that stands on no white space: the characters it
takes, and what they can be. -/
theorem next_token_cases0 (lx : Lexer)
    (hr : ∀ c, lx.cur.head? = some c → isspace c = false) :
    ∃ seg rest, lx.cur = seg ++ rest ∧ (next_token lx).2 = lx.adv seg.length ∧
      TokSeg (next_token lx).1 seg rest := by
  have h1 : skip_ws lx = lx := skip_ws_id hr
  cases hcur : lx.cur with
  | nil =>
    refine ⟨[], [], rfl, ?_, ?_⟩
    · rw [next_token_end hcur]; exact (adv_zero lx).symm
    · rw [next_token_end hcur]; exact ⟨rfl, Or.inl rfl⟩
  | cons c t =>
    have h2 : lx.at 0 = c := by simp [Lexer.at, hcur]
    unfold next_token
    simp only [h1, h2]
    split_ifs with hz hl hrp hnum hs0 hop hpi he
    · refine ⟨[], c :: t, rfl, (adv_zero lx).symm, rfl, Or.inr ?_⟩
      rw [hz]; rfl
    · refine ⟨['('], t, by rw [hl]; rfl, rfl, ?_⟩
      exact rfl
    · refine ⟨[')'], t, by rw [hrp]; rfl, rfl, ?_⟩
      exact rfl
    · exact ⟨[], c :: t, rfl, (adv_zero lx).symm, rfl⟩
    · have hp := strtod_pref lx.cur
      refine ⟨lx.cur.take (strtod lx.cur).2, lx.cur.drop (strtod lx.cur).2, ?_, ?_, ?_, ?_⟩
      · rw [← hcur]; exact take_append_drop_cur _ _
      · rw [List.length_take, Nat.min_eq_left hp.1]; rfl
      · intro h
        have := congrArg List.length h
        rw [List.length_take, Nat.min_eq_left hp.1] at this
        exact hs0 this
      · exact hp.2
    · refine ⟨[c], t, rfl, rfl, rfl, ?_⟩
      simpa [is_op_char] using hop
    · obtain ⟨d, t', rfl⟩ : ∃ d t', t = d :: t' := by
        cases t with
        | nil => rw [hcur] at hpi; simp [is_pi] at hpi
        | cons d t' => exact ⟨d, t', rfl⟩
      refine ⟨[c, d], t', rfl, rfl, by simp, ?_⟩
      rw [hcur] at hpi
      simp only [is_pi, Bool.and_eq_true, Bool.or_eq_true, decide_eq_true_eq] at hpi
      intro x hx
      simp only [List.mem_cons, List.mem_singleton, List.not_mem_nil, or_false] at hx
      rcases hx with rfl | rfl
      · rcases hpi.1 with h | h <;> rw [h] <;> decide
      · rcases hpi.2 with h | h <;> rw [h] <;> decide
    · refine ⟨[c], t, rfl, rfl, by simp, ?_⟩
      intro x hx
      simp only [List.mem_singleton] at hx
      subst hx
      have : x = 'e' ∨ x = 'E' := by simpa using he
      rcases this with h | h <;> rw [h] <;> decide
    · exact ⟨[], c :: t, rfl, (adv_zero lx).symm, rfl⟩

/-- Every call of `next_token`: the white space skipped, the characters of the
token, and the cursor after them. -/
theorem next_token_cases (lx : Lexer) :
    ∃ ws seg rest, IsSpaces ws ∧ lx.cur = ws ++ (seg ++ rest) ∧
      (next_token lx).2 = lx.adv (ws.length + seg.length) ∧
      TokSeg (next_token lx).1 seg rest := by
  obtain ⟨ws, r, hws, hcur, hr⟩ := spaces_split lx.cur
  have hn := next_token_skip hcur hws hr
  have hc1 : (lx.adv ws.length).cur = r := cur_adv_append hcur
  obtain ⟨seg, rest, hseg, hadv, htok⟩ := next_token_cases0 (lx.adv ws.length)
    (by rw [hc1]; exact hr)
  refine ⟨ws, seg, rest, hws, ?_, ?_, ?_⟩
  · rw [hcur, ← hseg, hc1]
  · rw [hn, hadv, adv_adv]
  · rw [hn]; exact htok

theorem cur_length (lx : Lexer) : lx.cur.length = lx.s.length - lx.i := by
  simp [Lexer.cur]

theorem tokseg_length {t : Token} {seg rest : List Char} (h : TokSeg t seg rest)
    (ht : t.type ≠ .T_END ∧ t.type ≠ .T_INVALID) : 0 < seg.length := by
  unfold TokSeg at h
  cases hty : t.type <;> rw [hty] at h <;> simp only [] at h
  · exact List.length_pos.2 h.1
  · rw [h.1]; exact Nat.one_pos
  · rw [h]; exact Nat.one_pos
  · rw [h]; exact Nat.one_pos
  · exact absurd hty ht.1
  · exact absurd hty ht.2

/-- A token other than `T_END` and `T_INVALID` moves the cursor forward and
keeps it inside the string. -/
theorem next_token_advance (lx : Lexer)
    (ht : (next_token lx).1.type ≠ .T_END ∧ (next_token lx).1.type ≠ .T_INVALID) :
    lx.i < (next_token lx).2.i ∧ (next_token lx).2.i ≤ lx.s.length ∧
      (next_token lx).2.s = lx.s := by
  obtain ⟨ws, seg, rest, -, hcur, hadv, htok⟩ := next_token_cases lx
  have hpos := tokseg_length htok ht
  have hlen := congrArg List.length hcur
  rw [cur_length, List.length_append, List.length_append] at hlen
  rw [hadv]
  simp only [Lexer.adv]
  refine ⟨?_, ?_, trivial⟩ <;> omega

/-- The main loop returns once the fuel exceeds the characters left. -/
theorem main_loop_total (pow : Dbl → Dbl → Dbl) :
    ∀ (n : Nat) (lx : Lexer) (vals : List Dbl) (ops : List Char) (eu : Bool),
      lx.s.length - lx.i < n → ∃ r, main_loop pow n lx vals ops eu = some r := by
  intro n
  induction n with
  | zero => intro lx vals ops eu h; omega
  | succ n ih =>
    intro lx vals ops eu h
    have hadv := next_token_advance lx
    have hnext : (next_token lx).1.type ≠ .T_END ∧ (next_token lx).1.type ≠ .T_INVALID →
        (next_token lx).2.s.length - (next_token lx).2.i < n := by
      intro ht
      obtain ⟨h1, h2, h3⟩ := hadv ht
      rw [h3]; omega
    unfold main_loop
    simp only []
    cases hty : (next_token lx).1.type <;> rw [hty] at hnext <;> simp only []
    · exact ih _ _ _ _ (hnext ⟨by decide, by decide⟩)
    · cases op_loop pow _ _ _ with
      | error e => exact ⟨_, rfl⟩
      | ok p => exact ih _ _ _ _ (hnext ⟨by decide, by decide⟩)
    · exact ih _ _ _ _ (hnext ⟨by decide, by decide⟩)
    · cases rparen_loop pow vals ops with
      | error e => exact ⟨_, rfl⟩
      | ok p =>
        obtain ⟨v1, o1⟩ := p
        cases o1 with
        | nil => exact ⟨_, rfl⟩
        | cons top o2 =>
          simp only []
          split
          · exact ⟨_, rfl⟩
          · exact ih _ _ _ _ (hnext ⟨by decide, by decide⟩)
    · exact ⟨_, rfl⟩
    · cases finalize pow vals ops with
      | error e => exact ⟨_, rfl⟩
      | ok v => exact ⟨_, rfl⟩

theorem evaluate_total (pow : Dbl → Dbl → Dbl) (expr : List Char) :
    ∃ r, evaluate_expression pow expr = some r :=
  main_loop_total pow _ _ _ _ _ (by simp)

/-- On `T_END` and `T_INVALID` the main loop is left: one unit of fuel gives the
result, whatever is left of the input. -/
theorem main_loop_stops (pow : Dbl → Dbl → Dbl) (n : Nat) (lx : Lexer) (vals : List Dbl)
    (ops : List Char) (eu : Bool)
    (ht : (next_token lx).1.type = .T_END ∨ (next_token lx).1.type = .T_INVALID) :
    ∃ r, main_loop pow (n + 1) lx vals ops eu = some r ∧
      main_loop pow 1 lx vals ops eu = some r := by
  unfold main_loop
  simp only []
  rcases ht with h | h <;> rw [h] <;> simp only []
  · exact ⟨_, rfl, rfl⟩
  · cases finalize pow vals ops with
    | error e => exact ⟨_, rfl, rfl⟩
    | ok v => exact ⟨_, rfl, rfl⟩

/-- A character that starts no token: `T_INVALID`, with the cursor left on it. -/
theorem next_token_invalid {lx : Lexer} {ws : List Char} {c : Char} {t : List Char}
    (hcur : lx.cur = ws ++ c :: t) (hws : IsSpaces ws) (hsp : isspace c = false)
    (h0 : c ≠ '\x00') (hl : c ≠ '(') (hr : c ≠ ')') (hd : isdigit c = false) (hdot : c ≠ '.')
    (hop : is_op_char c = false) (hpi : is_pi (c :: t) = false) (he : c ≠ 'e' ∧ c ≠ 'E') :
    next_token lx = (⟨.T_INVALID, .fin 0, '\x00'⟩, lx.adv ws.length) := by
  rw [next_token_skip hcur hws (by simp [hsp])]
  have hc1 : (lx.adv ws.length).cur = c :: t := cur_adv_append hcur
  obtain ⟨h1, h2, -⟩ := head_facts hc1 hsp
  simp only [is_op_char, Bool.or_eq_false_iff, decide_eq_false_iff_not] at hop
  simp [next_token, h1, h2, h0, hl, hr, hd, hdot, hop, hc1, hpi, he]

theorem step_invalid {pow : Dbl → Dbl → Dbl} {n : Nat} {lx lx1 : Lexer} {v : Dbl} {o : Char}
    (vals : List Dbl) (ops : List Char) (eu : Bool)
    (h : next_token lx = (⟨.T_INVALID, v, o⟩, lx1)) :
    main_loop pow (n + 1) lx vals ops eu =
      match finalize pow vals ops with
      | .error e => some (.error e)
      | .ok _ => some (.error (.InvalidToken lx1.i)) := by
  rw [main_loop, h]

/-! ## The operator stack -/

theorem apply_op_known (pow : Dbl → Dbl → Dbl) (vals : List Dbl) {op : Char}
    (hop : is_op_char op = true) (c : Char) :
    apply_op pow vals op ≠ .error (.UnknownOperator c) := by
  have ho5 : op = '+' ∨ op = '-' ∨ op = '*' ∨ op = '/' ∨ op = '^' := by
    simpa [is_op_char, or_assoc] using hop
  unfold apply_op
  cases vals with
  | nil => simp [ds_pop]
  | cons b v1 =>
    cases v1 with
    | nil => simp [ds_pop]
    | cons a v2 =>
      simp only [ds_pop]
      rcases ho5 with rfl | rfl | rfl | rfl | rfl
      · simp only [if_true]; split <;> simp
      · simp only [show ('-' = '+') = False from by decide, if_true, if_false]; split <;> simp
      · simp only [show ('*' = '+') = False from by decide,
          show ('*' = '-') = False from by decide, if_true, if_false]; split <;> simp
      · simp only [show ('/' = '+') = False from by decide,
          show ('/' = '-') = False from by decide, show ('/' = '*') = False from by decide,
          if_true, if_false]
        by_cases hb : b = .fin 0
        · simp [hb]
        · simp only [hb, if_false]; split <;> simp
      · simp only [show ('^' = '+') = False from by decide,
          show ('^' = '-') = False from by decide, show ('^' = '*') = False from by decide,
          show ('^' = '/') = False from by decide, if_true, if_false]; split <;> simp

theorem rparen_loop_known (pow : Dbl → Dbl → Dbl) (c : Char) :
    ∀ (ops : List Char) (vals : List Dbl), (∀ o ∈ ops, o = '(' ∨ is_op_char o = true) →
      rparen_loop pow vals ops ≠ .error (.UnknownOperator c) ∧
      ∀ v1 o1, rparen_loop pow vals ops = .ok (v1, o1) →
        ∀ o ∈ o1, o = '(' ∨ is_op_char o = true := by
  intro ops
  induction ops with
  | nil =>
    intro vals _
    simp only [rparen_loop]
    refine ⟨by simp, ?_⟩
    intro v1 o1 h o ho
    simp only [Except.ok.injEq, Prod.mk.injEq] at h
    rw [← h.2] at ho; simp at ho
  | cons top ops ih =>
    intro vals hok
    have htop := hok top (List.mem_cons_self _ _)
    have hrest : ∀ o ∈ ops, o = '(' ∨ is_op_char o = true :=
      fun o ho => hok o (List.mem_cons_of_mem _ ho)
    simp only [rparen_loop]
    by_cases hp : top = '('
    · simp only [hp, ne_eq, not_true_eq_false, if_false]
      refine ⟨by simp, ?_⟩
      intro v1 o1 h o ho
      simp only [Except.ok.injEq, Prod.mk.injEq] at h
      rw [← h.2, ← hp] at ho
      exact hok o ho
    · simp only [ne_eq, hp, not_false_eq_true, if_true]
      have hk := apply_op_known pow vals (htop.resolve_left hp) c
      cases ha : apply_op pow vals top with
      | error e =>
        rw [ha] at hk
        refine ⟨by simpa using hk, ?_⟩
        intro v1 o1 h
        simp at h
      | ok v =>
        exact ih v hrest

theorem op_loop_known (pow : Dbl → Dbl → Dbl) (op : Char) (c : Char) :
    ∀ (ops : List Char) (vals : List Dbl), (∀ o ∈ ops, o = '(' ∨ is_op_char o = true) →
      op_loop pow op vals ops ≠ .error (.UnknownOperator c) ∧
      ∀ v1 o1, op_loop pow op vals ops = .ok (v1, o1) →
        ∀ o ∈ o1, o = '(' ∨ is_op_char o = true := by
  intro ops
  induction ops with
  | nil =>
    intro vals _
    simp only [op_loop]
    refine ⟨by simp, ?_⟩
    intro v1 o1 h o ho
    simp only [Except.ok.injEq, Prod.mk.injEq] at h
    rw [← h.2] at ho; simp at ho
  | cons top ops ih =>
    intro vals hok
    have htop := hok top (List.mem_cons_self _ _)
    have hrest : ∀ o ∈ ops, o = '(' ∨ is_op_char o = true :=
      fun o ho => hok o (List.mem_cons_of_mem _ ho)
    simp only [op_loop]
    split
    · rename_i hcond
      have hk := apply_op_known pow vals (htop.resolve_left hcond.1) c
      cases ha : apply_op pow vals top with
      | error e =>
        rw [ha] at hk
        refine ⟨by simpa using hk, ?_⟩
        intro v1 o1 h
        simp at h
      | ok v =>
        exact ih v hrest
    · refine ⟨by simp, ?_⟩
      intro v1 o1 h o ho
      simp only [Except.ok.injEq, Prod.mk.injEq] at h
      rw [← h.2] at ho
      exact hok o ho

theorem finalize_known (pow : Dbl → Dbl → Dbl) (c : Char) :
    ∀ (ops : List Char) (vals : List Dbl), (∀ o ∈ ops, o = '(' ∨ is_op_char o = true) →
      finalize pow vals ops ≠ .error (.UnknownOperator c) := by
  intro ops
  induction ops with
  | nil =>
    intro vals _
    simp only [finalize]
    cases vals with
    | nil => simp [ds_pop]
    | cons v vs => simp only [ds_pop]; split <;> simp
  | cons top ops ih =>
    intro vals hok
    have htop := hok top (List.mem_cons_self _ _)
    have hrest : ∀ o ∈ ops, o = '(' ∨ is_op_char o = true :=
      fun o ho => hok o (List.mem_cons_of_mem _ ho)
    simp only [finalize]
    split
    · simp
    · rename_i hcond
      have hp : top ≠ '(' := fun h => hcond (Or.inl h)
      have hk := apply_op_known pow vals (htop.resolve_left hp) c
      cases ha : apply_op pow vals top with
      | error e => rw [ha] at hk; simpa using hk
      | ok v => exact ih v hrest

/-- The operator of a `T_OP` token is one of `+ - * / ^`. -/
theorem next_token_op_char (lx : Lexer) (h : (next_token lx).1.type = .T_OP) :
    is_op_char (next_token lx).1.op = true := by
  obtain ⟨ws, seg, rest, -, -, -, htok⟩ := next_token_cases lx
  unfold TokSeg at htok
  rw [h] at htok
  exact htok.2

/-- The main loop from an operator stack of `(` and operators never reports an
unknown operator. -/
theorem main_loop_known (pow : Dbl → Dbl → Dbl) (c : Char) :
    ∀ (n : Nat) (lx : Lexer) (vals : List Dbl) (ops : List Char) (eu : Bool),
      (∀ o ∈ ops, o = '(' ∨ is_op_char o = true) →
      main_loop pow n lx vals ops eu ≠ some (.error (.UnknownOperator c)) := by
  intro n
  induction n with
  | zero => intro lx vals ops eu _; simp [main_loop]
  | succ n ih =>
    intro lx vals ops eu hok
    have hopc := next_token_op_char lx
    unfold main_loop
    simp only []
    cases hty : (next_token lx).1.type <;> rw [hty] at hopc <;> simp only []
    · exact ih _ _ _ _ hok
    · have hoc := hopc rfl
      have hl := op_loop_known pow (next_token lx).1.op c ops
        (if (eu && (decide ((next_token lx).1.op = '+') || decide ((next_token lx).1.op = '-')))
          = true then Dbl.fin 0 :: vals else vals) hok
      cases hr : op_loop pow (next_token lx).1.op
        (if (eu && (decide ((next_token lx).1.op = '+') || decide ((next_token lx).1.op = '-')))
          = true then Dbl.fin 0 :: vals else vals) ops with
      | error e =>
        rw [hr] at hl
        simpa using hl.1
      | ok p =>
        obtain ⟨v1, o1⟩ := p
        simp only []
        refine ih _ _ _ _ ?_
        intro o ho
        rcases List.mem_cons.1 ho with rfl | ho
        · exact Or.inr hoc
        · exact hl.2 v1 o1 hr o ho
    · refine ih _ _ _ _ ?_
      intro o ho
      rcases List.mem_cons.1 ho with rfl | ho
      · exact Or.inl rfl
      · exact hok o ho
    · have hl := rparen_loop_known pow c ops vals hok
      cases hr : rparen_loop pow vals ops with
      | error e =>
        rw [hr] at hl
        simpa using hl.1
      | ok p =>
        obtain ⟨v1, o1⟩ := p
        cases o1 with
        | nil => simp
        | cons top o2 =>
          simp only []
          split
          · simp
          · refine ih _ _ _ _ ?_
            intro o ho
            exact hl.2 v1 _ hr o (List.mem_cons_of_mem _ ho)
    · simp only [ne_eq, Option.some.injEq]
      exact finalize_known pow c ops vals hok
    · have hf := finalize_known pow c ops vals hok
      cases hfin : finalize pow vals ops with
      | error e => rw [hfin] at hf; simpa using hf
      | ok v => simp

/-! ## Parentheses -/

theorem matched_nil : Matched 0 [] := by
  refine ⟨fun k => ?_, rfl⟩
  simp

theorem matched_cons_other {d : Nat} {c : Char} {r : List Char} (h1 : c ≠ '(') (h2 : c ≠ ')')
    (h : Matched d r) : Matched d (c :: r) := by
  refine ⟨fun k => ?_, ?_⟩
  · cases k with
    | zero => simp
    | succ k =>
      rw [List.take_succ_cons, List.count_cons_of_ne h2.symm, List.count_cons_of_ne h1.symm]
      exact h.1 k
  · rw [List.count_cons_of_ne h2.symm, List.count_cons_of_ne h1.symm]
    exact h.2

theorem matched_skip {d : Nat} {p r : List Char} (hp : ∀ c ∈ p, c ≠ '(' ∧ c ≠ ')')
    (h : Matched d r) : Matched d (p ++ r) := by
  induction p with
  | nil => exact h
  | cons c p ih =>
    rw [List.cons_append]
    exact matched_cons_other (hp c (List.mem_cons_self _ _)).1 (hp c (List.mem_cons_self _ _)).2
      (ih fun x hx => hp x (List.mem_cons_of_mem _ hx))

theorem matched_lparen {d : Nat} {r : List Char} (h : Matched (d + 1) r) :
    Matched d ('(' :: r) := by
  have h1 : ('(' : Char) ≠ ')' := by decide
  refine ⟨fun k => ?_, ?_⟩
  · cases k with
    | zero => simp
    | succ k =>
      rw [List.take_succ_cons, List.count_cons_of_ne h1.symm, List.count_cons_self]
      have := h.1 k
      omega
  · rw [List.count_cons_of_ne h1.symm, List.count_cons_self]
    have := h.2
    omega

theorem matched_rparen {d : Nat} {r : List Char} (h : Matched d r) :
    Matched (d + 1) (')' :: r) := by
  have h1 : (')' : Char) ≠ '(' := by decide
  refine ⟨fun k => ?_, ?_⟩
  · cases k with
    | zero => simp
    | succ k =>
      rw [List.take_succ_cons, List.count_cons_of_ne h1.symm, List.count_cons_self]
      have := h.1 k
      omega
  · rw [List.count_cons_of_ne h1.symm, List.count_cons_self]
    have := h.2
    omega

theorem rparen_loop_count (pow : Dbl → Dbl → Dbl) :
    ∀ (ops : List Char) (vals v1 : List Dbl) (o1 : List Char),
      rparen_loop pow vals ops = .ok (v1, o1) → o1.count '(' = ops.count '(' := by
  intro ops
  induction ops with
  | nil =>
    intro vals v1 o1 h
    simp only [rparen_loop, Except.ok.injEq, Prod.mk.injEq] at h
    rw [← h.2]
  | cons top ops ih =>
    intro vals v1 o1 h
    simp only [rparen_loop] at h
    by_cases hp : top = '('
    · simp only [hp, ne_eq, not_true_eq_false, if_false, Except.ok.injEq, Prod.mk.injEq] at h
      rw [← h.2, hp]
    · simp only [ne_eq, hp, not_false_eq_true, if_true] at h
      rw [List.count_cons_of_ne (Ne.symm hp)]
      cases ha : apply_op pow vals top with
      | error e => rw [ha] at h; simp at h
      | ok v => rw [ha] at h; exact ih v v1 o1 h

theorem op_loop_count (pow : Dbl → Dbl → Dbl) (op : Char) :
    ∀ (ops : List Char) (vals v1 : List Dbl) (o1 : List Char),
      op_loop pow op vals ops = .ok (v1, o1) → o1.count '(' = ops.count '(' := by
  intro ops
  induction ops with
  | nil =>
    intro vals v1 o1 h
    simp only [op_loop, Except.ok.injEq, Prod.mk.injEq] at h
    rw [← h.2]
  | cons top ops ih =>
    intro vals v1 o1 h
    simp only [op_loop] at h
    split at h
    · rename_i hcond
      rw [List.count_cons_of_ne (Ne.symm hcond.1)]
      cases ha : apply_op pow vals top with
      | error e => rw [ha] at h; simp at h
      | ok v => rw [ha] at h; exact ih v v1 o1 h
    · simp only [Except.ok.injEq, Prod.mk.injEq] at h
      rw [← h.2]

theorem finalize_ok_count (pow : Dbl → Dbl → Dbl) :
    ∀ (ops : List Char) (vals : List Dbl) (v : Dbl),
      finalize pow vals ops = .ok v → ops.count '(' = 0 := by
  intro ops
  induction ops with
  | nil => intro vals v _; rfl
  | cons top ops ih =>
    intro vals v h
    simp only [finalize] at h
    split at h
    · simp at h
    · rename_i hcond
      have hp : top ≠ '(' := fun h => hcond (Or.inl h)
      rw [List.count_cons_of_ne (Ne.symm hp)]
      cases ha : apply_op pow vals top with
      | error e => rw [ha] at h; simp at h
      | ok v1 => rw [ha] at h; exact ih v1 v h

theorem space_no_paren {c : Char} (h : isspace c = true) : c ≠ '(' ∧ c ≠ ')' := by
  constructor <;> rintro rfl <;> revert h <;> decide

theorem number_char_no_paren {c : Char} (h : is_number_char c = true) : c ≠ '(' ∧ c ≠ ')' := by
  constructor <;> rintro rfl <;> revert h <;> decide

theorem op_char_no_paren {c : Char} (h : is_op_char c = true) : c ≠ '(' ∧ c ≠ ')' := by
  constructor <;> rintro rfl <;> revert h <;> decide

/-- A successful evaluation has read matched parentheses: what is left of the
input closes exactly the `(` that the operator stack holds. -/
theorem main_loop_ok_matched (pow : Dbl → Dbl → Dbl) :
    ∀ (n : Nat) (lx : Lexer) (vals : List Dbl) (ops : List Char) (eu : Bool) (v : Dbl),
      (∀ c ∈ lx.cur, c ≠ '\x00') → main_loop pow n lx vals ops eu = some (.ok v) →
      Matched (ops.count '(') lx.cur := by
  intro n
  induction n with
  | zero => intro lx vals ops eu v _ h; simp [main_loop] at h
  | succ n ih =>
    intro lx vals ops eu v hz h
    obtain ⟨ws, seg, rest, hws, hcur, hadv, htok⟩ := next_token_cases lx
    have hc1 : (next_token lx).2.cur = rest := by
      rw [hadv, cur_adv, hcur, ← List.append_assoc, ← List.length_append]
      simp
    have hz1 : ∀ c ∈ (next_token lx).2.cur, c ≠ '\x00' := by
      intro c hc
      rw [hc1] at hc
      exact hz c (by rw [hcur]; simp [hc])
    rw [hcur]
    refine matched_skip (fun c hc => space_no_paren (hws c hc)) ?_
    unfold main_loop at h
    simp only [] at h
    unfold TokSeg at htok
    cases hty : (next_token lx).1.type <;> rw [hty] at h htok <;> simp only [] at h htok
    · -- number
      have := ih _ _ _ _ _ hz1 h
      rw [hc1] at this
      exact matched_skip (fun c hc => number_char_no_paren (htok.2 c hc)) this
    · -- operator
      cases hr : op_loop pow (next_token lx).1.op
        (if (eu && (decide ((next_token lx).1.op = '+') || decide ((next_token lx).1.op = '-')))
          = true then Dbl.fin 0 :: vals else vals) ops with
      | error e => rw [hr] at h; simp at h
      | ok p =>
        obtain ⟨v1, o1⟩ := p
        rw [hr] at h
        simp only [] at h
        have := ih _ _ _ _ _ hz1 h
        rw [hc1, List.count_cons_of_ne (Ne.symm (op_char_no_paren htok.2).1),
          op_loop_count pow _ _ _ _ _ hr] at this
        rw [htok.1]
        exact matched_cons_other (op_char_no_paren htok.2).1 (op_char_no_paren htok.2).2 this
    · -- left parenthesis
      have := ih _ _ _ _ _ hz1 h
      rw [hc1, List.count_cons_self] at this
      rw [htok]
      exact matched_lparen this
    · -- right parenthesis
      cases hr : rparen_loop pow vals ops with
      | error e => rw [hr] at h; simp at h
      | ok p =>
        obtain ⟨v1, o1⟩ := p
        rw [hr] at h
        cases o1 with
        | nil => simp at h
        | cons top o2 =>
          simp only [] at h
          by_cases hp : top = '('
          · simp only [hp, ne_eq, not_true_eq_false, if_false] at h
            have := ih _ _ _ _ _ hz1 h
            have hcnt := rparen_loop_count pow _ _ _ _ hr
            rw [hp, List.count_cons_self] at hcnt
            rw [hc1] at this
            rw [htok, ← hcnt]
            exact matched_rparen this
          · simp [hp] at h
    · -- end of input
      have hrest : rest = [] := by
        rcases htok.2 with h0 | h0
        · exact h0
        · cases rest with
          | nil => rfl
          | cons c t =>
            simp only [List.head?_cons, Option.some.injEq] at h0
            exact absurd h0 (hz c (by rw [hcur]; simp))
      simp only [Option.some.injEq] at h
      rw [htok.1, hrest, finalize_ok_count pow _ _ _ h]
      exact matched_nil
    · -- invalid token
      cases hf : finalize pow vals ops with
      | error e => rw [hf] at h; simp at h
      | ok v1 => rw [hf] at h; simp at h

theorem evaluate_ok_matched (pow : Dbl → Dbl → Dbl) (expr : List Char)
    (hz : ∀ c ∈ expr, c ≠ '\x00') (v : Dbl)
    (h : evaluate_expression pow expr = some (.ok v)) : Matched 0 expr :=
  main_loop_ok_matched pow _ _ _ _ _ v (by simpa [Lexer.cur] using hz) h

/-- The main loop is the iteration of `loop_body`: a pass that continues hands
its state to the next pass, and a pass that leaves the loop gives the result
with one unit of fuel. -/
theorem main_loop_body (pow : Dbl → Dbl → Dbl) (n : Nat) (st : EvalState) :
    main_loop pow (n + 1) st.lx st.vals st.ops st.expect_unary =
      match loop_body pow st with
      | some st1 => main_loop pow n st1.lx st1.vals st1.ops st1.expect_unary
      | none => main_loop pow 1 st.lx st.vals st.ops st.expect_unary := by
  unfold loop_body
  rw [main_loop, main_loop]
  simp only []
  cases (next_token st.lx).1.type <;> simp only []
  · cases op_loop pow _ _ _ with
    | error e => rfl
    | ok p => rfl
  · cases rparen_loop pow st.vals st.ops with
    | error e => rfl
    | ok p =>
      obtain ⟨v1, o1⟩ := p
      cases o1 with
      | nil => rfl
      | cons top o2 =>
        simp only []
        split <;> rfl

/-- Through the passes of the main loop, the `(` on the operator stack are the
`(` tokens read less the `)` tokens read. -/
theorem state_after_count (pow : Dbl → Dbl → Dbl) :
    ∀ (k : Nat) (st st1 : EvalState), state_after pow st k = some st1 →
      st1.ops.count '(' + (tokens_read st.lx k).count .T_RPAREN
        = st.ops.count '(' + (tokens_read st.lx k).count .T_LPAREN := by
  intro k
  induction k with
  | zero =>
    intro st st1 h
    simp only [state_after, Option.some.injEq] at h
    subst h
    rfl
  | succ k ih =>
    intro st st1 h
    simp only [state_after] at h
    cases hb : loop_body pow st with
    | none => rw [hb] at h; simp at h
    | some st2 =>
      rw [hb] at h
      simp only [Option.some_bind] at h
      have h2 := ih st2 st1 h
      simp only [tokens_read]
      unfold loop_body at hb
      simp only [] at hb
      cases hty : (next_token st.lx).1.type <;> rw [hty] at hb <;> simp only [] at hb
      · simp only [Option.some.injEq] at hb
        subst hb
        simp only [] at h2
        rw [List.count_cons_of_ne (by decide), List.count_cons_of_ne (by decide)]
        exact h2
      · cases hr : op_loop pow (next_token st.lx).1.op
          (if (st.expect_unary && (decide ((next_token st.lx).1.op = '+')
            || decide ((next_token st.lx).1.op = '-')))
            = true then Dbl.fin 0 :: st.vals else st.vals) st.ops with
        | error e => rw [hr] at hb; simp at hb
        | ok p =>
          obtain ⟨v1, o1⟩ := p
          rw [hr] at hb
          simp only [Option.some.injEq] at hb
          subst hb
          simp only [] at h2
          have hoc := op_char_no_paren (next_token_op_char st.lx hty)
          rw [List.count_cons_of_ne (Ne.symm hoc.1), op_loop_count pow _ _ _ _ _ hr] at h2
          rw [List.count_cons_of_ne (by decide), List.count_cons_of_ne (by decide)]
          exact h2
      · simp only [Option.some.injEq] at hb
        subst hb
        simp only [List.count_cons_self] at h2
        rw [List.count_cons_of_ne (by decide), List.count_cons_self]
        omega
      · cases hr : rparen_loop pow st.vals st.ops with
        | error e => rw [hr] at hb; simp at hb
        | ok p =>
          obtain ⟨v1, o1⟩ := p
          rw [hr] at hb
          cases o1 with
          | nil => simp at hb
          | cons top o2 =>
            simp only [] at hb
            by_cases hp : top = '('
            · simp only [hp, ne_eq, not_true_eq_false, if_false, Option.some.injEq] at hb
              subst hb
              simp only [] at h2
              have hcnt := rparen_loop_count pow _ _ _ _ hr
              rw [hp, List.count_cons_self] at hcnt
              rw [List.count_cons_self, List.count_cons_of_ne (by decide)]
              omega
            · simp [hp] at hb
      · simp at hb
      · simp at hb

/-! ## The normalizer on any bytes -/

theorem superscript_ge {cp : Nat} (h : is_superscript cp = true) : 0x80 ≤ cp := by
  simp only [is_superscript, Bool.or_eq_true, Bool.and_eq_true, decide_eq_true_eq] at h
  omega

theorem decode_adv (c : Nat) (rest : List Nat) :
    1 ≤ (decode c rest).2 ∧ (decode c rest).2 ≤ 1 + rest.length := by
  unfold decode
  split_ifs <;> simp only [] <;> omega

theorem decode_super {c : Nat} {rest : List Nat} (h : is_superscript (decode c rest).1 = true) :
    2 ≤ (decode c rest).2 := by
  have h80 := superscript_ge h
  revert h80
  unfold decode
  split_ifs <;> simp only [] <;> omega

theorem normalize_loop_drop (k : Nat) (b : Bool) (l : List Nat) :
    normalize_loop k b l = normalize_loop 0 b (l.drop k) := by
  induction k generalizing l with
  | zero => rfl
  | succ k ih =>
    cases l with
    | nil => simp [normalize_loop]
    | cons x l => rw [normalize_loop, List.drop_succ_cons]; exact ih l

theorem emit_length (b : Bool) (c : Nat) (rest : List Nat) :
    (emit b (decode c rest).1 ((c :: rest).take (decode c rest).2)).1.length
      ≤ (decode c rest).2 := by
  unfold emit
  split
  · rename_i hs
    have := decode_super hs
    split <;> simp <;> omega
  · simp

theorem normalize_loop_length (l : List Nat) :
    ∀ (k : Nat) (b : Bool), (normalize_loop k b l).length ≤ l.length - k := by
  induction l with
  | nil => intro k b; cases k <;> simp [normalize_loop]
  | cons c rest ih =>
    intro k b
    cases k with
    | succ k =>
      rw [normalize_loop]
      have := ih k b
      simp only [List.length_cons]
      omega
    | zero =>
      rw [normalize_loop]
      simp only [List.length_append, List.length_cons]
      have h1 := emit_length b c rest
      have h2 := ih ((decode c rest).2 - 1)
        (emit b (decode c rest).1 ((c :: rest).take (decode c rest).2)).2
      have h3 := decode_adv c rest
      omega

theorem getD_take_append (rest Y : List Nat) (k i : Nat) (hk : k ≤ rest.length) (hi : i < k) :
    (rest.take k ++ Y).getD i 0 = rest.getD i 0 := by
  have h1 : i < (rest.take k).length := by rw [List.length_take]; omega
  have h2 : i < (rest.take k ++ Y).length := by rw [List.length_append]; omega
  have h3 : i < rest.length := by omega
  rw [List.getD_eq_getElem _ _ h2, List.getD_eq_getElem _ _ h3, List.getElem_append_left h1,
    List.getElem_take]

/-- The bytes of one decoding step, followed by no more bytes than followed them
before, decode as before. -/
theorem decode_stable (c : Nat) (rest Y : List Nat)
    (hY : Y.length ≤ rest.length - ((decode c rest).2 - 1)) :
    decode c (rest.take ((decode c rest).2 - 1) ++ Y) = decode c rest := by
  have hlen : ∀ k, k ≤ rest.length → (rest.take k ++ Y).length = k + Y.length := by
    intro k hk
    rw [List.length_append, List.length_take, Nat.min_eq_left hk]
  revert hY
  unfold decode
  by_cases h1 : c < 0x80
  · simp only [h1, if_true]
    intro _; trivial
  simp only [h1, if_false]
  by_cases h2 : c >>> 5 = 0x6
  · simp only [h2, if_true]
    by_cases hl : 1 ≤ rest.length
    · simp only [hl, if_true, Nat.add_sub_cancel]
      intro hY
      rw [if_pos (by rw [hlen 1 hl]; omega), getD_take_append rest Y 1 0 hl (by omega)]
    · simp only [hl, if_false, Nat.sub_self, List.take_zero, List.nil_append]
      intro hY
      rw [if_neg (by omega)]
  simp only [h2, if_false]
  by_cases h3 : c >>> 4 = 0xE
  · simp only [h3, if_true]
    by_cases hl : 2 ≤ rest.length
    · simp only [hl, if_true, Nat.add_sub_cancel]
      intro hY
      rw [if_pos (by rw [hlen 2 hl]; omega), getD_take_append rest Y 2 0 hl (by omega),
        getD_take_append rest Y 2 1 hl (by omega)]
    · simp only [hl, if_false, Nat.sub_self, List.take_zero, List.nil_append]
      intro hY
      rw [if_neg (by omega)]
  simp only [h3, if_false]
  by_cases h4 : c >>> 3 = 0x1E
  · simp only [h4, if_true]
    by_cases hl : 3 ≤ rest.length
    · simp only [hl, if_true, Nat.add_sub_cancel]
      intro hY
      rw [if_pos (by rw [hlen 3 hl]; omega), getD_take_append rest Y 3 0 hl (by omega),
        getD_take_append rest Y 3 1 hl (by omega), getD_take_append rest Y 3 2 hl (by omega)]
    · simp only [hl, if_false, Nat.sub_self, List.take_zero, List.nil_append]
      intro hY
      rw [if_neg (by omega)]
  simp only [h4, if_false]
  intro _; trivial

/-- A byte below `0x80` is copied, and ends a run. -/
theorem normalize_loop_ascii (b : Bool) (x : Nat) (Y : List Nat) (hx : x < 0x80) :
    normalize_loop 0 b (x :: Y) = x :: normalize_loop 0 false Y := by
  have hd : decode x Y = (x, 1) := by simp [decode, hx]
  have hs : is_superscript x = false := by
    cases h : is_superscript x with
    | false => rfl
    | true => have := superscript_ge h; omega
  rw [normalize_loop]
  simp [hd, emit, hs]

theorem superscript_ascii_mem (cp : Nat) :
    superscript_to_ascii cp ∈ ['?', '-', '9', '8', '7', '6', '5', '4', '3', '2', '1', '0'] := by
  unfold superscript_to_ascii
  repeat' split
  all_goals simp only [List.mem_cons, List.mem_singleton, true_or, or_true]

theorem superscript_ascii_lt (cp : Nat) : (superscript_to_ascii cp).toNat < 0x80 := by
  have h : ∀ c ∈ ['?', '-', '9', '8', '7', '6', '5', '4', '3', '2', '1', '0'],
      c.toNat < 0x80 := by decide
  exact h _ (superscript_ascii_mem cp)

theorem superscript_ascii_ne_zero (cp : Nat) : (superscript_to_ascii cp).toNat ≠ 0 := by
  have h : ∀ c ∈ ['?', '-', '9', '8', '7', '6', '5', '4', '3', '2', '1', '0'],
      c.toNat ≠ 0 := by decide
  exact h _ (superscript_ascii_mem cp)

/-- A second pass of the loop over the output of a first pass changes nothing,
in whatever state either pass starts. -/
theorem normalize_loop_idem :
    ∀ (n : Nat) (l : List Nat), l.length ≤ n → ∀ b b1 : Bool,
      normalize_loop 0 b1 (normalize_loop 0 b l) = normalize_loop 0 b l := by
  intro n
  induction n with
  | zero =>
    intro l hl b b1
    have : l = [] := List.length_eq_zero.1 (Nat.le_zero.1 hl)
    subst this
    simp [normalize_loop]
  | succ n ih =>
    intro l hl b b1
    cases l with
    | nil => simp [normalize_loop]
    | cons c rest =>
      have hadv := decode_adv c rest
      have hrest : (rest.drop ((decode c rest).2 - 1)).length ≤ n := by
        rw [List.length_drop]
        simp only [List.length_cons] at hl
        omega
      rw [normalize_loop]
      rw [normalize_loop_drop ((decode c rest).2 - 1)]
      by_cases hs : is_superscript (decode c rest).1 = true
      · have hY := ih _ hrest true false
        have hc : ('^'.toNat) < 0x80 := by decide
        cases b with
        | false =>
          simp only [emit, hs, if_true, Bool.false_eq_true, if_false, List.nil_append,
            List.cons_append, List.singleton_append]
          rw [normalize_loop_ascii _ _ _ hc,
            normalize_loop_ascii _ _ _ (superscript_ascii_lt _), hY]
        | true =>
          simp only [emit, hs, if_true, List.nil_append, List.singleton_append]
          rw [normalize_loop_ascii _ _ _ (superscript_ascii_lt _), hY]
      · have hY := ih _ hrest false false
        have hk : (decode c rest).2 - 1 ≤ rest.length := by omega
        have htake : (c :: rest).take (decode c rest).2
            = c :: rest.take ((decode c rest).2 - 1) := by
          obtain ⟨m, hm⟩ : ∃ m, (decode c rest).2 = m + 1 := ⟨(decode c rest).2 - 1, by omega⟩
          rw [hm, List.take_succ_cons, Nat.add_sub_cancel]
        have hYlen := normalize_loop_length (rest.drop ((decode c rest).2 - 1)) 0 false
        rw [List.length_drop, Nat.sub_zero] at hYlen
        have hst := decode_stable c rest _ hYlen
        simp only [emit, hs, if_false, Bool.false_eq_true, htake, List.cons_append]
        rw [normalize_loop]
        simp only [hst, emit, hs, if_false, Bool.false_eq_true]
        have htake2 : (c :: (rest.take ((decode c rest).2 - 1)
              ++ normalize_loop 0 false (rest.drop ((decode c rest).2 - 1)))).take
              (decode c rest).2 = c :: rest.take ((decode c rest).2 - 1) := by
          obtain ⟨m, hm⟩ : ∃ m, (decode c rest).2 = m + 1 := ⟨(decode c rest).2 - 1, by omega⟩
          rw [hm, List.take_succ_cons, Nat.add_sub_cancel]
          rw [hm, Nat.add_sub_cancel] at hk
          rw [List.take_append_of_le_length (by rw [List.length_take]; omega),
            List.take_take, Nat.min_self]
        rw [htake2, List.cons_append]
        have hsk := normalize_loop_skip false (rest.take ((decode c rest).2 - 1))
          (normalize_loop 0 false (rest.drop ((decode c rest).2 - 1)))
        rw [List.length_take, Nat.min_eq_left hk] at hsk
        rw [hsk, hY]

theorem normalize_loop_ne_zero (l : List Nat) (hl : ∀ x ∈ l, x ≠ 0) :
    ∀ (k : Nat) (b : Bool), ∀ x ∈ normalize_loop k b l, x ≠ 0 := by
  induction l with
  | nil => intro k b x hx; cases k <;> simp [normalize_loop] at hx
  | cons c rest ih =>
    have ihr := ih fun x hx => hl x (List.mem_cons_of_mem _ hx)
    intro k b x hx
    cases k with
    | succ k => rw [normalize_loop] at hx; exact ihr k b x hx
    | zero =>
      rw [normalize_loop] at hx
      simp only [List.mem_append] at hx
      rcases hx with hx | hx
      · unfold emit at hx
        split at hx
        · simp only [List.mem_append, List.mem_singleton] at hx
          rcases hx with hx | hx
          · split at hx
            · simp at hx
            · simp only [List.mem_singleton] at hx; rw [hx]; decide
          · rw [hx]; exact superscript_ascii_ne_zero _
        · exact hl x (List.mem_of_mem_take hx)
      · exact ihr _ _ x hx

theorem spec_normalize_id (s : List Char) (h : ∀ c ∈ s, spec_is_superscript c = false) :
    spec_normalize s = s := by
  induction s with
  | nil => simp [spec_normalize]
  | cons c rest ih =>
    have hc := h c (List.mem_cons_self _ _)
    rw [spec_normalize, if_neg (by simp [hc]), ih fun x hx => h x (List.mem_cons_of_mem _ hx)]

/-- A result of the main loop at any fuel is the result of
`evaluate_expression`, whose own fuel always suffices. -/
theorem evaluate_of_run {pow : Dbl → Dbl → Dbl} {expr : List Char} {n : Nat}
    {r : Except EvalError Dbl}
    (h : main_loop pow n { s := expr, i := 0 } [] [] true = some r) :
    evaluate_expression pow expr = some r := by
  obtain ⟨r1, h1⟩ := evaluate_total pow expr
  have e1 := main_loop_mono pow n _ _ _ _ r h (max n (expr.length + 1)) (Nat.le_max_left _ _)
  have e2 := main_loop_mono pow (expr.length + 1) _ _ _ _ r1 h1 (max n (expr.length + 1))
    (Nat.le_max_right _ _)
  rw [e1] at e2
  rw [h1, ← Option.some.inj e2]

/-! ## The evaluator on the reference grammar -/

theorem op_char_cases {o : Char} (h : is_op_char o = true) :
    o = '+' ∨ o = '-' ∨ o = '*' ∨ o = '/' ∨ o = '^' := by
  simpa [is_op_char, or_assoc] using h

theorem precedence_le (c : Char) : precedence c ≤ 4 := by
  unfold precedence
  split_ifs <;> omega

theorem precedence_op {o : Char} (h : is_op_char o = true) :
    2 ≤ precedence o ∧ (precedence o = 4 ↔ o = '^') := by
  rcases op_char_cases h with rfl | rfl | rfl | rfl | rfl <;> decide

theorem collapse_append (pow : Dbl → Dbl → Dbl) (p1 p2 : List Char) :
    ∀ (vals vals1 : List Dbl), collapse pow vals p1 = .ok vals1 →
      collapse pow vals (p1 ++ p2) = collapse pow vals1 p2 := by
  induction p1 with
  | nil =>
    intro vals vals1 h
    simp only [collapse, Except.ok.injEq] at h
    rw [h, List.nil_append]
  | cons t p1 ih =>
    intro vals vals1 h
    rw [List.cons_append, collapse]
    rw [collapse] at h
    cases ha : apply_op pow vals t with
    | error e => rw [ha] at h; simp at h
    | ok v => rw [ha] at h; exact ih v vals1 h

theorem apply_op_of_bin_value (pow : Dbl → Dbl → Dbl) {o : Char} (ho : is_op_char o = true)
    {a b v : Dbl} (h : bin_value pow o a b = some v) (vals : List Dbl) :
    apply_op pow (b :: a :: vals) o = .ok (v :: vals) := by
  unfold bin_value at h
  rcases op_char_cases ho with rfl | rfl | rfl | rfl | rfl
  · simp only [show ¬ ('+' = '/') from by decide, false_and, if_false, if_true] at h
    split at h
    · simp at h
    · rename_i hf
      simp only [Option.some.injEq] at h
      subst h
      simp [apply_op, ds_pop, hf]
  · simp only [show ¬ ('-' = '/') from by decide, show ¬ ('-' = '+') from by decide,
      false_and, if_false, if_true] at h
    split at h
    · simp at h
    · rename_i hf
      simp only [Option.some.injEq] at h
      subst h
      simp [apply_op, ds_pop, hf]
  · simp only [show ¬ ('*' = '/') from by decide, show ¬ ('*' = '+') from by decide,
      show ¬ ('*' = '-') from by decide, false_and, if_false, if_true] at h
    split at h
    · simp at h
    · rename_i hf
      simp only [Option.some.injEq] at h
      subst h
      simp [apply_op, ds_pop, hf]
  · simp only [show ¬ ('/' = '+') from by decide, show ¬ ('/' = '-') from by decide,
      show ¬ ('/' = '*') from by decide, true_and, if_false, if_true] at h
    by_cases hb : b = .fin 0
    · simp [hb] at h
    · simp only [hb, if_false] at h
      split at h
      · simp at h
      · rename_i hf
        simp only [Option.some.injEq] at h
        subst h
        simp [apply_op, ds_pop, hf, hb]
  · simp only [show ¬ ('^' = '/') from by decide, show ¬ ('^' = '+') from by decide,
      show ¬ ('^' = '-') from by decide, show ¬ ('^' = '*') from by decide,
      false_and, if_false] at h
    split at h
    · simp at h
    · rename_i hf
      simp only [Option.some.injEq] at h
      subst h
      simp [apply_op, ds_pop, hf]

/-- The loop of the `T_OP` branch for a left-associative operator applies the
pending operators that bind at least as tightly, and stops below them. -/
theorem op_loop_collapse (pow : Dbl → Dbl → Dbl) {o : Char} (ho : right_associative o = false)
    (po ops : List Char)
    (hstop : ∀ t, ops.head? = some t → t = '(' ∨ precedence t < precedence o) :
    ∀ (vals0 vals1 : List Dbl),
      (∀ t ∈ po, is_op_char t = true ∧ precedence o ≤ precedence t) →
      collapse pow vals0 po = .ok vals1 →
      op_loop pow o vals0 (po ++ ops) = .ok (vals1, ops) := by
  induction po with
  | nil =>
    intro vals0 vals1 _ hc
    simp only [collapse, Except.ok.injEq] at hc
    subst hc
    rw [List.nil_append]
    cases ops with
    | nil => rfl
    | cons t ops1 =>
      rw [op_loop, if_neg]
      rintro ⟨h1, h2⟩
      rcases hstop t rfl with h | h
      · exact h1 h
      · rcases h2 with h2 | h2 <;> omega
  | cons t po ih =>
    intro vals0 vals1 hpo hc
    have ht := hpo t (List.mem_cons_self _ _)
    rw [collapse] at hc
    rw [List.cons_append, op_loop, if_pos]
    · cases ha : apply_op pow vals0 t with
      | error e => rw [ha] at hc; simp at hc
      | ok v =>
        rw [ha] at hc
        exact ih v vals1 (fun x hx => hpo x (List.mem_cons_of_mem _ hx)) hc
    · refine ⟨(op_char_no_paren ht.1).1, ?_⟩
      rcases Nat.lt_or_ge (precedence o) (precedence t) with h | h
      · exact Or.inl h
      · exact Or.inr ⟨by omega, by simp [ho]⟩

/-- The loop of the `T_OP` branch for `^` applies nothing. -/
theorem op_loop_caret (pow : Dbl → Dbl → Dbl) (vals : List Dbl) (ops : List Char) :
    op_loop pow '^' vals ops = .ok (vals, ops) := by
  cases ops with
  | nil => rfl
  | cons t ops1 =>
    rw [op_loop, if_neg]
    rintro ⟨-, h2⟩
    have := precedence_le t
    have h4 : precedence '^' = 4 := by decide
    rcases h2 with h2 | h2
    · omega
    · exact h2.2 (by decide)

theorem rparen_loop_collapse (pow : Dbl → Dbl → Dbl) (po ops : List Char) :
    ∀ (vals0 vals1 : List Dbl), (∀ t ∈ po, is_op_char t = true) →
      collapse pow vals0 po = .ok vals1 →
      rparen_loop pow vals0 (po ++ '(' :: ops) = .ok (vals1, '(' :: ops) := by
  induction po with
  | nil =>
    intro vals0 vals1 _ hc
    simp only [collapse, Except.ok.injEq] at hc
    subst hc
    simp [rparen_loop]
  | cons t po ih =>
    intro vals0 vals1 hpo hc
    have ht := hpo t (List.mem_cons_self _ _)
    rw [collapse] at hc
    rw [List.cons_append, rparen_loop, if_pos (op_char_no_paren ht).1]
    cases ha : apply_op pow vals0 t with
    | error e => rw [ha] at hc; simp at hc
    | ok v =>
      rw [ha] at hc
      exact ih v vals1 (fun x hx => hpo x (List.mem_cons_of_mem _ hx)) hc

theorem finalize_collapse (pow : Dbl → Dbl → Dbl) (po : List Char) :
    ∀ (vals0 : List Dbl) (v : Dbl), (∀ t ∈ po, is_op_char t = true) →
      collapse pow vals0 po = .ok [v] → finalize pow vals0 po = .ok v := by
  induction po with
  | nil =>
    intro vals0 v _ hc
    simp only [collapse, Except.ok.injEq] at hc
    subst hc
    simp [finalize, ds_pop]
  | cons t po ih =>
    intro vals0 v hpo hc
    have ht := hpo t (List.mem_cons_self _ _)
    rw [collapse] at hc
    rw [finalize, if_neg (by
      rintro (h | h)
      · exact (op_char_no_paren ht).1 h
      · exact (op_char_no_paren ht).2 h)]
    cases ha : apply_op pow vals0 t with
    | error e => rw [ha] at hc; simp at hc
    | ok v1 =>
      rw [ha] at hc
      exact ih v1 v (fun x hx => hpo x (List.mem_cons_of_mem _ hx)) hc

/-- One number token of the grammar is read and its value pushed. -/
theorem run_token (pow : Dbl → Dbl → Dbl) {lx : Lexer} {tok r : List Char} {v : Dbl}
    (hcur : lx.cur = tok ++ r) (ht : IsNumberToken tok v) (hr : Stops r) :
    ∃ lx1 : Lexer, lx1.cur = r ∧ ∀ n vals ops eu,
      main_loop pow (n + 1) lx vals ops eu = main_loop pow n lx1 (v :: vals) ops false := by
  cases ht with
  | lit a ha => exact run_lit pow hcur ha hr
  | pi p i hp hi =>
    refine ⟨lx.adv 2, by rw [cur_adv, hcur]; rfl, fun n vals ops eu => ?_⟩
    exact step_number vals ops eu (next_token_pi (t := r) hcur hp hi)
  | e c hc =>
    refine ⟨lx.adv 1, by rw [cur_adv, hcur]; rfl, fun n vals ops eu => ?_⟩
    exact step_number vals ops eu (next_token_e (t := r) hcur hc)

theorem print_head : ∀ (e : Expr), e.ByPrecedence →
    ∃ c t, e.print = c :: t ∧ isspace c = false := by
  intro e
  induction e with
  | num tok v =>
    intro h
    obtain ⟨c, t, h1, h2, -⟩ := number_token_head h
    exact ⟨c, t, h1, h2⟩
  | bin l op r ihl _ =>
    intro h
    obtain ⟨c, t, h1, h2⟩ := ihl h.2.1
    exact ⟨c, t ++ ' ' :: op :: ' ' :: r.print, by simp [Expr.print, h1], h2⟩
  | paren e _ =>
    intro _
    exact ⟨'(', e.print ++ [')'], rfl, by decide⟩

theorem lvl_le (e : Expr) : e.lvl ≤ 5 := by
  cases e with
  | num tok v => exact Nat.le_refl 5
  | bin l op r => exact Nat.le_trans (precedence_le op) (by decide)
  | paren e => exact Nat.le_refl 5

/-- The main loop over the tokens of a tree of the grammar.  It leaves the
operands `pv` and the operators `po` of the tree on the stacks, above what was
there; `po` holds operators that bind at least as tightly as the tree, and
applying them from the top down leaves the value of the tree. -/
theorem run_expr (pow : Dbl → Dbl → Dbl) : ∀ (e : Expr), e.ByPrecedence →
    ∀ (v : Dbl), e.value pow = some v →
    ∀ (lx : Lexer) (rest : List Char), lx.cur = e.print ++ rest → Stops rest →
    ∃ (lx1 : Lexer) (pv : List Dbl) (po : List Char), lx1.cur = rest ∧
      (∀ o ∈ po, is_op_char o = true ∧ e.lvl ≤ precedence o) ∧
      (e.lvl = 5 → po = [] ∧ pv = [v]) ∧
      (∀ vals1, collapse pow (pv ++ vals1) po = .ok (v :: vals1)) ∧
      ∀ (n : Nat) (vals : List Dbl) (ops : List Char) (eu : Bool),
        (∀ t, ops.head? = some t → t = '(' ∨ precedence t < e.lvl ∨ 4 ≤ e.lvl) →
        main_loop pow (n + e.tokcount) lx vals ops eu
          = main_loop pow n lx1 (pv ++ vals) (po ++ ops) false := by
  intro e
  induction e with
  | num tok v0 =>
    intro hw v hv lx rest hcur hst
    simp only [Expr.value, Option.some.injEq] at hv
    subst hv
    obtain ⟨lx1, c1, s1⟩ := run_token pow hcur hw hst
    refine ⟨lx1, [v0], [], c1, by simp, fun _ => ⟨rfl, rfl⟩, fun vals1 => rfl,
      fun n vals ops eu _ => ?_⟩
    exact s1 n vals ops eu
  | paren e ih =>
    intro hw v hv lx rest hcur hst
    have hcur1 : lx.cur = '(' :: (e.print ++ (')' :: rest)) := by
      rw [hcur]; simp [Expr.print]
    obtain ⟨lx1, c1, s1⟩ := run_lparen pow hcur1
    obtain ⟨lx2, pv, po, c2, hpo, -, hcol, s2⟩ :=
      ih hw v hv lx1 (')' :: rest) c1 (stops_op (by simp))
    obtain ⟨lx3, c3, s3⟩ := run_rparen pow c2
    refine ⟨lx3, [v], [], c3, by simp, fun _ => ⟨rfl, rfl⟩, fun vals1 => rfl,
      fun n vals ops eu _ => ?_⟩
    have hf : n + (Expr.paren e).tokcount = (n + 1 + e.tokcount) + 1 := by
      simp only [Expr.tokcount]; omega
    rw [hf, s1, s2 _ _ _ _ (fun t ht => Or.inl (by simpa using ht.symm)), s3,
      rparen_loop_collapse pow po ops _ _ (fun t ht => (hpo t ht).1) (hcol vals)]
    simp
  | bin l op r ihl ihr =>
    intro hw v hv lx rest hcur hst
    obtain ⟨hop, hwl, hwr, hcaret, hleft⟩ := hw
    have hprec := precedence_op hop
    simp only [Expr.value] at hv
    cases hvl : l.value pow with
    | none => rw [hvl] at hv; simp at hv
    | some vl =>
    cases hvr : r.value pow with
    | none => rw [hvl, hvr] at hv; simp at hv
    | some vr =>
    rw [hvl, hvr] at hv
    simp only [] at hv
    have hcur1 : lx.cur = l.print ++ ([' '] ++ op :: ([' '] ++ (r.print ++ rest))) := by
      rw [hcur]; simp [Expr.print]
    obtain ⟨lx1, pvl, pol, c1, hpol, hatom, hcoll, s1⟩ :=
      ihl hwl vl hvl lx _ hcur1 (@stops_spaces [' '] (by decide))
    have hopsp : isspace op = false := by
      rcases op_char_cases hop with rfl | rfl | rfl | rfl | rfl <;> decide
    obtain ⟨lx2, c2, s2⟩ := run_spaces pow c1 (by decide)
      (by intro d hd; simp only [List.head?_cons, Option.some.injEq] at hd; subst hd; exact hopsp)
    obtain ⟨lx3, c3, s3⟩ := run_op pow c2 (op_char_cases hop)
      (by intro _ d hd
          simp only [List.singleton_append, List.head?_cons, Option.some.injEq] at hd
          subst hd; decide)
    obtain ⟨c, t, hpr, hcsp⟩ := print_head r hwr
    obtain ⟨lx4, c4, s4⟩ := run_spaces pow c3 (by decide)
      (by intro d hd
          rw [hpr] at hd
          simp only [List.cons_append, List.head?_cons, Option.some.injEq] at hd
          subst hd; exact hcsp)
    obtain ⟨lx5, pvr, por, c5, hpor, -, hcolr, s5⟩ := ihr hwr vr hvr lx4 rest c4 hst
    have hlr : precedence op ≤ r.lvl := by
      by_cases hc : op = '^'
      · have := (hcaret hc).2
        rw [hprec.2.2 hc]; exact this
      · exact Nat.le_of_lt (hleft hc).2
    refine ⟨lx5, pvr ++ [vl], por ++ [op], c5, ?_, ?_, ?_, ?_⟩
    · intro o ho
      rcases List.mem_append.1 ho with h | h
      · exact ⟨(hpor o h).1, Nat.le_trans hlr (hpor o h).2⟩
      · simp only [List.mem_singleton] at h
        subst h
        exact ⟨hop, Nat.le_refl _⟩
    · intro h5
      have := precedence_le op
      simp only [Expr.lvl] at h5
      omega
    · intro vals1
      have h1 : pvr ++ [vl] ++ vals1 = pvr ++ (vl :: vals1) := by simp
      rw [h1, collapse_append pow por [op] _ _ (hcolr (vl :: vals1)), collapse,
        apply_op_of_bin_value pow hop hv]
      rfl
    · intro n vals ops eu hadm
      simp only [Expr.lvl] at hadm
      have hf : n + (Expr.bin l op r).tokcount = (n + r.tokcount + 1) + l.tokcount := by
        simp only [Expr.tokcount]; omega
      have hfin : pvr ++ [vl] ++ vals = pvr ++ (vl :: vals) ∧
          por ++ [op] ++ ops = por ++ (op :: ops) := by simp
      rw [hfin.1, hfin.2]
      by_cases hc : op = '^'
      · have hl5 : l.lvl = 5 := by
          have := (hcaret hc).1
          have := lvl_le l
          omega
        obtain ⟨hpol0, hpvl0⟩ := hatom hl5
        subst hpol0 hpvl0
        rw [hf, s1 _ _ _ _ (fun t _ => Or.inr (Or.inr (by omega))), s2, s3]
        simp only [Bool.false_and, Bool.false_eq_true, if_false, List.nil_append,
          List.singleton_append]
        subst hc
        rw [op_loop_caret]
        simp only []
        rw [s4, s5 _ _ _ _ (fun t ht => by
          simp only [List.head?_cons, Option.some.injEq] at ht
          subst ht
          exact Or.inr (Or.inr (hcaret rfl).2))]
      · have hp4 : precedence op < 4 := by
          have := precedence_le op
          have : precedence op ≠ 4 := fun h => hc (hprec.2.1 h)
          omega
        have hra : right_associative op = false := by simp [right_associative, hc]
        have hstop : ∀ t, ops.head? = some t → t = '(' ∨ precedence t < precedence op := by
          intro t ht
          rcases hadm t ht with h | h | h
          · exact Or.inl h
          · exact Or.inr h
          · omega
        have hadml : ∀ t, ops.head? = some t → t = '(' ∨ precedence t < l.lvl ∨ 4 ≤ l.lvl := by
          intro t ht
          rcases hstop t ht with h | h
          · exact Or.inl h
          · exact Or.inr (Or.inl (Nat.lt_of_lt_of_le h (hleft hc).1))
        rw [hf, s1 _ _ _ _ hadml, s2, s3]
        simp only [Bool.false_and, Bool.false_eq_true, if_false]
        rw [op_loop_collapse pow hra pol ops hstop _ _
          (fun t ht => ⟨(hpol t ht).1, Nat.le_trans (hleft hc).1 (hpol t ht).2⟩) (hcoll vals)]
        simp only []
        rw [s4, s5 _ _ _ _ (fun t ht => by
          simp only [List.head?_cons, Option.some.injEq] at ht
          subst ht
          exact Or.inr (Or.inl (hleft hc).2))]

/-- The evaluation of the input of a tree of the grammar returns the value of
the tree. -/
theorem evaluate_print (pow : Dbl → Dbl → Dbl) (e : Expr) (hw : e.ByPrecedence) (v : Dbl)
    (hv : e.value pow = some v) : evaluate_expression pow e.print = some (.ok v) := by
  have c0 : (Lexer.mk e.print 0).cur = e.print ++ [] := by simp [Lexer.cur]
  obtain ⟨lx1, pv, po, c1, hpo, -, hcol, s1⟩ := run_expr pow e hw v hv _ [] c0 stops_nil
  refine evaluate_of_run (n := 1 + e.tokcount) ?_
  rw [s1 1 [] [] true (by intro t ht; simp at ht), run_end pow c1, List.append_nil,
    List.append_nil]
  have := hcol []
  rw [List.append_nil] at this
  rw [finalize_collapse pow po pv v (fun t ht => (hpo t ht).1) this]

/-! ### Every input of the grammar has a tree grouped by precedence -/

theorem print_attach (op : Char) (x : Expr) : ∀ t : Expr,
    (t.attach op x).print = t.print ++ ' ' :: op :: ' ' :: x.print := by
  intro t
  induction t with
  | num tok v => rfl
  | paren e _ => rfl
  | bin a o1 b _ ihb =>
    rw [Expr.attach]
    split
    · simp only [Expr.print, ihb, List.append_assoc, List.cons_append]
    · rfl

theorem lvl_attach (op : Char) (x : Expr) (t : Expr) :
    min t.lvl (precedence op) ≤ (t.attach op x).lvl := by
  cases t with
  | num tok v => exact Nat.min_le_right _ _
  | paren e => exact Nat.min_le_right _ _
  | bin a o1 b =>
    rw [Expr.attach]
    split
    · exact Nat.min_le_left _ _
    · exact Nat.min_le_right _ _

theorem by_precedence_attach {op : Char} (hop : is_op_char op = true) {x : Expr}
    (hx : x.ByPrecedence) (hx5 : x.lvl = 5) : ∀ t : Expr, t.ByPrecedence →
    (t.attach op x).ByPrecedence := by
  have hp := precedence_op hop
  have hp4 := precedence_le op
  intro t
  induction t with
  | num tok v =>
    intro ht
    exact ⟨hop, ht, hx, fun _ => ⟨Nat.lt_succ_self 4, by omega⟩,
      fun _ => ⟨by simp only [Expr.lvl]; omega, by omega⟩⟩
  | paren e _ =>
    intro ht
    exact ⟨hop, ht, hx, fun _ => ⟨Nat.lt_succ_self 4, by omega⟩,
      fun _ => ⟨by simp only [Expr.lvl]; omega, by omega⟩⟩
  | bin a o1 b _ ihb =>
    intro ht
    obtain ⟨ho1, ha, hb, hc1, hl1⟩ := ht
    have hp1 := precedence_op ho1
    have hra : right_associative op = true ↔ op = '^' := by simp [right_associative]
    rw [Expr.attach]
    split
    · rename_i hy
      have hlv := lvl_attach op x b
      refine ⟨ho1, ha, ihb hb, fun h => ⟨(hc1 h).1, ?_⟩, fun h => ⟨(hl1 h).1, ?_⟩⟩
      · have h4 := hp1.2.2 h
        have hb4 := (hc1 h).2
        have : 4 ≤ precedence op := by
          rcases hy with hy | hy <;> omega
        omega
      · have hb1 := (hl1 h).2
        have h14 : precedence o1 ≠ 4 := fun h4 => h (hp1.2.1 h4)
        have : precedence o1 < precedence op := by
          rcases hy with hy | hy
          · exact hy
          · have := hp.2.2 (hra.1 hy.2)
            omega
        omega
    · rename_i hy
      refine ⟨hop, ⟨ho1, ha, hb, hc1, hl1⟩, hx, fun h => ?_, fun h => ⟨?_, by omega⟩⟩
      · exfalso
        apply hy
        have := hp.2.2 h
        have := precedence_le o1
        rcases Nat.lt_or_ge (precedence o1) (precedence op) with h1 | h1
        · exact Or.inl h1
        · exact Or.inr ⟨by omega, hra.2 h⟩
      · simp only [Expr.lvl]
        rcases Nat.lt_or_ge (precedence o1) (precedence op) with h1 | h1
        · exact absurd (Or.inl h1) hy
        · exact h1

theorem print_join : ∀ (r t : Expr) (op : Char),
    (Expr.join t op r).print = t.print ++ ' ' :: op :: ' ' :: r.print := by
  intro r
  induction r with
  | num tok v => intro t op; rw [Expr.join]; exact print_attach op _ t
  | paren e _ => intro t op; rw [Expr.join]; exact print_attach op _ t
  | bin c o2 d ihc ihd =>
    intro t op
    rw [Expr.join, ihd, ihc]
    simp only [Expr.print, List.append_assoc, List.cons_append]

theorem by_precedence_join : ∀ (r : Expr), r.ByPrecedence → ∀ (t : Expr) (op : Char),
    t.ByPrecedence → is_op_char op = true → (Expr.join t op r).ByPrecedence := by
  intro r
  induction r with
  | num tok v =>
    intro hr t op ht hop
    rw [Expr.join]
    exact by_precedence_attach hop hr rfl t ht
  | paren e _ =>
    intro hr t op ht hop
    rw [Expr.join]
    exact by_precedence_attach hop hr rfl t ht
  | bin c o2 d ihc ihd =>
    intro hr t op ht hop
    rw [Expr.join]
    exact ihd hr.2.2.1 _ o2 (ihc hr.2.1 t op ht hop) hr.1

/-- Regrouping a derivation gives a tree grouped by precedence with the same
input. -/
theorem regroup_spec : ∀ (g : Expr), g.Generated →
    g.regroup.ByPrecedence ∧ g.regroup.print = g.print := by
  intro g
  induction g with
  | num tok v => intro h; exact ⟨h, rfl⟩
  | paren e ih =>
    intro h
    obtain ⟨h1, h2⟩ := ih h
    exact ⟨h1, by simp only [Expr.regroup, Expr.print, h2]⟩
  | bin l op r ihl ihr =>
    intro h
    obtain ⟨hl1, hl2⟩ := ihl h.2.1
    obtain ⟨hr1, hr2⟩ := ihr h.2.2
    refine ⟨by_precedence_join _ hr1 _ op hl1 h.1, ?_⟩
    rw [Expr.regroup, print_join, hl2, hr2]
    rfl

/-- A pass of the loop that continues has read a token: the cursor has moved
forward, inside the string. -/
theorem loop_body_advance (pow : Dbl → Dbl → Dbl) (st st1 : EvalState)
    (h : loop_body pow st = some st1) :
    st.lx.i < st1.lx.i ∧ st1.lx.i ≤ st.lx.s.length ∧ st1.lx.s = st.lx.s := by
  have hadv := next_token_advance st.lx
  unfold loop_body at h
  simp only [] at h
  cases hty : (next_token st.lx).1.type <;> rw [hty] at h hadv <;> simp only [] at h
  · simp only [Option.some.injEq] at h
    subst h
    exact hadv ⟨by decide, by decide⟩
  · cases hr : op_loop pow (next_token st.lx).1.op
      (if (st.expect_unary && (decide ((next_token st.lx).1.op = '+')
        || decide ((next_token st.lx).1.op = '-')))
        = true then Dbl.fin 0 :: st.vals else st.vals) st.ops with
    | error e => rw [hr] at h; simp at h
    | ok p =>
      rw [hr] at h
      simp only [Option.some.injEq] at h
      subst h
      exact hadv ⟨by decide, by decide⟩
  · simp only [Option.some.injEq] at h
    subst h
    exact hadv ⟨by decide, by decide⟩
  · cases hr : rparen_loop pow st.vals st.ops with
    | error e => rw [hr] at h; simp at h
    | ok p =>
      obtain ⟨v1, o1⟩ := p
      rw [hr] at h
      cases o1 with
      | nil => simp at h
      | cons top o2 =>
        simp only [] at h
        by_cases hp : top = '('
        · simp only [hp, ne_eq, not_true_eq_false, if_false, Option.some.injEq] at h
          subst h
          exact hadv ⟨by decide, by decide⟩
        · simp [hp] at h
  · simp at h
  · simp at h

/-- After `k` passes that continue, the cursor has moved by `k` at least. -/
theorem state_after_advance (pow : Dbl → Dbl → Dbl) :
    ∀ (k : Nat) (st st1 : EvalState), state_after pow st k = some st1 →
      st.lx.i + k ≤ st1.lx.i ∧ (0 < k → st1.lx.i ≤ st.lx.s.length) ∧ st1.lx.s = st.lx.s := by
  intro k
  induction k with
  | zero =>
    intro st st1 h
    simp only [state_after, Option.some.injEq] at h
    subst h
    exact ⟨Nat.le_refl _, fun h => absurd h (Nat.lt_irrefl 0), rfl⟩
  | succ k ih =>
    intro st st1 h
    simp only [state_after] at h
    cases hb : loop_body pow st with
    | none => rw [hb] at h; simp at h
    | some st2 =>
      rw [hb] at h
      simp only [Option.some_bind] at h
      obtain ⟨h1, h2, h3⟩ := loop_body_advance pow st st2 hb
      obtain ⟨g1, g2, g3⟩ := ih st2 st1 h
      refine ⟨by omega, fun _ => ?_, g3.trans h3⟩
      rcases Nat.eq_zero_or_pos k with hk | hk
      · subst hk
        simp only [state_after, Option.some.injEq] at h
        subst h
        exact h2
      · rw [← h3]; exact g2 hk

/-- No pass of the loop follows the pass number `strlen(expr) + 1`. -/
theorem state_after_length (pow : Dbl → Dbl → Dbl) (expr : List Char) :
    state_after pow ⟨⟨expr, 0⟩, [], [], true⟩ (expr.length + 1) = none := by
  cases h : state_after pow ⟨⟨expr, 0⟩, [], [], true⟩ (expr.length + 1) with
  | none => rfl
  | some st1 =>
    obtain ⟨h1, h2, -⟩ := state_after_advance pow _ _ _ h
    have h3 : st1.lx.i ≤ expr.length := h2 (Nat.succ_pos _)
    have h4 : 0 + (expr.length + 1) ≤ st1.lx.i := h1
    omega

/-! ## The claims -/

/-- C1 (the code departs from the claim): for all unsigned decimal literals
`a`, `b`, `c` the string `a+b*c` is not evaluated to `a + b*c`.  The `+` directly
before `b` is read as the sign of a number, the tokens are the three numbers
`a`, `+b`, `c` and the one operator `*`, and two operands are left at the end:
the evaluation fails with "Malformed expression", or with the overflow error
when `b*c` is not finite. -/
theorem sum_product_unspaced_fails (pow : Dbl → Dbl → Dbl) (a b c : List Char)
    (ha : IsUnsignedLiteral a) (hb : IsUnsignedLiteral b) (hc : IsUnsignedLiteral c) :
    evaluate_expression pow (a ++ '+' :: (b ++ '*' :: c))
      = some (.error (if ((litVal b).mul (litVal c)).isNanOrInf then .NumericOverflow
          else .MalformedExpression)) := by
  have la := lit_length_pos ha
  have lb := lit_length_pos hb
  have lc := lit_length_pos hc
  refine evaluate_of_main_loop (n := 5) ?_ (by simp; omega)
  have c0 : (Lexer.mk (a ++ '+' :: (b ++ '*' :: c)) 0).cur = a ++ '+' :: (b ++ '*' :: c) := rfl
  obtain ⟨lx1, c1, s1⟩ := run_lit pow c0 ha (stops_op (by simp))
  obtain ⟨lx2, c2, s2⟩ := run_signed pow c1 (Or.inl rfl) hb (stops_op (by simp))
  obtain ⟨lx3, c3, s3⟩ := run_op pow c2 (by simp) (by simp)
  obtain ⟨lx4, c4, s4⟩ := run_lit pow (r := []) (c3.trans (List.append_nil c).symm) hc
    stops_nil
  rw [s1, s2, s3]
  simp only [op_loop]
  rw [s4, run_end pow c4]
  cases hfin : ((litVal b).mul (litVal c)).isNanOrInf <;>
    simp [finalize, apply_op, ds_pop, hfin]

/-- C1, at the input `2+3*4`: the evaluation fails with "Malformed expression";
the value 14 is not returned. -/
theorem sum_product_unspaced_fails_at_2_3_4 :
    evaluate_expression ref_pow "2+3*4".toList = some (.error .MalformedExpression) :=
  (sum_product_unspaced_fails ref_pow "2".toList "3".toList "4".toList
    (lit_of_digits (by decide) (by decide)) (lit_of_digits (by decide) (by decide))
    (lit_of_digits (by decide) (by decide))).trans (by decide!)

/-- Normalization leaves the input `2+3*4`, which has no superscript, as it
is. -/
theorem sum_product_unspaced_normalized :
    normalize_superscripts (utf8 "2+3*4".toList) = utf8 "2+3*4".toList := by
  decide

/-- The same expressions with the operators set off by blanks have the values
the precedence table gives them. -/
theorem spaced_examples :
    evaluate_expression ref_pow "2 + 3 * 4".toList = some (.ok (.fin 14))
      ∧ evaluate_expression ref_pow "(2 + 3) * 4".toList = some (.ok (.fin 20)) := by
  decide!

/-- The first example of the help text of `start_calculator`,
`45.235*(45-7.8576)/56^3`, fails in the same way: `-7.8576` is read as one
number and two operands are left at the end. -/
theorem help_text_example_fails :
    evaluate_expression ref_pow "45.235*(45-7.8576)/56^3".toList
      = some (.error .MalformedExpression) := by
  decide!

/-- C2: exponentiation groups to the right.  For all unsigned decimal literals
`a`, `b`, `c` such that `pow(b,c)` and `pow(a,pow(b,c))` are finite, evaluating
the string `a^b^c` succeeds and returns `pow(a, pow(b, c))`. -/
theorem power_right_assoc (pow : Dbl → Dbl → Dbl) (a b c : List Char)
    (ha : IsUnsignedLiteral a) (hb : IsUnsignedLiteral b) (hc : IsUnsignedLiteral c)
    (h1 : (pow (litVal b) (litVal c)).isNanOrInf = false)
    (h2 : (pow (litVal a) (pow (litVal b) (litVal c))).isNanOrInf = false) :
    evaluate_expression pow (a ++ '^' :: (b ++ '^' :: c))
      = some (.ok (pow (litVal a) (pow (litVal b) (litVal c)))) := by
  have la := lit_length_pos ha
  have lb := lit_length_pos hb
  have lc := lit_length_pos hc
  refine evaluate_of_main_loop (n := 6) ?_ (by simp; omega)
  have c0 : (Lexer.mk (a ++ '^' :: (b ++ '^' :: c)) 0).cur = a ++ '^' :: (b ++ '^' :: c) := rfl
  obtain ⟨lx1, c1, s1⟩ := run_lit pow c0 ha (stops_op (by simp))
  obtain ⟨lx2, c2, s2⟩ := run_op pow c1 (by simp) (by simp)
  obtain ⟨lx3, c3, s3⟩ := run_lit pow c2 hb (stops_op (by simp))
  obtain ⟨lx4, c4, s4⟩ := run_op pow c3 (by simp) (by simp)
  obtain ⟨lx5, c5, s5⟩ := run_lit pow (r := []) (c4.trans (List.append_nil c).symm) hc
    stops_nil
  rw [s1, s2]
  simp only [op_loop]
  rw [s3, s4]
  simp [op_loop, precedence, right_associative]
  rw [s5, run_end pow c5]
  simp [finalize, apply_op, ds_pop, h1, h2]

/-- C2, at the input `2^3^2`: the result is 512, which is `2^(3^2)`. -/
theorem power_right_assoc_at_2_3_2 :
    evaluate_expression ref_pow "2^3^2".toList = some (.ok (.fin 512)) :=
  (power_right_assoc ref_pow "2".toList "3".toList "2".toList
    (lit_of_digits (by decide) (by decide)) (lit_of_digits (by decide) (by decide))
    (lit_of_digits (by decide) (by decide)) (by decide!) (by decide!)).trans (by decide!)

/-- C3 (the code departs from the claim): for all unsigned decimal literals
`a`, `b`, `c` the string `(a+b)*c` is not evaluated to `(a+b)*c`.  As in
`a+b*c`, the `+` directly before `b` is read as the sign of a number; no addition
is ever applied and two operands are left at the end. -/
theorem paren_sum_unspaced_fails (pow : Dbl → Dbl → Dbl) (a b c : List Char)
    (ha : IsUnsignedLiteral a) (hb : IsUnsignedLiteral b) (hc : IsUnsignedLiteral c) :
    evaluate_expression pow ('(' :: (a ++ '+' :: (b ++ ')' :: '*' :: c)))
      = some (.error (if ((litVal b).mul (litVal c)).isNanOrInf then .NumericOverflow
          else .MalformedExpression)) := by
  have la := lit_length_pos ha
  have lb := lit_length_pos hb
  have lc := lit_length_pos hc
  refine evaluate_of_main_loop (n := 7) ?_ (by simp; omega)
  have c0 : (Lexer.mk ('(' :: (a ++ '+' :: (b ++ ')' :: '*' :: c))) 0).cur
      = '(' :: (a ++ '+' :: (b ++ ')' :: '*' :: c)) := rfl
  obtain ⟨lx1, c1, s1⟩ := run_lparen pow c0
  obtain ⟨lx2, c2, s2⟩ := run_lit pow c1 ha (stops_op (by simp))
  obtain ⟨lx3, c3, s3⟩ := run_signed pow c2 (Or.inl rfl) hb (stops_op (by simp))
  obtain ⟨lx4, c4, s4⟩ := run_rparen pow c3
  obtain ⟨lx5, c5, s5⟩ := run_op pow c4 (by simp) (by simp)
  obtain ⟨lx6, c6, s6⟩ := run_lit pow (r := []) (c5.trans (List.append_nil c).symm) hc
    stops_nil
  rw [s1, s2, s3, s4]
  simp only [rparen_loop, ne_eq, not_true_eq_false, if_false]
  rw [s5]
  simp only [op_loop]
  rw [s6, run_end pow c6]
  cases hfin : ((litVal b).mul (litVal c)).isNanOrInf <;>
    simp [finalize, apply_op, ds_pop, hfin]

/-- C3, at the input `(2+3)*4`: the evaluation fails with "Malformed
expression"; the value 20 is not returned. -/
theorem paren_sum_unspaced_fails_at_2_3_4 :
    evaluate_expression ref_pow "(2+3)*4".toList = some (.error .MalformedExpression) :=
  (paren_sum_unspaced_fails ref_pow "2".toList "3".toList "4".toList
    (lit_of_digits (by decide) (by decide)) (lit_of_digits (by decide) (by decide))
    (lit_of_digits (by decide) (by decide))).trans (by decide!)

/-- C4, as amended: the sign directly before a literal belongs to that literal.
For every unsigned decimal literal `x` and unsigned integer literal `n` such
that `pow(0 - x, n)` is finite, evaluating the string `-x^n` succeeds and
returns `pow(0 - x, n)`. -/
theorem signed_base_power (pow : Dbl → Dbl → Dbl) (x n : List Char)
    (hx : IsUnsignedLiteral x) (hn : IsDigits n) (hne : n ≠ [])
    (hfin : (pow ((Dbl.fin 0).sub (litVal x)) (litVal n)).isNanOrInf = false) :
    evaluate_expression pow ('-' :: (x ++ '^' :: n))
      = some (.ok (pow ((Dbl.fin 0).sub (litVal x)) (litVal n))) := by
  have hnl := lit_of_digits hne hn
  have lx := lit_length_pos hx
  have ln := lit_length_pos hnl
  obtain ⟨q, hq⟩ := litVal_eq_round64 hx
  have hneg : (litVal x).neg = (Dbl.fin 0).sub (litVal x) := by
    rw [hq]; exact (round64_sub_zero q).symm
  refine evaluate_of_main_loop (n := 4) ?_ (by simp; omega)
  have c0 : (Lexer.mk ('-' :: (x ++ '^' :: n)) 0).cur = '-' :: (x ++ '^' :: n) := rfl
  obtain ⟨lx1, c1, s1⟩ := run_signed pow c0 (Or.inr rfl) hx (stops_op (by simp))
  obtain ⟨lx2, c2, s2⟩ := run_op pow c1 (by simp) (by simp)
  obtain ⟨lx3, c3, s3⟩ := run_lit pow (r := []) (c2.trans (List.append_nil n).symm) hnl
    stops_nil
  rw [s1, s2]
  simp only [op_loop, if_true, hneg]
  rw [s3, run_end pow c3]
  simp [finalize, apply_op, ds_pop, hfin]

/-- C4, at the input `-2^2`: the result is 4, which is `(0-2)^2`, not -4. -/
theorem signed_base_power_at_2_2 :
    evaluate_expression ref_pow "-2^2".toList = some (.ok (.fin 4)) :=
  (signed_base_power ref_pow "2".toList "2".toList (lit_of_digits (by decide) (by decide))
    (by decide) (by decide) (by decide!)).trans (by decide!)

/-- C4 as stated fails at `-10^400`: `(0-10)^400` exceeds the range of `double`
and the evaluation fails with the overflow error instead of returning it. -/
theorem signed_base_power_overflows :
    evaluate_expression ref_pow "-10^400".toList = some (.error .NumericOverflow)
      ∧ evaluate_expression ref_pow "-10^400".toList
          ≠ some (.ok (ref_pow ((Dbl.fin 0).sub (litVal "10".toList)) (litVal "400".toList))) := by
  decide!

/-- C5: an input that is one number token.  For white space `ws1`, `ws2` and a
number token `tok` of value `v` (an unsigned decimal literal, `pi` or `e` in
either letter case), the inputs `ws1 tok ws2` and `ws1 +tok ws2` evaluate to
`v` and `ws1 -tok ws2` evaluates to `-v`.  The value of `pi` is within `1e-9` of
3.14159265358979 and that of `e` within `1e-9` of 2.71828182845904. -/
theorem single_number_token (pow : Dbl → Dbl → Dbl) (ws1 tok ws2 : List Char) (v : Dbl)
    (h1 : IsSpaces ws1) (h2 : IsSpaces ws2) (ht : IsNumberToken tok v) :
    evaluate_expression pow (ws1 ++ (tok ++ ws2)) = some (.ok v)
      ∧ evaluate_expression pow (ws1 ++ '+' :: (tok ++ ws2)) = some (.ok v)
      ∧ evaluate_expression pow (ws1 ++ '-' :: (tok ++ ws2)) = some (.ok v.neg)
      ∧ (∃ q : ℚ, M_PI = .fin q ∧ |q - 314159265358979 / 100000000000000| < 1 / 1000000000)
      ∧ (∃ q : ℚ, M_E = .fin q ∧ |q - 271828182845904 / 100000000000000| < 1 / 1000000000) := by
  obtain ⟨e1, e2, e3⟩ := number_token_eval pow ws1 tok ws2 v h1 h2 ht
  refine ⟨e1, e2, e3, ?_, ?_⟩
  · refine ⟨_, rfl, ?_⟩
    rw [abs_lt]
    constructor <;> norm_num [Rat.mkRat_eq_div]
  · refine ⟨_, rfl, ?_⟩
    rw [abs_lt]
    constructor <;> norm_num [Rat.mkRat_eq_div]

/-- C5, at the inputs `42`, ` -3.5 `, `+7`, `pi`, `-Pi` and `E`. -/
theorem single_number_token_examples :
    evaluate_expression ref_pow "42".toList = some (.ok (.fin 42))
      ∧ evaluate_expression ref_pow " -3.5 ".toList = some (.ok (.fin (-7 / 2)))
      ∧ evaluate_expression ref_pow "+7".toList = some (.ok (.fin 7))
      ∧ evaluate_expression ref_pow "pi".toList = some (.ok M_PI)
      ∧ evaluate_expression ref_pow "-Pi".toList = some (.ok M_PI.neg)
      ∧ evaluate_expression ref_pow "E".toList = some (.ok M_E) :=
  ⟨(single_number_token ref_pow [] "42".toList [] _ (by decide) (by decide)
      (.lit _ (lit_of_digits (by decide) (by decide)))).1.trans (by decide!),
   (single_number_token ref_pow " ".toList "3.5".toList " ".toList _ (by decide) (by decide)
      (.lit _ (lit_of_frac "3".toList "5".toList (by decide) (by decide)
        (by decide)))).2.2.1.trans (by decide!),
   (single_number_token ref_pow [] "7".toList [] _ (by decide) (by decide)
      (.lit _ (lit_of_digits (by decide) (by decide)))).2.1.trans (by decide!),
   (single_number_token ref_pow [] "pi".toList [] _ (by decide) (by decide)
      (.pi 'p' 'i' (Or.inl rfl) (Or.inl rfl))).1,
   (single_number_token ref_pow [] "Pi".toList [] _ (by decide) (by decide)
      (.pi 'P' 'i' (Or.inr rfl) (Or.inl rfl))).2.2.1,
   (single_number_token ref_pow [] "E".toList [] _ (by decide) (by decide)
      (.e 'E' (Or.inr rfl))).1⟩

/-- C6: division by zero is its own error.  For every unsigned decimal literal
`a` and every optionally signed literal `z` whose value is exactly zero, the
string `a/z` fails with `DivisionByZero`, whose message is "Division by zero". -/
theorem division_by_zero_literal (pow : Dbl → Dbl → Dbl) (a sg z : List Char)
    (ha : IsUnsignedLiteral a) (hsg : sg = [] ∨ sg = ['+'] ∨ sg = ['-'])
    (hz : IsUnsignedLiteral z) (hzero : litVal z = .fin 0) :
    evaluate_expression pow (a ++ '/' :: (sg ++ z)) = some (.error .DivisionByZero)
      ∧ EvalError.DivisionByZero.message = "Division by zero" := by
  refine ⟨?_, rfl⟩
  have la := lit_length_pos ha
  have lz := lit_length_pos hz
  refine evaluate_of_main_loop (n := 4) ?_ (by simp; omega)
  have c0 : (Lexer.mk (a ++ '/' :: (sg ++ z)) 0).cur = a ++ '/' :: (sg ++ z) := rfl
  obtain ⟨lx1, c1, s1⟩ := run_lit pow c0 ha (stops_op (by simp))
  obtain ⟨lx2, c2, s2⟩ := run_op pow c1 (by simp) (by simp)
  obtain ⟨lx3, c3, s3⟩ := run_optsigned pow (r := []) (by simpa using c2) hsg hz stops_nil
  rw [s1, s2]
  simp only [op_loop]
  rw [s3, run_end pow c3]
  have hv : (if sg = ['-'] then (litVal z).neg else litVal z) = Dbl.fin 0 := by
    rw [hzero]; split <;> simp [Dbl.neg]
  rw [hv]
  simp [finalize, apply_op, ds_pop]

/-- C6, at the input `10/0`, and with the divisors `0.0` and `-0`. -/
theorem division_by_zero_literal_at_10_0 :
    evaluate_expression ref_pow "10/0".toList = some (.error .DivisionByZero)
      ∧ evaluate_expression ref_pow "10/0.0".toList = some (.error .DivisionByZero)
      ∧ evaluate_expression ref_pow "10/-0".toList = some (.error .DivisionByZero) :=
  ⟨(division_by_zero_literal ref_pow "10".toList [] "0".toList
      (lit_of_digits (by decide) (by decide)) (Or.inl rfl)
      (lit_of_digits (by decide) (by decide)) (by decide!)).1,
   (division_by_zero_literal ref_pow "10".toList [] "0.0".toList
      (lit_of_digits (by decide) (by decide)) (Or.inl rfl)
      (lit_of_frac "0".toList "0".toList (by decide) (by decide) (by decide))
      (by decide!)).1,
   (division_by_zero_literal ref_pow "10".toList "-".toList "0".toList
      (lit_of_digits (by decide) (by decide)) (Or.inr (Or.inr rfl))
      (lit_of_digits (by decide) (by decide)) (by decide!)).1⟩

/-- C7: an opening parenthesis that is never closed.  For all unsigned decimal
literals `a` and `b` the string `(a+b` fails with `MismatchedParens`, whose
message is "Mismatched parentheses". -/
theorem unclosed_paren (pow : Dbl → Dbl → Dbl) (a b : List Char)
    (ha : IsUnsignedLiteral a) (hb : IsUnsignedLiteral b) :
    evaluate_expression pow ('(' :: (a ++ '+' :: b)) = some (.error .MismatchedParens)
      ∧ EvalError.MismatchedParens.message = "Mismatched parentheses" := by
  refine ⟨?_, rfl⟩
  have la := lit_length_pos ha
  have lb := lit_length_pos hb
  refine evaluate_of_main_loop (n := 4) ?_ (by simp; omega)
  have c0 : (Lexer.mk ('(' :: (a ++ '+' :: b)) 0).cur = '(' :: (a ++ '+' :: b) := rfl
  obtain ⟨lx1, c1, s1⟩ := run_lparen pow c0
  obtain ⟨lx2, c2, s2⟩ := run_lit pow c1 ha (stops_op (by simp))
  obtain ⟨lx3, c3, s3⟩ := run_signed pow (g := '+') (r := []) (by simpa using c2)
    (Or.inl rfl) hb stops_nil
  rw [s1, s2, s3, run_end pow c3]
  simp [finalize]

/-- C7, at the input `(1+2`. -/
theorem unclosed_paren_at_1_2 :
    evaluate_expression ref_pow "(1+2".toList = some (.error .MismatchedParens) :=
  (unclosed_paren ref_pow "1".toList "2".toList (lit_of_digits (by decide) (by decide))
    (lit_of_digits (by decide) (by decide))).1

/-- C8: a binary operator with nothing to its right.  For every unsigned
decimal literal `a` and every operator `op` of `+ - * / ^`, the string `a op`
fails with `MissingOperands`, whose message is
"Malformed expression (missing operands)". -/
theorem trailing_operator (pow : Dbl → Dbl → Dbl) (a : List Char) (op : Char)
    (ha : IsUnsignedLiteral a)
    (hop : op = '+' ∨ op = '-' ∨ op = '*' ∨ op = '/' ∨ op = '^') :
    evaluate_expression pow (a ++ [op]) = some (.error .MissingOperands)
      ∧ EvalError.MissingOperands.message = "Malformed expression (missing operands)" := by
  refine ⟨?_, rfl⟩
  have la := lit_length_pos ha
  refine evaluate_of_main_loop (n := 3) ?_ (by simp; omega)
  have c0 : (Lexer.mk (a ++ [op]) 0).cur = a ++ [op] := rfl
  have hst : Stops [op] := stops_op (by
    rcases hop with h | h | h | h | h <;> simp [h])
  obtain ⟨lx1, c1, s1⟩ := run_lit pow c0 ha hst
  obtain ⟨lx2, c2, s2⟩ := run_op pow c1 hop (by simp)
  rw [s1, s2]
  simp only [op_loop]
  rw [run_end pow c2]
  rcases hop with rfl | rfl | rfl | rfl | rfl <;> simp [finalize, apply_op, ds_pop]

/-- C8, at the input `2+`. -/
theorem trailing_operator_at_2_plus :
    evaluate_expression ref_pow "2+".toList = some (.error .MissingOperands) :=
  (trailing_operator ref_pow "2".toList '+' (lit_of_digits (by decide) (by decide))
    (Or.inl rfl)).1

/-- C9 (the code departs from the claim): the literal `1e999` exceeds the
range of `double`; `strtod` converts it to `+infinity`, which is pushed without
a test and returned as the result of a successful evaluation. -/
theorem overflowing_literal_returned (pow : Dbl → Dbl → Dbl) :
    evaluate_expression pow "1e999".toList = some (.ok (.inf false)) :=
  (number_token_eval pow [] "1e999".toList [] _ (by decide) (by decide)
    (.lit _ (lit_of_exp "1".toList "999".toList 'e' (by decide) (by decide)
      (Or.inl rfl) (by decide) (by decide)))).1.trans (by decide!)

/-- C10: the byte-level normalizer implements the scalar-level specification.
For every sequence `s` of Unicode scalar values other than NUL,
`normalize_superscripts` applied to the UTF-8 encoding of `s` returns the UTF-8
encoding of `spec_normalize s`: each maximal run of superscript scalars replaced
by one `^` and the ASCII equivalents of its elements, every other scalar
copied. -/
theorem normalize_refines_spec (s : List Char) (h : ∀ c ∈ s, c ≠ '\x00') :
    normalize_superscripts (utf8 s) = utf8 (spec_normalize s) := by
  rw [normalize_superscripts, utf8_strlen h]
  exact (normalize_loop_utf8 s).1

/-- C10, at the inputs `5²` and `10⁻¹`, which give `5^2` and `10^-1`. -/
theorem normalize_refines_spec_examples :
    normalize_superscripts (utf8 "5²".toList) = utf8 "5^2".toList
      ∧ normalize_superscripts (utf8 "10⁻¹".toList) = utf8 "10^-1".toList :=
  ⟨(normalize_refines_spec "5²".toList (by decide)).trans (by decide!),
   (normalize_refines_spec "10⁻¹".toList (by decide)).trans (by decide!)⟩

/-- C11: a string with no superscript is returned unchanged.  For every sequence
`s` of Unicode scalar values other than NUL, none of them in the superscript set
of the specification, `normalize_superscripts` applied to the UTF-8 encoding of
`s` returns that encoding, byte for byte. -/
theorem normalize_without_superscript (s : List Char)
    (h : ∀ c ∈ s, c ≠ '\x00' ∧ spec_is_superscript c = false) :
    normalize_superscripts (utf8 s) = utf8 s := by
  rw [normalize_superscripts, utf8_strlen fun c hc => (h c hc).1, (normalize_loop_utf8 s).1,
    spec_normalize_id s fun c hc => (h c hc).2]

/-- C11, at the inputs `2+3*4` and `5^2 € 😀`. -/
theorem normalize_without_superscript_examples :
    normalize_superscripts (utf8 "2+3*4".toList) = utf8 "2+3*4".toList
      ∧ normalize_superscripts (utf8 "5^2 € 😀".toList) = utf8 "5^2 € 😀".toList :=
  ⟨normalize_without_superscript "2+3*4".toList (by decide),
   normalize_without_superscript "5^2 € 😀".toList (by decide)⟩

/-- C12: normalization is idempotent.  For every byte string `inp`, valid UTF-8
or not, `normalize_superscripts` applied to its own result returns that result:
the second pass copies every byte and inserts no caret. -/
theorem normalize_idempotent (inp : List Nat) :
    normalize_superscripts (normalize_superscripts inp) = normalize_superscripts inp := by
  unfold normalize_superscripts
  have hnz : ∀ x ∈ normalize_loop 0 false (inp.takeWhile fun b => b ≠ 0), x ≠ 0 :=
    normalize_loop_ne_zero _ (fun x hx => by simpa using List.mem_takeWhile_imp hx) 0 false
  have htw : (normalize_loop 0 false (inp.takeWhile fun b => b ≠ 0)).takeWhile (fun b => b ≠ 0)
      = normalize_loop 0 false (inp.takeWhile fun b => b ≠ 0) := by
    rw [List.takeWhile_eq_self_iff]
    intro x hx
    simpa using hnz x hx
  rw [htw]
  exact normalize_loop_idem _ _ (Nat.le_refl _) false false

/-- C13: the evaluator agrees with the reference grammar.  Let `g` be any
derivation of `E ::= number | E op E | ( E )`, the numbers being unsigned
literals, `pi` and `e`, and its input `g.print` written with one space on each
side of every operator.  The input has a parse tree grouped by the precedence
table (`^` = 4 right-associative, `*` `/` = 3 and `+` `-` = 2 left-associative,
parentheses grouping); and for every such tree `e` of the input whose reference
value `v` is defined (no zero divisor, every operator result finite),
`evaluate_expression` succeeds on the input and returns exactly `v`. -/
theorem evaluator_agrees_with_grammar (pow : Dbl → Dbl → Dbl) (g : Expr) (hg : g.Generated) :
    (∃ e : Expr, e.ByPrecedence ∧ e.print = g.print) ∧
    ∀ (e : Expr) (v : Dbl), e.ByPrecedence → e.print = g.print → e.value pow = some v →
      evaluate_expression pow g.print = some (.ok v) := by
  refine ⟨⟨g.regroup, regroup_spec g hg⟩, fun e v he hp hv => ?_⟩
  rw [← hp]
  exact evaluate_print pow e he v hv

/-- C13, at the input `2 + 3 * 4 ^ 2 / (1 + 1)`, which evaluates to
`2 + ((3 * (4 ^ 2)) / (1 + 1)) = 26`; the derivation given groups it from left
to right. -/
theorem evaluator_agrees_with_grammar_example :
    evaluate_expression ref_pow "2 + 3 * 4 ^ 2 / (1 + 1)".toList = some (.ok (.fin 26)) :=
  (evaluator_agrees_with_grammar ref_pow
    (.bin (.bin (.bin (.bin (.num "2".toList (litVal "2".toList)) '+'
        (.num "3".toList (litVal "3".toList))) '*'
        (.num "4".toList (litVal "4".toList))) '^'
        (.num "2".toList (litVal "2".toList))) '/'
      (.paren (.bin (.num "1".toList (litVal "1".toList)) '+'
        (.num "1".toList (litVal "1".toList)))))
    ⟨rfl, ⟨rfl, ⟨rfl, ⟨rfl, .lit _ (lit_of_digits (by decide) (by decide)),
      .lit _ (lit_of_digits (by decide) (by decide))⟩,
      .lit _ (lit_of_digits (by decide) (by decide))⟩,
      .lit _ (lit_of_digits (by decide) (by decide))⟩,
      ⟨rfl, .lit _ (lit_of_digits (by decide) (by decide)),
        .lit _ (lit_of_digits (by decide) (by decide))⟩⟩).2
    (.bin (.num "2".toList (litVal "2".toList)) '+'
      (.bin (.bin (.num "3".toList (litVal "3".toList)) '*'
          (.bin (.num "4".toList (litVal "4".toList)) '^'
            (.num "2".toList (litVal "2".toList)))) '/'
        (.paren (.bin (.num "1".toList (litVal "1".toList)) '+'
          (.num "1".toList (litVal "1".toList))))))
    (.fin 26)
    ⟨rfl, .lit _ (lit_of_digits (by decide) (by decide)),
      ⟨rfl, ⟨rfl, .lit _ (lit_of_digits (by decide) (by decide)),
          ⟨rfl, .lit _ (lit_of_digits (by decide) (by decide)),
            .lit _ (lit_of_digits (by decide) (by decide)),
            fun _ => ⟨by decide, by decide⟩, fun h => absurd rfl h⟩,
          fun h => absurd h (by decide), fun _ => ⟨by decide, by decide⟩⟩,
        ⟨rfl, .lit _ (lit_of_digits (by decide) (by decide)),
          .lit _ (lit_of_digits (by decide) (by decide)),
          fun h => absurd h (by decide), fun _ => ⟨by decide, by decide⟩⟩,
        fun h => absurd h (by decide), fun _ => ⟨by decide, by decide⟩⟩,
      fun h => absurd h (by decide), fun _ => ⟨by decide, by decide⟩⟩
    (by decide) (by decide!)

/-- C14 (the code departs from the claim): a sign read as an operator where an
operand is expected pushes `0.0` and is then handled as the binary operator, so
the operators waiting on the stack are applied to that zero first.  For all
unsigned decimal literals `a` and `x` of finite value, the string `a*-(x)` is
evaluated as `(a * 0) - x` and returns `-x`, where the claim has `a * (0 - x)`;
and the string `- - x` is evaluated as `(0 - 0) - x` and returns `-x`, where the
claim has `0 - (0 - x) = x`. -/
theorem unary_sign_takes_zero_operand (pow : Dbl → Dbl → Dbl) (a x : List Char)
    (ha : IsUnsignedLiteral a) (hx : IsUnsignedLiteral x)
    (hfa : (litVal a).isNanOrInf = false) (hfx : (litVal x).isNanOrInf = false) :
    evaluate_expression pow (a ++ '*' :: '-' :: '(' :: (x ++ [')']))
        = some (.ok (((litVal a).mul (.fin 0)).sub (litVal x)))
      ∧ ((litVal a).mul (.fin 0)).sub (litVal x) = (litVal x).neg
      ∧ evaluate_expression pow ('-' :: ' ' :: '-' :: ' ' :: x)
        = some (.ok (((Dbl.fin 0).sub (.fin 0)).sub (litVal x)))
      ∧ ((Dbl.fin 0).sub (.fin 0)).sub (litVal x) = (litVal x).neg := by
  obtain ⟨q, hq⟩ := litVal_eq_round64 hx
  have hneg : (Dbl.fin 0).sub (litVal x) = (litVal x).neg := by
    rw [hq]; exact round64_sub_zero q
  have hfn : ((litVal x).neg).isNanOrInf = false := by
    cases hv : litVal x with
    | fin r => rfl
    | inf s => rw [hv] at hfx; simp [Dbl.isNanOrInf] at hfx
    | nan => rw [hv] at hfx; simp [Dbl.isNanOrInf] at hfx
  have hmul : (litVal a).mul (.fin 0) = .fin 0 := by
    cases hv : litVal a with
    | fin r => simp [Dbl.mul, round64]
    | inf s => rw [hv] at hfa; simp [Dbl.isNanOrInf] at hfa
    | nan => rw [hv] at hfa; simp [Dbl.isNanOrInf] at hfa
  have h00 : (Dbl.fin 0).sub (.fin 0) = .fin 0 := by
    simp [Dbl.sub, Dbl.neg, Dbl.add, round64]
  refine ⟨?_, by rw [hmul, hneg], ?_, by rw [h00, hneg]⟩
  · refine evaluate_of_run (n := 7) ?_
    have c0 : (Lexer.mk (a ++ '*' :: '-' :: '(' :: (x ++ [')'])) 0).cur
        = a ++ '*' :: '-' :: '(' :: (x ++ [')']) := rfl
    obtain ⟨lx1, c1, s1⟩ := run_lit pow c0 ha (stops_op (by simp))
    obtain ⟨lx2, c2, s2⟩ := run_op pow c1 (by simp) (by simp)
    obtain ⟨lx3, c3, s3⟩ := run_op pow c2 (by simp) (by
      intro _ d hd
      simp only [List.head?_cons, Option.some.injEq] at hd
      subst hd; decide)
    obtain ⟨lx4, c4, s4⟩ := run_lparen pow c3
    obtain ⟨lx5, c5, s5⟩ := run_lit pow c4 hx (stops_op (by simp))
    obtain ⟨lx6, c6, s6⟩ := run_rparen pow c5
    rw [s1, s2]
    simp only [op_loop, Bool.false_and, Bool.false_eq_true, if_false]
    rw [s3]
    have hop : op_loop pow '-' (Dbl.fin 0 :: [litVal a]) ['*'] = .ok ([Dbl.fin 0], []) := by
      simp [op_loop, precedence, right_associative, apply_op, ds_pop, hmul, Dbl.isNanOrInf]
    simp only [Bool.true_and, decide_True, Bool.or_true, if_true, hop]
    rw [s4, s5, s6]
    simp only [rparen_loop, ne_eq, not_true_eq_false, if_false]
    rw [run_end pow c6]
    simp [finalize, apply_op, ds_pop, hmul, hneg, hfn]
  · refine evaluate_of_run (n := 4) ?_
    have c0 : (Lexer.mk ('-' :: ' ' :: '-' :: ' ' :: x) 0).cur
        = '-' :: ([' '] ++ '-' :: ([' '] ++ (x ++ []))) := by simp [Lexer.cur]
    obtain ⟨l1, c1, s1⟩ := run_op pow c0 (by simp) (by
      intro _ d hd
      simp only [List.singleton_append, List.head?_cons, Option.some.injEq] at hd
      subst hd; decide)
    obtain ⟨l2, c2, s2⟩ := run_spaces pow c1 (by decide) (by simp; decide)
    obtain ⟨l3, c3, s3⟩ := run_op pow c2 (by simp) (by
      intro _ d hd
      simp only [List.singleton_append, List.head?_cons, Option.some.injEq] at hd
      subst hd; decide)
    obtain ⟨lx, hlx⟩ := lit_head hx
    obtain ⟨l4, c4, s4⟩ := run_spaces pow c3 (by decide) (by
      obtain ⟨t, rfl, hc⟩ := hlx
      intro d hd
      simp only [List.cons_append, List.head?_cons, Option.some.injEq] at hd
      subst hd
      rcases hc with h | rfl
      · exact (isdigit_facts h).2.2.2.2.2.2.2.2.2.2
      · decide)
    obtain ⟨l5, c5, s5⟩ := run_lit pow c4 hx stops_nil
    rw [s1]
    simp only [op_loop, Bool.true_and, decide_True, Bool.or_true, if_true]
    rw [s2, s3]
    have hop : op_loop pow '-' (Dbl.fin 0 :: [Dbl.fin 0]) ['-'] = .ok ([Dbl.fin 0], []) := by
      simp [op_loop, precedence, right_associative, apply_op, ds_pop, h00, Dbl.isNanOrInf]
    simp only [Bool.true_and, decide_True, Bool.or_true, if_true, hop]
    rw [s4, s5, run_end pow c5]
    simp [finalize, apply_op, ds_pop, h00, hneg, hfn]

/-- C14, at the inputs of the claim: `2*-(3)` evaluates to -3, not to -6, and
`- - 3` evaluates to -3, not to 3. -/
theorem unary_sign_takes_zero_operand_at_2_3 :
    evaluate_expression ref_pow "2*-(3)".toList = some (.ok (.fin (-3)))
      ∧ evaluate_expression ref_pow "- - 3".toList = some (.ok (.fin (-3))) :=
  ⟨(unary_sign_takes_zero_operand ref_pow "2".toList "3".toList
      (lit_of_digits (by decide) (by decide)) (lit_of_digits (by decide) (by decide))
      (by decide!) (by decide!)).1.trans (by decide!),
   (unary_sign_takes_zero_operand ref_pow "2".toList "3".toList
      (lit_of_digits (by decide) (by decide)) (lit_of_digits (by decide) (by decide))
      (by decide!) (by decide!)).2.2.1.trans (by decide!)⟩

/-- C15 (counterexample to the claim as stated): in `1e308 - -1e308 - 1` the
tokens are the numbers `1e308`, `-1e308` and `1` with `-` between them; the
first difference exceeds the range of `double`, and the evaluation fails with
"Numeric overflow/invalid result" where the claim has the value of
`(a - b) - c`, which is `+infinity`. -/
theorem left_to_right_overflows :
    evaluate_expression ref_pow "1e308 - -1e308 - 1".toList
        = some (.error .NumericOverflow)
      ∧ ((litVal "1e308".toList).sub (litVal "1e308".toList).neg).sub (.fin 1)
        = .inf false := by
  decide!

/-- C15 (amended): two operators of equal precedence group left to right when
no intermediate result leaves the range of `double`.  Let the tokens of `expr`
be a number `a`, the operator `o`, a number `b`, `o` again, a number `c`, and
the end of input.  With `o = '-'` and `a - b`, `(a - b) - c` finite, the
evaluation returns `(a - b) - c`; with `o = '/'`, `b` and `c` not zero, and
`a / b`, `(a / b) / c` finite, it returns `(a / b) / c`. -/
theorem left_to_right (pow : Dbl → Dbl → Dbl) (expr : List Char) (o : Char) (a b c : Dbl)
    (lx1 lx2 lx3 lx4 lx5 lx6 : Lexer)
    (t1 : next_token { s := expr, i := 0 } = (⟨.T_NUMBER, a, '\x00'⟩, lx1))
    (t2 : next_token lx1 = (⟨.T_OP, .fin 0, o⟩, lx2))
    (t3 : next_token lx2 = (⟨.T_NUMBER, b, '\x00'⟩, lx3))
    (t4 : next_token lx3 = (⟨.T_OP, .fin 0, o⟩, lx4))
    (t5 : next_token lx4 = (⟨.T_NUMBER, c, '\x00'⟩, lx5))
    (t6 : next_token lx5 = (⟨.T_END, .fin 0, '\x00'⟩, lx6)) :
    (o = '-' → (a.sub b).isNanOrInf = false → ((a.sub b).sub c).isNanOrInf = false →
      evaluate_expression pow expr = some (.ok ((a.sub b).sub c))) ∧
    (o = '/' → b ≠ .fin 0 → c ≠ .fin 0 →
      (a.div b).isNanOrInf = false → ((a.div b).div c).isNanOrInf = false →
      evaluate_expression pow expr = some (.ok ((a.div b).div c))) := by
  have hrun : main_loop pow 6 { s := expr, i := 0 } [] [] true =
      match op_loop pow o [a] [] with
      | .error e => some (.error e)
      | .ok (vals1, ops1) =>
        match op_loop pow o (b :: vals1) (o :: ops1) with
        | .error e => some (.error e)
        | .ok (vals2, ops2) => some (finalize pow (c :: vals2) (o :: ops2)) := by
    rw [step_number _ _ _ t1, step_op _ _ _ t2]
    simp only [Bool.false_and, Bool.false_eq_true, if_false]
    cases op_loop pow o [a] [] with
    | error e => rfl
    | ok p =>
      obtain ⟨vals1, ops1⟩ := p
      simp only []
      rw [step_number _ _ _ t3, step_op _ _ _ t4]
      simp only [Bool.false_and, Bool.false_eq_true, if_false]
      cases op_loop pow o (b :: vals1) (o :: ops1) with
      | error e => rfl
      | ok p =>
        obtain ⟨vals2, ops2⟩ := p
        simp only []
        rw [step_number _ _ _ t5, step_end _ _ _ t6]
  constructor
  · rintro rfl h1 h2
    refine evaluate_of_run (n := 6) ?_
    rw [hrun]
    simp [op_loop, precedence, right_associative, apply_op, ds_pop, finalize, h1, h2]
  · rintro rfl hb hc h1 h2
    refine evaluate_of_run (n := 6) ?_
    rw [hrun]
    simp [op_loop, precedence, right_associative, apply_op, ds_pop, finalize, h1, h2, hb, hc]

/-- C15, at the inputs `8 - 3 - 2`, which gives 3 and not `8 - (3 - 2) = 7`, and
`8 / 4 / 2`, which gives 1 and not `8 / (4 / 2) = 4`. -/
theorem left_to_right_examples :
    evaluate_expression ref_pow "8 - 3 - 2".toList = some (.ok (.fin 3))
      ∧ evaluate_expression ref_pow "8 / 4 / 2".toList = some (.ok (.fin 1)) :=
  ⟨((left_to_right ref_pow "8 - 3 - 2".toList '-' (.fin 8) (.fin 3) (.fin 2)
      ⟨"8 - 3 - 2".toList, 1⟩ ⟨"8 - 3 - 2".toList, 3⟩ ⟨"8 - 3 - 2".toList, 5⟩
      ⟨"8 - 3 - 2".toList, 7⟩ ⟨"8 - 3 - 2".toList, 9⟩ ⟨"8 - 3 - 2".toList, 9⟩
      (by decide!) (by decide!) (by decide!) (by decide!) (by decide!) (by decide!)).1
      rfl (by decide!) (by decide!)).trans (by decide!),
   ((left_to_right ref_pow "8 / 4 / 2".toList '/' (.fin 8) (.fin 4) (.fin 2)
      ⟨"8 / 4 / 2".toList, 1⟩ ⟨"8 / 4 / 2".toList, 3⟩ ⟨"8 / 4 / 2".toList, 5⟩
      ⟨"8 / 4 / 2".toList, 7⟩ ⟨"8 / 4 / 2".toList, 9⟩ ⟨"8 / 4 / 2".toList, 9⟩
      (by decide!) (by decide!) (by decide!) (by decide!) (by decide!) (by decide!)).2
      rfl (by decide) (by decide) (by decide!) (by decide!)).trans (by decide!)⟩

/-- C16: unbalanced parentheses are never accepted.  Let `expr` be a C string
(no NUL inside).  If the number of `(` in `expr` differs from the number of `)`,
or some prefix of `expr` holds more `)` than `(`, then `evaluate_expression`
returns a failure and no value.  And after any number `k` of passes of the main
loop, the number of `(` on the operator stack is the number of `T_LPAREN` tokens
read less the number of `T_RPAREN` tokens read. -/
theorem unbalanced_parens_rejected (pow : Dbl → Dbl → Dbl) (expr : List Char)
    (hz : ∀ c ∈ expr, c ≠ '\x00') :
    ((expr.count '(' ≠ expr.count ')' ∨
        ∃ k, (expr.take k).count '(' < (expr.take k).count ')') →
      ∃ e, evaluate_expression pow expr = some (.error e)) ∧
    (∀ (k : Nat) (st : EvalState),
      state_after pow ⟨⟨expr, 0⟩, [], [], true⟩ k = some st →
      st.ops.count '(' + (tokens_read ⟨expr, 0⟩ k).count .T_RPAREN
        = (tokens_read ⟨expr, 0⟩ k).count .T_LPAREN) := by
  refine ⟨fun hbad => ?_, fun k st h => ?_⟩
  · obtain ⟨r, hr⟩ := evaluate_total pow expr
    cases r with
    | error e => exact ⟨e, hr⟩
    | ok v =>
      exfalso
      have hm := evaluate_ok_matched pow expr hz v hr
      rcases hbad with hne | ⟨k, hk⟩
      · exact hne (by have := hm.2; omega)
      · have := hm.1 k
        omega
  · have := state_after_count pow k _ st h
    simpa using this

/-- C16, at the inputs `(1 + 2`, `1 + 2)` and `)1 + 2(`: each fails, the last
with as many `(` as `)`. -/
theorem unbalanced_parens_rejected_examples :
    (∃ e, evaluate_expression ref_pow "(1 + 2".toList = some (.error e))
      ∧ (∃ e, evaluate_expression ref_pow "1 + 2)".toList = some (.error e))
      ∧ (∃ e, evaluate_expression ref_pow ")1 + 2(".toList = some (.error e)) :=
  ⟨(unbalanced_parens_rejected ref_pow "(1 + 2".toList (by decide)).1 (Or.inl (by decide)),
   (unbalanced_parens_rejected ref_pow "1 + 2)".toList (by decide)).1 (Or.inl (by decide)),
   (unbalanced_parens_rejected ref_pow ")1 + 2(".toList (by decide)).1
     (Or.inr ⟨1, by decide⟩)⟩

/-- C17 (the code departs from the claim): let `c` be a character that is not
white space and starts no token, followed by any `t`.  The tokenizer does as
claimed: at a cursor with white space `ws` before `c` it returns `T_INVALID` and
leaves the cursor on `c`.  The evaluator does not: the `T_INVALID` branch leaves
the loop with `break`, the final block applies the pending operators, and the
failure of one of them replaces the invalid-token message.  For every unsigned
literal `a` and operator `o`, the string `a o c t` (one space around `o`) fails
with `MissingOperands`, not with `InvalidToken`. -/
theorem invalid_token_report_overwritten (pow : Dbl → Dbl → Dbl) (c : Char) (t : List Char)
    (hc : (isspace c || c = '\x00' || c = '(' || c = ')' || isdigit c || c = '.'
      || is_op_char c || is_pi (c :: t) || c = 'e' || c = 'E') = false) :
    (∀ (lx : Lexer) (ws : List Char), lx.cur = ws ++ c :: t → IsSpaces ws →
      next_token lx = (⟨.T_INVALID, .fin 0, '\x00'⟩, { s := lx.s, i := lx.i + ws.length })) ∧
    (∀ (a : List Char) (o : Char), IsUnsignedLiteral a → is_op_char o = true →
      evaluate_expression pow (a ++ ' ' :: o :: ' ' :: c :: t)
        = some (.error .MissingOperands)) := by
  simp only [Bool.or_eq_false_iff, decide_eq_false_iff_not] at hc
  obtain ⟨⟨⟨⟨⟨⟨⟨⟨⟨hsp, h0⟩, hl⟩, hr⟩, hd⟩, hdot⟩, hop⟩, hpi⟩, he⟩, hE⟩ := hc
  have hinv : ∀ (lx : Lexer) (ws : List Char), lx.cur = ws ++ c :: t → IsSpaces ws →
      next_token lx = (⟨.T_INVALID, .fin 0, '\x00'⟩, lx.adv ws.length) :=
    fun lx ws hcur hws => next_token_invalid hcur hws hsp h0 hl hr hd hdot hop hpi ⟨he, hE⟩
  refine ⟨hinv, fun a o ha ho => ?_⟩
  have ho5 : o = '+' ∨ o = '-' ∨ o = '*' ∨ o = '/' ∨ o = '^' := by
    simpa [is_op_char, or_assoc] using ho
  refine evaluate_of_main_loop (n := 3) ?_ (by simp; omega)
  have c0 : (Lexer.mk (a ++ ' ' :: o :: ' ' :: c :: t) 0).cur
      = a ++ ([' '] ++ o :: ' ' :: c :: t) := rfl
  obtain ⟨lx1, c1, s1⟩ := run_lit pow c0 ha (@stops_spaces [' '] (by decide))
  obtain ⟨lx2, c2, s2⟩ := run_spaces pow c1 (by decide)
    (by rcases ho5 with rfl | rfl | rfl | rfl | rfl <;> simp <;> decide)
  obtain ⟨lx3, c3, s3⟩ := run_op pow c2 ho5
    (by intro _ d hd; simp only [List.head?_cons, Option.some.injEq] at hd; subst hd; decide)
  have h4 := hinv lx3 [' '] c3 (by decide)
  rw [s1, s2, s3]
  simp only [op_loop]
  rw [step_invalid _ _ _ h4]
  rcases ho5 with rfl | rfl | rfl | rfl | rfl <;> simp [finalize, apply_op, ds_pop]

/-- C17, at the input `2 + @`: the tokenizer reports the `@` at index 4, and the
evaluation fails with "Malformed expression (missing operands)". -/
theorem invalid_token_report_overwritten_at_2_plus_at :
    next_token { s := "2 + @".toList, i := 3 }
        = (⟨.T_INVALID, .fin 0, '\x00'⟩, { s := "2 + @".toList, i := 4 })
      ∧ evaluate_expression ref_pow "2 + @".toList = some (.error .MissingOperands)
      ∧ EvalError.MissingOperands.message = "Malformed expression (missing operands)" :=
  ⟨(invalid_token_report_overwritten ref_pow '@' [] (by decide)).1
      { s := "2 + @".toList, i := 3 } [' '] rfl (by decide),
    (invalid_token_report_overwritten ref_pow '@' [] (by decide)).2 "2".toList '+'
      (lit_of_digits (by decide) (by decide)) rfl, rfl⟩

/-- C18: evaluation terminates on every input.  A call of `next_token` that
returns a number, an operator, `(` or `)` leaves the cursor strictly greater
than before and at most the length of the string; a call that returns `T_END` or
`T_INVALID` ends the main loop, which then returns with one unit of fuel.  Hence
no pass of the loop follows the pass number `strlen(expr) + 1`: with one call of
`next_token` in each pass, `evaluate_expression` makes at most
`strlen(expr) + 1` calls, and its `strlen(expr) + 1` units of fuel always reach
a result. -/
theorem evaluation_terminates (pow : Dbl → Dbl → Dbl) (expr : List Char) :
    (∀ lx : Lexer,
      ((next_token lx).1.type = .T_NUMBER ∨ (next_token lx).1.type = .T_OP ∨
        (next_token lx).1.type = .T_LPAREN ∨ (next_token lx).1.type = .T_RPAREN) →
      lx.i < (next_token lx).2.i ∧ (next_token lx).2.i ≤ lx.s.length ∧
        (next_token lx).2.s = lx.s) ∧
    (∀ (lx : Lexer) (vals : List Dbl) (ops : List Char) (eu : Bool),
      ((next_token lx).1.type = .T_END ∨ (next_token lx).1.type = .T_INVALID) →
      loop_body pow ⟨lx, vals, ops, eu⟩ = none ∧
        ∃ r, main_loop pow 1 lx vals ops eu = some r) ∧
    state_after pow ⟨⟨expr, 0⟩, [], [], true⟩ (expr.length + 1) = none ∧
    (∀ (lx : Lexer) (vals : List Dbl) (ops : List Char) (eu : Bool),
      ∃ r, main_loop pow (lx.s.length - lx.i + 1) lx vals ops eu = some r) ∧
    ∃ r, evaluate_expression pow expr = some r := by
  refine ⟨fun lx h => next_token_advance lx ?_, fun lx vals ops eu h => ⟨?_, ?_⟩,
    state_after_length pow expr,
    fun lx vals ops eu => main_loop_total pow _ lx vals ops eu (Nat.lt_succ_self _),
    evaluate_total pow expr⟩
  · rcases h with h | h | h | h <;> rw [h] <;> exact ⟨by decide, by decide⟩
  · unfold loop_body
    rcases h with h | h <;> simp only [h]
  · obtain ⟨r, -, hr⟩ := main_loop_stops pow 0 lx vals ops eu h
    exact ⟨r, hr⟩

/-- C19: the `UnknownOperator` failure is unreachable.  `apply_op` on a
character of `+ - * / ^` never reports it; from an operator stack that holds
only `(` and characters of `+ - * / ^` the main loop never reports it, with any
fuel; and so `evaluate_expression`, which starts from the empty stack, never
fails with `UnknownOperator` on any input. -/
theorem unknown_operator_unreachable (pow : Dbl → Dbl → Dbl) (expr : List Char) (c : Char) :
    (∀ (vals : List Dbl) (op : Char), is_op_char op = true →
      apply_op pow vals op ≠ .error (.UnknownOperator c)) ∧
    (∀ (n : Nat) (lx : Lexer) (vals : List Dbl) (ops : List Char) (eu : Bool),
      (∀ o ∈ ops, o = '(' ∨ is_op_char o = true) →
      main_loop pow n lx vals ops eu ≠ some (.error (.UnknownOperator c))) ∧
    evaluate_expression pow expr ≠ some (.error (.UnknownOperator c)) :=
  ⟨fun vals _ hop => apply_op_known pow vals hop c, main_loop_known pow c,
    main_loop_known pow c _ _ _ _ _ (by intro o ho; simp at ho)⟩

/-- C20: the output of the normalizer fits its buffer.  For every byte string
`inp`, valid UTF-8 or not, with `n = strlen(inp)`: the output is no longer than
`n` bytes, so with its final NUL it takes at most `n + 1` of the `4*n + 8`
bytes allocated.  In each pass of the loop, on the byte `c` at index `i` and the
bytes `rest` after it, `1 ≤ adv` and `i + adv ≤ n`, so every byte read lies
inside the input; a superscript has `adv ≥ 2` and writes at most 2 bytes, and
anything else writes exactly the `adv` bytes it copies. -/
theorem normalize_output_bounded (inp : List Nat) :
    (normalize_superscripts inp).length ≤ (inp.takeWhile fun b => b ≠ 0).length ∧
    (normalize_superscripts inp).length + 1 ≤ 4 * (inp.takeWhile fun b => b ≠ 0).length + 8 ∧
    (∀ (k : Nat) (b : Bool) (l : List Nat), (normalize_loop k b l).length ≤ l.length - k) ∧
    ∀ (c : Nat) (rest : List Nat) (in_super : Bool),
      1 ≤ (decode c rest).2 ∧ (decode c rest).2 ≤ 1 + rest.length ∧
      (is_superscript (decode c rest).1 = true →
        2 ≤ (decode c rest).2 ∧
        (emit in_super (decode c rest).1 ((c :: rest).take (decode c rest).2)).1.length ≤ 2) ∧
      (is_superscript (decode c rest).1 = false →
        (emit in_super (decode c rest).1 ((c :: rest).take (decode c rest).2)).1
          = (c :: rest).take (decode c rest).2 ∧
        ((c :: rest).take (decode c rest).2).length = (decode c rest).2) := by
  have hlen := normalize_loop_length (inp.takeWhile fun b => b ≠ 0) 0 false
  rw [Nat.sub_zero] at hlen
  refine ⟨hlen, ?_, fun k b l => normalize_loop_length l k b, fun c rest in_super => ?_⟩
  · unfold normalize_superscripts
    omega
  · have hadv := decode_adv c rest
    refine ⟨hadv.1, hadv.2, fun hs => ⟨decode_super hs, ?_⟩, fun hs => ⟨?_, ?_⟩⟩
    · simp only [emit, hs, if_true]
      cases in_super <;> simp
    · simp [emit, hs]
    · rw [List.length_take, List.length_cons]
      omega

end Ccalc
